import Mathlib

/-!
# Anarcast proxy (`src/mjr/anarcast/proxy.c`): routing ring, graph codec, object sizes,
block transfers

A shallow embedding of the block-layer engine of the proxy.

* Bytes are natural numbers below 256; the object buffer `blocks` and the presence
  `mask` are lists addressed by offset, read with `List.getD` and written with `List.set`.
* The doubly linked server list is a `List node`: `head` is the list, `p->prev` exists
  exactly when the position of `p` is positive, `p->next` exactly when a later position
  exists.
* `HASHLEN`, `graphcount`, the table `graphs`, and the routines `hashdata`,
  `encryptdata` come from `anarcast.h`, `graphs.h` and `crypt.c`, which are not among the
  sources at hand; they are parameters throughout. The helper `xor` of `anarcast.h` is
  modelled from the specification.
* `unsigned int` and `int` arithmetic wraps modulo `2 ^ 32` where a length read from the
  client enters it: the graph index, the padding loop, the key length. Offsets into the
  object buffer are plain natural numbers: an object that `mbuf` can hold has all its
  offsets below `2 ^ 32`.
* Loops that need not end carry a bound on their rounds and return an `Option`; that
  they do end is proved where a claim depends on it.
* What the world outside answers is given in advance: the outcomes of the `connect`
  calls of `hookup` as a list of booleans, the answers to `select`, `hookup`, `writeall`
  and `readall` inside `do_request` as a list of `Reply` values. `readall` and `writeall`
  are declared in `anarcast.h`; what they may answer is modelled from the specification.
-/

namespace Anarcast

/-! ## Routing ring -/

/-- Comparison of the first `n` bytes of two byte strings, as the C library does it:
the result is the difference of the first pair of bytes that differ, `0` when there is
none. Only its sign is fixed by the C standard; nothing below depends on more than that
except where two results are compared, as `route` does. -/
def memcmp : List Nat → List Nat → Nat → Int
  | _, _, 0 => 0
  | a, b, n + 1 =>
    if a.headD 0 = b.headD 0 then memcmp a.tail b.tail n
    else (a.headD 0 : Int) - (b.headD 0 : Int)

/-- A node of the server list: `struct node` without its two link fields, which the
list order stands for. -/
structure node where
  addr : Nat
  hash : List Nat
deriving DecidableEq, Repr

/-- The four bytes of an `unsigned int` address in host (little-endian) order, the
input `hashdata(&addr, 4, ...)` sees. -/
def addrBytes (addr : Nat) : List Nat :=
  [addr % 256, addr / 256 % 256, addr / 65536 % 256, addr / 16777216 % 256]

/-- The walk of `addref` over a non-empty list: the new node goes in front of the first
node whose hash is greater than its own (cases "middle" and "first"), and behind the last
node when there is none (case "last"). -/
def addrefWalk (HASHLEN : Nat) (n : node) : List node → List node
  | [] => [n]
  | p :: rest =>
    if memcmp n.hash p.hash HASHLEN < 0 then n :: p :: rest
    else p :: addrefWalk HASHLEN n rest

/-- Function `addref`: allocate a node for `addr`, hash the address, link the node in. -/
def addref (HASHLEN : Nat) (hashdata : List Nat → List Nat) (head : List node)
    (addr : Nat) : List node :=
  let n : node := { addr := addr, hash := hashdata (addrBytes addr) }
  match head with
  | [] => [n]
  | p :: rest => addrefWalk HASHLEN n (p :: rest)

/-- The walk of `rmref`: unlink the first node whose hash equals `hash`; `none` when the
walk reaches the end of the list. -/
def rmrefWalk (HASHLEN : Nat) (hash : List Nat) : List node → Option (List node)
  | [] => none
  | p :: rest =>
    if memcmp p.hash hash HASHLEN = 0 then some rest
    else (rmrefWalk HASHLEN hash rest).map (fun r => p :: r)

/-- Function `rmref`: `none` is `die("address not found in linked list")`. -/
def rmref (HASHLEN : Nat) (hashdata : List Nat → List Nat) (head : List node)
    (addr : Nat) : Option (List node) :=
  rmrefWalk HASHLEN (hashdata (addrBytes addr)) head

/-- The first loop of `route` on a non-empty list: the position of the first node that
is the last one or whose hash is greater than `hash`. -/
def routeWalk (HASHLEN : Nat) (hash : List Nat) : List node → Nat
  | [] => 0
  | [_] => 0
  | p :: q :: rest =>
    if memcmp hash p.hash HASHLEN < 0 then 0
    else routeWalk HASHLEN hash (q :: rest) + 1

/-- The hash stored at a position of the list. -/
def hashAt (head : List node) (i : Nat) : List Nat :=
  (head[i]?).elim [] node.hash

/-- The node `route` ends on, as a position in the list. `none` is the failed
`assert(off < 3)` or `die("empty address list")`. -/
def routePick (HASHLEN : Nat) (head : List node) (hash : List Nat) (off : Int) :
    Option Nat :=
  if ¬ off < 3 then none
  else if head = [] then none
  else
    let p := routeWalk HASHLEN hash head
    let hasNext : Bool := decide (p + 1 < head.length)
    let hasPrev : Bool := decide (0 < p)
    if off ≠ 0 then
      if hasNext && !hasPrev then some (p + 1)
      else if !hasNext && hasPrev then some (p - 1)
      else if hasNext && hasPrev then
        if memcmp hash (hashAt head (p - 1)) HASHLEN
            > memcmp hash (hashAt head (p + 1)) HASHLEN then
          (if off = 1 then some (p + 1) else some (p - 1))
        else
          (if off = 1 then some (p - 1) else some (p + 1))
      else some p
    else some p

/-- Function `route`: the address of the node picked. -/
def route (HASHLEN : Nat) (head : List node) (hash : List Nat) (off : Int) :
    Option Nat :=
  (routePick HASHLEN head hash off).bind (fun p => (head[p]?).map node.addr)

/-- The primary pick in the words of the specification: the first node whose hash
exceeds the query, else the last node. -/
def firstGreater (HASHLEN : Nat) (head : List node) (hash : List Nat) : Option Nat :=
  match head.find? (fun p => decide (memcmp hash p.hash HASHLEN < 0)) with
  | some p => some p.addr
  | none => head.getLast?.map node.addr

/-- The list is in ascending order of hash. -/
def ringSorted (HASHLEN : Nat) (head : List node) : Prop :=
  head.Pairwise (fun a b => memcmp a.hash b.hash HASHLEN ≤ 0)

/-- No address occurs twice in the list. -/
def ringNodup (head : List node) : Prop :=
  (head.map node.addr).Nodup

instance (HASHLEN : Nat) (head : List node) : Decidable (ringSorted HASHLEN head) := by
  unfold ringSorted; infer_instance

instance (head : List node) : Decidable (ringNodup head) := by
  unfold ringNodup; infer_instance

/-- A membership event from the inform server. -/
inductive RefOp where
  | add (addr : Nat)
  | rm (addr : Nat)
deriving DecidableEq, Repr

/-- Run a sequence of membership events; `none` when an `rmref` dies. -/
def runOps (HASHLEN : Nat) (hashdata : List Nat → List Nat) :
    List node → List RefOp → Option (List node)
  | head, [] => some head
  | head, RefOp.add a :: ops => runOps HASHLEN hashdata (addref HASHLEN hashdata head a) ops
  | head, RefOp.rm a :: ops =>
    match rmref HASHLEN hashdata head a with
    | none => none
    | some r => runOps HASHLEN hashdata r ops

/-- Every `rmref` of the sequence names an address that is in the list when it runs. -/
def rmInRing (HASHLEN : Nat) (hashdata : List Nat → List Nat) :
    List node → List RefOp → Bool
  | _, [] => true
  | head, RefOp.add a :: ops => rmInRing HASHLEN hashdata (addref HASHLEN hashdata head a) ops
  | head, RefOp.rm a :: ops =>
    decide (a ∈ head.map node.addr) &&
      match rmref HASHLEN hashdata head a with
      | none => true
      | some r => rmInRing HASHLEN hashdata r ops

/-- Every `addref` of the sequence names an address that is not in the list when it
runs: the caller's side of "it better not be a duplicate!". -/
def addFresh (HASHLEN : Nat) (hashdata : List Nat → List Nat) :
    List node → List RefOp → Bool
  | _, [] => true
  | head, RefOp.add a :: ops =>
    decide (a ∉ head.map node.addr) &&
      addFresh HASHLEN hashdata (addref HASHLEN hashdata head a) ops
  | head, RefOp.rm a :: ops =>
    match rmref HASHLEN hashdata head a with
    | none => true
    | some r => addFresh HASHLEN hashdata r ops

/-- What holds of the list between membership events: ascending hashes, no address
twice, and every node carries the hash of its own address. -/
def ringInv (HASHLEN : Nat) (hashdata : List Nat → List Nat) (head : List node) : Prop :=
  ringSorted HASHLEN head ∧ ringNodup head ∧
    ∀ p ∈ head, p.hash = hashdata (addrBytes p.addr)

/-- A toy hash for concrete evaluations: the input bytes themselves. -/
def idHash (bytes : List Nat) : List Nat := bytes

/-- A three-node list used for concrete evaluations (hashes of length 1). -/
def ring3 : List node :=
  [{ addr := 10, hash := [20] }, { addr := 11, hash := [40] }, { addr := 12, hash := [60] }]


/-! ## Graphs and the XOR codec -/

/-- The `struct graph` of `graphs.h`, by the three fields the proxy uses: the number of
data blocks, the number of check blocks, and the bit matrix, one byte per list entry. -/
structure graph where
  dbc : Nat
  cbc : Nat
  graph : List Nat
deriving DecidableEq, Repr

/-- Function `is_set`: bit `db * cbc + cb` of the matrix, most significant bit of a
byte first. The result is an `int` that callers test against zero. -/
def is_set (g : graph) (db cb : Nat) : Nat :=
  ((g.graph.getD ((db * g.cbc + cb) / 8) 0) <<< ((db * g.cbc + cb) % 8)) &&& 128

/-- Modelled from the spec: the helper `xor(dst, src, len)` of `anarcast.h`, which is
not among the sources. "XOR `dblock_i` into `cblock_j`": byte `t` of the destination
becomes its old value XOR byte `t` of the source, for `t` from `0` to `len - 1` in
turn. Destination and source are offsets into the one object buffer. -/
def xor (buf : List Nat) (dst src : Nat) : Nat → List Nat
  | 0 => buf
  | len + 1 =>
    let b := xor buf dst src len
    b.set (dst + len) (b.getD (dst + len) 0 ^^^ b.getD (src + len) 0)

/-- The inner loop of the check block generation in `insert`: for check block `i`, XOR
every data block `j` with `is_set(&g, j, i)` into `blocks[dlen + i*blocksize]`. -/
def encodeCheck (g : graph) (blocksize dlen : Nat) (blocks : List Nat) (i : Nat) :
    List Nat :=
  (List.range g.dbc).foldl
    (fun b j =>
      if is_set g j i ≠ 0 then xor b (dlen + i * blocksize) (j * blocksize) blocksize
      else b)
    blocks

/-- The check block generation of `insert` (the loop over `i < g.cbc`). -/
def encode (g : graph) (blocksize : Nat) (blocks : List Nat) : List Nat :=
  (List.range g.cbc).foldl (encodeCheck g blocksize (g.dbc * blocksize)) blocks

/-- The XOR of the bytes at offset `t` of exactly the data blocks `i < dbc` that the
graph selects for check block `cb`, in the words of the specification. -/
def xorSelected (g : graph) (blocksize : Nat) (data : List Nat) (cb t : Nat) : Nat :=
  (((List.range g.dbc).filter (fun i => decide (is_set g i cb ≠ 0))).map
    (fun i => data.getD (i * blocksize + t) 0)).foldl (fun x y => x ^^^ y) 0

/-- The variables of the reconstruction loop of `request`: the object buffer, the
presence mask, the flag `a` (a block was built in this round) and the number `n` of
blocks still missing. -/
structure DecState where
  blocks : List Nat
  mask : List Nat
  a : Int
  n : Int
deriving DecidableEq, Repr

/-- The loop `for (i = n = 0 ; i < blockcount ; i++) if (!mask[i]) n++;`. -/
def countMissing (mask : List Nat) (blockcount : Nat) : Nat :=
  ((List.range blockcount).filter (fun i => decide (mask.getD i 0 = 0))).length

/-- The loop over `k` that looks for a data block of check block `j`, other than `i`,
that is still missing (the `goto next` test): `true` when there is none. -/
def othersPresent (g : graph) (mask : List Nat) (i j : Nat) : Bool :=
  (List.range g.dbc).all
    (fun k => !(decide (is_set g k j ≠ 0) && decide (mask.getD k 0 = 0) && decide (k ≠ i)))

/-- Check block `j` can rebuild data block `i`: it is present, `i` is one of its data
blocks, and all its other data blocks are present. -/
def usableCheck (g : graph) (mask : List Nat) (i j : Nat) : Bool :=
  decide (mask.getD (g.dbc + j) 0 ≠ 0) && decide (is_set g i j ≠ 0) && othersPresent g mask i j

/-- The XORs that rebuild data block `i` from check block `j`: first the check block,
then every other data block of `j`, all XORed into `blocks[i*blocksize]`. -/
def rebuildData (g : graph) (blocksize : Nat) (blocks : List Nat) (i j : Nat) : List Nat :=
  (List.range g.dbc).foldl
    (fun b k =>
      if is_set g k j ≠ 0 ∧ k ≠ i then xor b (i * blocksize) (k * blocksize) blocksize
      else b)
    (xor blocks (i * blocksize) ((g.dbc + j) * blocksize) blocksize)

/-- One round of the first inner loop of the reconstruction (data block `i`): skip it
when present, else take the first usable check block, if any. -/
def dataStep (g : graph) (blocksize : Nat) (s : DecState) (i : Nat) : DecState :=
  if s.mask.getD i 0 ≠ 0 then s
  else
    match (List.range g.cbc).find? (fun j => usableCheck g s.mask i j) with
    | none => s
    | some j =>
      { blocks := rebuildData g blocksize s.blocks i j
        mask := s.mask.set i 1
        a := 1
        n := s.n - 1 }

/-- The XORs that rebuild check block `i` from its data blocks. -/
def rebuildCheck (g : graph) (blocksize : Nat) (blocks : List Nat) (i : Nat) : List Nat :=
  (List.range g.dbc).foldl
    (fun b j =>
      if is_set g j i ≠ 0 then xor b ((g.dbc + i) * blocksize) (j * blocksize) blocksize
      else b)
    blocks

/-- One round of the second inner loop of the reconstruction (check block `i`): skip it
when present or when one of its data blocks is missing (`goto next2`). -/
def checkStep (g : graph) (blocksize : Nat) (s : DecState) (i : Nat) : DecState :=
  if s.mask.getD (g.dbc + i) 0 ≠ 0 then s
  else if (List.range g.dbc).any
      (fun j => decide (is_set g j i ≠ 0) && decide (s.mask.getD j 0 = 0)) then s
  else
    { blocks := rebuildCheck g blocksize s.blocks i
      mask := s.mask.set (g.dbc + i) 1
      a := 1
      n := s.n - 1 }

/-- The body of the `do ... while` loop: `a = 0`, then the data pass, then the check
pass. -/
def decodePass (g : graph) (blocksize : Nat) (s : DecState) : DecState :=
  (List.range g.cbc).foldl (checkStep g blocksize)
    ((List.range g.dbc).foldl (dataStep g blocksize) { s with a := 0 })

/-- The loop `do { ... } while (a && n);` with a bound on the number of rounds; `none`
when the bound is used up. -/
def decodeLoop (g : graph) (blocksize : Nat) : Nat → DecState → Option DecState
  | 0, _ => none
  | fuel + 1, s =>
    let s1 := decodePass g blocksize s
    if s1.a ≠ 0 ∧ s1.n ≠ 0 then decodeLoop g blocksize fuel s1 else some s1

/-- The reconstruction of `request` from the count of missing blocks to the end of the
loop. Every round but the last builds a block, so `blockcount + 1` rounds are always
enough (`decode_returns`). -/
def decode (g : graph) (blocksize : Nat) (blocks mask : List Nat) : Option DecState :=
  decodeLoop g blocksize (g.dbc + g.cbc + 1)
    { blocks := blocks, mask := mask, a := 0, n := countMissing mask (g.dbc + g.cbc) }

/-- A graph with one data block and one check block that is its copy. -/
def graph11 : graph := { dbc := 1, cbc := 1, graph := [128] }

/-- A graph with three data blocks and two check blocks: check block 0 covers data
blocks 0 and 1, check block 1 covers data blocks 1 and 2 (bits `10 11 01`). -/
def graph32 : graph := { dbc := 3, cbc := 2, graph := [180] }

/-- Every block present in `s` is present in `s1` with the same mask entry and the same
bytes. -/
def keepsPresent (blocksize : Nat) (s s1 : DecState) : Prop :=
  ∀ p, s.mask.getD p 0 ≠ 0 →
    s1.mask.getD p 0 = s.mask.getD p 0 ∧
    ∀ t, t < blocksize →
      s1.blocks.getD (p * blocksize + t) 0 = s.blocks.getD (p * blocksize + t) 0

/-- The measure that bounds the rounds of the reconstruction: the number of zero mask
entries, plus one when the flag `a` is up. -/
def missingRank (s : DecState) : Nat :=
  s.mask.count 0 + (if s.a ≠ 0 then 1 else 0)

/-! ## Object sizes: graph lookup and block size -/

/-- The statement `blocksize = 64 * sqrt(datalength);` for an `unsigned int` length. The
square root is taken in double precision and the product is truncated on assignment.
For a length below `2 ^ 32` the result is the integer square root of
`4096 * datalength`: the correctly rounded root of a number below `2 ^ 44` never reaches
the next integer, and scaling by 64 is exact. -/
def blocksize0 (datalength : Nat) : Nat :=
  Nat.sqrt (4096 * datalength)

/-- How "find the graph for this datablock count" ends in `insert` and `request`. -/
inductive Lookup where
  /-- The division `datalength/blocksize` with `blocksize == 0`. -/
  | divzero
  /-- The branch `alert("I do not have a graph for %d data blocks.")`; `return`. -/
  | unsupported (count : Nat)
  /-- The read `graphs[index]` with `index` not an entry of the table. -/
  | outside (index : Nat)
  /-- The read `graphs[index]` of an entry of the table. -/
  | found (index : Nat) (g : graph)
deriving DecidableEq, Repr

/-- The lines
`if (datalength/blocksize > graphcount) { alert(...); return; }`
`g = graphs[datalength/blocksize-1];`
in `unsigned int` arithmetic: the index wraps modulo `2 ^ 32`. -/
def findGraph (graphcount : Nat) (graphs : List graph) (datalength : Nat) : Lookup :=
  let blocksize := blocksize0 datalength
  if blocksize = 0 then Lookup.divzero
  else if datalength / blocksize > graphcount then Lookup.unsupported (datalength / blocksize)
  else
    let index := (datalength / blocksize + 2 ^ 32 - 1) % 2 ^ 32
    match graphs[index]? with
    | none => Lookup.outside index
    | some g => Lookup.found index g

/-- The loop `while (g.dbc * blocksize < datalength + (datalength % 16)) blocksize++;`
in `unsigned int` arithmetic, with a bound on the number of rounds; `none` when the bound
is used up. -/
def padBlocksize (dbc datalength : Nat) : Nat → Nat → Option Nat
  | 0, _ => none
  | fuel + 1, blocksize =>
    if dbc * blocksize % 2 ^ 32 < (datalength + datalength % 16) % 2 ^ 32 then
      padBlocksize dbc datalength fuel ((blocksize + 1) % 2 ^ 32)
    else some blocksize

/-- The number of rounds after which the padding loop has seen every value of
`blocksize` and so never ends. -/
def padRounds : Nat := 2 ^ 32

/-- The number of bytes `encryptdata` and `decryptdata` are asked to work on. -/
def cryptLength (datalength : Nat) : Nat :=
  datalength + 16 - datalength % 16

/-! ## `request` up to the download -/

/-- A C `int` after an operation that may leave the 32-bit range. -/
def wrapInt32 (x : Int) : Int :=
  (x + 2 ^ 31) % 2 ^ 32 - 2 ^ 31

/-- How far `request` gets before `do_request`. -/
inductive Parsed where
  /-- The branch of the failed test `i % HASHLEN || i == HASHLEN`, with the value of
  `i`: the call `alert("Bad key length: %s.", i)` hands the `int i` to the conversion
  `%s` of `vprintf`, which C does not define; the `return` behind it is reached only if
  that call comes back. -/
  | badKeyLengthAlert (i : Int)
  /-- The branch `alert("Error reading key from client.")`; `return`. -/
  | readError
  /-- No graph: the lookup did not end on a table entry. -/
  | noGraph (r : Lookup)
  /-- The padding loop does not end. -/
  | hang
  /-- The call `do_request(blocks, mask, blockcount, blocksize, &hashes[HASHLEN])`. -/
  | download (g : graph) (blockcount blocksize : Nat)
deriving DecidableEq, Repr

/-- Function `request` from the key length to the download. `keylen` is the `int` read
from the client, `readOk` tells whether the two `readall` calls for the data length and
the `keylen - 4` bytes of hashes both deliver, `datalength` is the length they deliver. -/
def requestFront (HASHLEN graphcount : Nat) (graphs : List graph) (keylen : Int)
    (readOk : Bool) (datalength : Nat) : Parsed :=
  let i := wrapInt32 (keylen - 4)
  if i.tmod HASHLEN ≠ 0 ∨ i = HASHLEN then Parsed.badKeyLengthAlert i
  else if readOk = false then Parsed.readError
  else
    match findGraph graphcount graphs datalength with
    | Lookup.found _ g =>
      match padBlocksize g.dbc datalength padRounds (blocksize0 datalength) with
      | none => Parsed.hang
      | some blocksize => Parsed.download g (g.dbc + g.cbc) blocksize
    | r => Parsed.noGraph r

/-- The number `k` of hashes the specification asks of a key for `datalength` bytes:
`1 + d + c` for the graph the table gives, when it gives one. -/
def hashesWanted (graphcount : Nat) (graphs : List graph) (datalength : Nat) : Option Nat :=
  match findGraph graphcount graphs datalength with
  | Lookup.found _ g => some (1 + g.dbc + g.cbc)
  | _ => none

/-- The size `i` of the buffer `hashes = malloc(i)` that holds the hashes of the key: the
key length read from the client less the four bytes of the data length. -/
def hashBytesHeld (keylen : Int) : Int :=
  wrapInt32 (keylen - 4)

/-- The end of the bytes of `hashes` that the download reads: `do_request` is handed
`&hashes[HASHLEN]` and, `mask` being zero throughout, calls
`hookup(&hashes[next*HASHLEN], 0)` for every `next < blockcount`, which reads `HASHLEN`
bytes from there. -/
def hashBytesNeeded (HASHLEN blockcount : Nat) : Nat :=
  HASHLEN + blockcount * HASHLEN

/-! ## `insert` -/

/-- A key (URI) as `insert` writes it to the client: the 4-byte key length, the 4-byte
data length, and the hashes, first that of the plaintext, then one per block. -/
structure Key where
  keylen : Nat
  datalength : Nat
  hashes : List (List Nat)
deriving DecidableEq, Repr

/-- How `insert` ends once the plaintext has been announced. -/
inductive Inserted where
  /-- No graph: the lookup did not end on a table entry. -/
  | noGraph (r : Lookup)
  /-- The padding loop does not end. -/
  | hang
  /-- A write past the end of the object buffer. -/
  | fault
  /-- The key is written to the client and `do_insert` gets all blocks of the buffer. -/
  | done (key : Key) (g : graph) (blocksize : Nat) (blocks : List Nat)
deriving DecidableEq, Repr

/-- The bytes of block `p` of an object buffer. -/
def blockAt (blocks : List Nat) (blocksize p : Nat) : List Nat :=
  (blocks.drop (p * blocksize)).take blocksize

/-- Function `insert` for a client that sends `plaintext` (its length, then its bytes)
and reads the key. `hashdata` and `encryptdata` are the routines of `crypt.c`, which is
not among the sources; `encryptdata data key` works on a copy of the first bytes of the
buffer. The buffer from `mbuf` is taken to be zero-filled. `junk` is the value of the
local `i`, which is read by `memset(&blocks[i], 0, dlen - i)` before anything is
assigned to it: from `junk` greater than `dlen` on, the `unsigned` length `dlen - i`
wraps and the `memset` leaves the buffer. -/
def insert (HASHLEN graphcount : Nat) (graphs : List graph)
    (hashdata : List Nat → List Nat) (encryptdata : List Nat → List Nat → List Nat)
    (junk : Nat) (plaintext : List Nat) : Inserted :=
  let datalength := plaintext.length
  match findGraph graphcount graphs datalength with
  | Lookup.found _ g =>
    match padBlocksize g.dbc datalength padRounds (blocksize0 datalength) with
    | none => Inserted.hang
    | some blocksize =>
      let dlen := g.dbc * blocksize
      let clen := g.cbc * blocksize
      let len := dlen + clen
      if dlen < junk then Inserted.fault
      else if len < cryptLength datalength then Inserted.fault
      else
        let blocks0 := plaintext ++ List.replicate (len - datalength) 0
        let h0 := hashdata plaintext
        let blocks1 :=
          encryptdata (blocks0.take (cryptLength datalength)) h0
            ++ blocks0.drop (cryptLength datalength)
        let blocks2 := encode g blocksize blocks1
        let hashes :=
          h0 :: (List.range (g.dbc + g.cbc)).map
            (fun p => hashdata (blockAt blocks2 blocksize p))
        Inserted.done
          { keylen := (1 + g.dbc + g.cbc) * HASHLEN + 4
            datalength := datalength
            hashes := hashes }
          g blocksize blocks2
  | r => Inserted.noGraph r

/-- The plaintext of scenario S1: 1024 bytes, byte `i` is `i mod 251`. -/
def plaintextS1 : List Nat :=
  (List.range 1024).map (fun i => i % 251)

/-- The object `orig` is encoded for the graph: every check block is the XOR of the data
blocks the graph selects for it. -/
def isEncoded (g : graph) (blocksize : Nat) (orig : List Nat) : Prop :=
  ∀ j, j < g.cbc → ∀ t, t < blocksize →
    orig.getD ((g.dbc + j) * blocksize + t) 0 = xorSelected g blocksize orig j t

/-- The buffer of `s` holds the block of `orig` at every present position and zeros at
every missing one. -/
def cleanAgainst (g : graph) (blocksize : Nat) (orig : List Nat) (s : DecState) : Prop :=
  s.blocks.length = (g.dbc + g.cbc) * blocksize ∧
  ∀ p, p < g.dbc + g.cbc → ∀ t, t < blocksize →
    s.blocks.getD (p * blocksize + t) 0
      = if s.mask.getD p 0 ≠ 0 then orig.getD (p * blocksize + t) 0 else 0

instance (g : graph) (blocksize : Nat) (orig : List Nat) :
    Decidable (isEncoded g blocksize orig) := by
  unfold isEncoded; infer_instance

/-! ## `hookup` -/

/-- The loop "until connect works" of `hookup`, with the outcome of each `connect` call
given in advance (`true`: the call returns 0 or fails with `EINPROGRESS`; `false`: it
fails otherwise). A failed call removes the address just tried with `rmref` and routes
again with `off = 0`. The result is the list of servers the loop leaves behind and the
address the socket is connected to; `none` when `rmref` or `route` dies, or when the
given outcomes run out. -/
def hookupLoop (HASHLEN : Nat) (hashdata : List Nat → List Nat) (hash : List Nat) :
    List node → Nat → List Bool → Option (List node × Nat)
  | _, _, [] => none
  | head, addr, ok :: outcomes =>
    if ok then some (head, addr)
    else
      match rmref HASHLEN hashdata head addr with
      | none => none
      | some head1 =>
        match route HASHLEN head1 hash 0 with
        | none => none
        | some addr1 => hookupLoop HASHLEN hashdata hash head1 addr1 outcomes

/-- Function `hookup`: route the hash, then connect. The descriptor it returns is a
fresh socket, which plays no part in what happens to the list of servers. -/
def hookup (HASHLEN : Nat) (hashdata : List Nat → List Nat) (head : List node)
    (hash : List Nat) (off : Int) (outcomes : List Bool) : Option (List node × Nat) :=
  match route HASHLEN head hash off with
  | none => none
  | some addr => hookupLoop HASHLEN hashdata hash head addr outcomes

/-- The list of servers without the first node that carries the hash of address `a`:
what a call `rmref(a)` that does not die leaves behind. -/
def withoutServer (HASHLEN : Nat) (hashdata : List Nat → List Nat) (head : List node)
    (a : Nat) : List node :=
  head.eraseP (fun n => decide (memcmp n.hash (hashdata (addrBytes a)) HASHLEN = 0))

/-- The list of servers after the nodes for the addresses `tried` have been taken out
one after the other. -/
def ringAfter (HASHLEN : Nat) (hashdata : List Nat → List Nat) (head : List node)
    (tried : List Nat) : List node :=
  tried.foldl (withoutServer HASHLEN hashdata) head

/-- No address occurs twice in the list, and the hash a node carries is the hash of its
own address and of no other address in the list: what `addref` gives for fresh addresses
and a hash without collisions. -/
def ringOwnHashes (HASHLEN : Nat) (hashdata : List Nat → List Nat) (head : List node) :
    Prop :=
  ringNodup head ∧
    ∀ n ∈ head, ∀ m ∈ head,
      (memcmp n.hash (hashdata (addrBytes m.addr)) HASHLEN = 0 ↔ n.addr = m.addr)

instance (HASHLEN : Nat) (hashdata : List Nat → List Nat) (head : List node) :
    Decidable (ringOwnHashes HASHLEN hashdata head) := by
  unfold ringOwnHashes; infer_instance

/-- The number of `connect` calls that fail before the first one that does not. -/
def failedConnects (outcomes : List Bool) : Nat :=
  (outcomes.takeWhile (fun ok => !ok)).length

/-- A list of three servers as `addref` builds it with the toy hash `idHash`. -/
def ring359 : List node :=
  addref 4 idHash (addref 4 idHash (addref 4 idHash [] 5) 3) 9

/-! ## `request` after the download -/

/-- What `request` does once the plaintext is written to the client. -/
inductive AfterWrite where
  /-- The branch `if (!m) goto out;`: no block was missing. -/
  | noReinsert
  /-- The branch `alert("Check block %d does not verify.")`; `goto out`. -/
  | checkMismatch (i : Nat)
  /-- The call `do_insert(blocks, mask2, blockcount, blocksize, &hashes[HASHLEN])`. -/
  | reinsert (blocks mask2 : List Nat)
deriving DecidableEq, Repr

/-- How `request` ends once `do_request` has returned. -/
inductive Served where
  /-- The reconstruction loop does not end. -/
  | hang
  /-- The branch `alert("Data was not recoverable.")`; `goto out`, with the positions
  still missing. Nothing is written to the client. -/
  | irrecoverable (missing : List Nat)
  /-- The call of `decryptdata` on more bytes than the buffer has. -/
  | fault
  /-- The branch `alert("Data integrity did not verify.")`; `goto out`. Nothing is
  written to the client. -/
  | integrity
  /-- The data length and `plaintext` are written to the client. -/
  | written (plaintext : List Nat) (after : AfterWrite)
deriving DecidableEq, Repr

/-- The buffer after `decryptdata(blocks, datalength + 16 - (datalength % 16), hashes)`.
The routine of `crypt.c` works in place on the first bytes of the buffer; its key
argument points at the first hash of the key. -/
def decryptBuffer (HASHLEN : Nat) (decryptdata : List Nat → List Nat → List Nat)
    (datalength : Nat) (hashes blocks : List Nat) : List Nat :=
  decryptdata (blocks.take (cryptLength datalength)) (hashes.take HASHLEN)
    ++ blocks.drop (cryptLength datalength)

/-- The loop "verify integrity of reconstructed check blocks": the first check block
that is missing in `mask2` and whose bytes do not hash to its hash in the key. -/
def firstBadCheck (HASHLEN : Nat) (hashdata : List Nat → List Nat) (g : graph)
    (blocksize : Nat) (hashes blocks mask2 : List Nat) : Option Nat :=
  (List.range g.cbc).find? (fun i =>
    decide (mask2.getD (g.dbc + i) 0 = 0) &&
    decide (memcmp (hashdata (blockAt blocks blocksize (g.dbc + i)))
      (hashes.drop ((1 + g.dbc + i) * HASHLEN)) HASHLEN ≠ 0))

/-- Function `request` from the label `verify` on, for a client that reads what is
written: `blocks` is the buffer at the label, `m` the number of blocks that were missing
after the download, `mask2` the mask saved before the reconstruction. -/
def verifyAndReinsert (HASHLEN : Nat) (hashdata : List Nat → List Nat)
    (decryptdata : List Nat → List Nat → List Nat) (g : graph)
    (blocksize datalength : Nat) (hashes blocks : List Nat) (m : Nat)
    (mask2 : List Nat) : Served :=
  if blocks.length < cryptLength datalength then Served.fault
  else
    let plain := decryptBuffer HASHLEN decryptdata datalength hashes blocks
    if memcmp (hashdata (plain.take datalength)) hashes HASHLEN ≠ 0 then Served.integrity
    else
      Served.written (plain.take datalength)
        (if m = 0 then AfterWrite.noReinsert
         else
           match firstBadCheck HASHLEN hashdata g blocksize hashes plain mask2 with
           | some i => AfterWrite.checkMismatch i
           | none => AfterWrite.reinsert plain mask2)

/-- Function `request` from the return of `do_request` on: `blocks` and `mask` are what
the download left, `hashes` the bytes of the key after the data length. -/
def requestAfterDownload (HASHLEN : Nat) (hashdata : List Nat → List Nat)
    (decryptdata : List Nat → List Nat → List Nat) (g : graph)
    (blocksize datalength : Nat) (hashes blocks mask : List Nat) : Served :=
  if countMissing mask (g.dbc + g.cbc) = 0 then
    verifyAndReinsert HASHLEN hashdata decryptdata g blocksize datalength hashes blocks 0 []
  else
    match decode g blocksize blocks mask with
    | none => Served.hang
    | some s =>
      if s.n ≠ 0 then
        Served.irrecoverable
          ((List.range (g.dbc + g.cbc)).filter (fun i => decide (s.mask.getD i 0 = 0)))
      else
        verifyAndReinsert HASHLEN hashdata decryptdata g blocksize datalength hashes
          s.blocks (countMissing mask (g.dbc + g.cbc)) mask

/-- The plaintext `request` has written to the client, if any. -/
def Served.toClient : Served → Option (List Nat)
  | Served.written plaintext _ => some plaintext
  | _ => none

/-- The buffer and the mask `request` has handed to `do_insert`, if it got there. -/
def Served.toInsert : Served → Option (List Nat × List Nat)
  | Served.written _ (AfterWrite.reinsert blocks mask2) => some (blocks, mask2)
  | _ => none

/-- A toy hash of one byte for concrete evaluations: the sum of the bytes modulo 256. -/
def sumHash (bytes : List Nat) : List Nat := [bytes.sum % 256]

/-- A toy cipher for concrete evaluations: every byte is XORed with 255, so encryption
and decryption coincide. -/
def flipCipher (data _key : List Nat) : List Nat := data.map (fun b => b ^^^ 255)

/-- Data block `i0` is missing and no check block that is present covers it. -/
def stuckAt (g : graph) (i0 : Nat) (s : DecState) : Prop :=
  s.mask.getD i0 0 = 0 ∧
  ∀ j, j < g.cbc → s.mask.getD (g.dbc + j) 0 ≠ 0 → is_set g i0 j = 0

/-- The counter `n` of the reconstruction loop is the number of zero mask entries. -/
def countsMissing (g : graph) (s : DecState) : Prop :=
  s.mask.length = g.dbc + g.cbc ∧ s.n = (s.mask.count 0 : Int)

/-- A small object for concrete evaluations: the plaintext `[7]`, padded to one block of
16 bytes and encrypted with `flipCipher`. -/
def demoBlock : List Nat := 248 :: List.replicate 15 255

/-- The padded plaintext `[7]` as one block of 16 bytes. -/
def demoPlainBlock : List Nat := 7 :: List.replicate 15 0

/-- The key of the demo object for `graph11`, `sumHash` and `flipCipher`, one byte per
hash: the hash of the plaintext, of the data block and of the check block. -/
def demoHashes : List Nat := [7, 233, 233]

/-! ## `do_request`

The transfer loop is single-threaded; what it does depends on what the operating system
and the servers answer. Those answers are given in advance as a list of `Reply` values
that the loop consumes in order: one per call of `select`, `hookup`, `writeall` and
`readall`. A run that asks for an answer of another kind than the list holds next, or
that dies (`die`, a failed `close`), is `none`. -/

/-- One answer of the world outside to `do_request`. -/
inductive Reply where
  /-- The call of `select` returns the number of descriptors in `s` and `x`, the
  descriptors of the read set and of the write set that are ready. -/
  | ready (s x : List Nat)
  /-- The call of `hookup` returns the descriptor `c`. -/
  | sock (c : Nat)
  /-- The call of `writeall` or `readall` returns `n`; a `readall` has stored `bytes`. -/
  | moved (n : Int) (bytes : List Nat)
deriving DecidableEq, Repr

/-- One entry of the array `xfers` of `do_request`. The field `tries` is the field
`try`; `dlen` holds the four bytes of the `int`, lowest first. -/
structure Xfer where
  num : Nat
  tries : Int
  off : Int
  dlen : List Nat
deriving DecidableEq, Repr

/-- The variables of `do_request`. The descriptor sets `r` and `w` are lists of
descriptors. `alerts` collects the block numbers of the two `alert` calls of the read
path, "Data length read for block %d is incorrect" and "Integrity of block %d does not
verify". -/
structure ReqState where
  blocks : List Nat
  mask : List Nat
  xfers : Nat → Xfer
  r : List Nat
  w : List Nat
  m : Nat
  next : Nat
  active : Int
  alerts : List Nat

/-- The macro `FD_SET`. -/
def fdSet (c : Nat) (set : List Nat) : List Nat :=
  if c ∈ set then set else c :: set

/-- The macro `FD_CLR`. -/
def fdClr (i : Nat) (set : List Nat) : List Nat :=
  set.filter (fun k => decide (k ≠ i))

/-- The constant `CONCURRENCY`. -/
def CONCURRENCY : Int := 8

/-- The value of an `int` stored as four bytes, lowest first. -/
def intOfBytes (bytes : List Nat) : Int :=
  wrapInt32 ((bytes.getD 0 0 + 256 * bytes.getD 1 0 + 65536 * bytes.getD 2 0
    + 16777216 * bytes.getD 3 0 : Nat) : Int)

/-- What `readall` leaves in the buffer: `bytes` stored from offset `pos` on. -/
def store (buf : List Nat) (pos : Nat) : List Nat → List Nat
  | [] => buf
  | b :: bytes => store (buf.set pos b) (pos + 1) bytes

/-- The entry `xfers[c]` after the assignments that set up a transfer; the field `dlen`
keeps what it held. -/
def setXfer (xfers : Nat → Xfer) (c num : Nat) (tries off : Int) : Nat → Xfer :=
  Function.update xfers c { num := num, tries := tries, off := off, dlen := (xfers c).dlen }

/-- The statement `++xfers[i].try`. -/
def bumpTries (xfers : Nat → Xfer) (i : Nat) : Nat → Xfer :=
  Function.update xfers i { (xfers i) with tries := (xfers i).tries + 1 }

/-- An assignment to `xfers[i].off`. -/
def setOff (xfers : Nat → Xfer) (i : Nat) (off : Int) : Nat → Xfer :=
  Function.update xfers i { (xfers i) with off := off }

/-- The bytes of `xfers[i].dlen` after a `readall` into the field. -/
def setDlen (xfers : Nat → Xfer) (i : Nat) (dlen : List Nat) : Nat → Xfer :=
  Function.update xfers i { (xfers i) with dlen := dlen }

/-- A call of `hookup` inside `do_request`: the next answer must be a descriptor, and
the operating system never hands out a descriptor that is still open (one in `r` or
`w`). Which server `hookup` connects to plays no part in the loop. -/
def takeSock (st : ReqState) : List Reply → Option (Nat × List Reply)
  | Reply.sock c :: script => if c ∈ st.r ∨ c ∈ st.w then none else some (c, script)
  | _ => none

/-- The loop "make new connections". Each round moves `next` forward, so `blockcount`
rounds are always enough. -/
def connectNew (blockcount : Nat) :
    Nat → ReqState → List Reply → Option (ReqState × List Reply)
  | 0, st, script =>
    if st.active < CONCURRENCY ∧ st.next < blockcount then none else some (st, script)
  | fuel + 1, st, script =>
    if st.active < CONCURRENCY ∧ st.next < blockcount then
      if st.mask.getD st.next 0 ≠ 0 then
        connectNew blockcount fuel { st with next := st.next + 1 } script
      else
        match takeSock st script with
        | none => none
        | some (c, script1) =>
          connectNew blockcount fuel
            { st with
              w := fdSet c st.w
              m := if c ≥ st.m then c + 1 else st.m
              xfers := setXfer st.xfers c st.next 0 (-1)
              active := st.active + 1
              next := st.next + 1 }
            script1
    else some (st, script)

/-- The statement `close(i)` with its `die`: closing a descriptor that is not open
fails. -/
def closeFd (st : ReqState) (i : Nat) : Option Unit :=
  if i ∈ st.r ∨ i ∈ st.w then some () else none

/-- The branch `if (n <= 0)` of the read loop, after the `close` and the `FD_CLR`: count
the try, then either set up a new transfer for the same block on a new descriptor, with
`off` as given, or give the block up. The call of `hookup` gets `xfers[i].try`, a value
below 3. -/
def retryOrGiveUp (st : ReqState) (script : List Reply) (i : Nat) (off : Int) :
    Option (ReqState × List Reply) :=
  let st1 : ReqState := { st with xfers := bumpTries st.xfers i }
  if (st1.xfers i).tries < 3 then
    match takeSock st1 script with
    | none => none
    | some (c, script1) =>
      some ({ st1 with
              w := fdSet c st1.w
              xfers := setXfer st1.xfers c (st1.xfers i).num (st1.xfers i).tries off },
            script1)
  else some ({ st1 with active := st1.active - 1 }, script)

/-- The branch `if (n <= 0)` of the send loop, after the `close` and the `FD_CLR`. Its
call of `hookup` is `int c = hookup(&hashes[xfers[i].num*HASHLEN], xfers[c].try)`: the
argument reads the local `c` that the call is to initialise, so no value is defined for
it. With `flat = false` a run that gets there has no result; with `flat = true` the
argument is whatever `int` the memory holds, and `hookup` returns a descriptor or the run
dies (a fault, the `assert(off < 3)` of `route`), as the answers say. -/
def retrySend (flat : Bool) (st : ReqState) (script : List Reply) (i : Nat) :
    Option (ReqState × List Reply) :=
  if flat = false ∧ (bumpTries st.xfers i i).tries < 3 then none
  else retryOrGiveUp st script i (-1)

/-- The number of bytes the `writeall` of the send loop is asked to write: one for the
command byte, else what is left of the hash. -/
def sendLength (HASHLEN : Nat) (off : Int) : Int :=
  if off = -1 then 1 else (HASHLEN : Int) - off

/-- Modelled from the spec: the answers `writeall(fd, buf, asked)` of `anarcast.h` can
give: it returns no more than it was asked to write. -/
def writeallMay (asked n : Int) : Prop :=
  n ≤ asked

instance (asked n : Int) : Decidable (writeallMay asked n) := by
  unfold writeallMay; infer_instance

/-- One round of the loop "send request to eligible servers", for descriptor `i`; `x`
is the write set `select` has returned. -/
def sendStep (flat : Bool) (HASHLEN : Nat) (x : List Nat)
    (acc : Option (ReqState × List Reply)) (i : Nat) : Option (ReqState × List Reply) :=
  match acc with
  | none => none
  | some (st, script) =>
    if i ∉ x then some (st, script)
    else
      match script with
      | Reply.moved n _ :: script1 =>
        let afterError : Option (ReqState × List Reply) :=
          if ¬ writeallMay (sendLength HASHLEN (st.xfers i).off) n then none
          else if n ≤ 0 then
            match closeFd st i with
            | none => none
            | some _ => retrySend flat { st with w := fdClr i st.w } script1 i
          else some (st, script1)
        match afterError with
        | none => none
        | some (st2, script2) =>
          let off1 := (st2.xfers i).off + n
          let st3 : ReqState := { st2 with xfers := setOff st2.xfers i off1 }
          if off1 = HASHLEN then
            some ({ st3 with
                    w := fdClr i st3.w
                    r := fdSet i st3.r
                    xfers := setOff st3.xfers i (-4) },
                  script2)
          else some (st3, script2)
      | _ => none

/-- The low bytes of a nonnegative `int` replaced by `bytes`, lowest first. -/
def pokeNat (old : Nat) (bytes : List Nat) : Nat :=
  old - old % 256 ^ bytes.length + (bytes.reverse.foldl (fun acc b => 256 * acc + b) 0)

/-- The low bytes of an `int` replaced by `bytes`, lowest first; fewer than four bytes
leave the sign as it was. -/
def pokeInt (old : Int) (bytes : List Nat) : Int :=
  old - old % 256 ^ bytes.length +
    ((bytes.reverse.foldl (fun acc b => 256 * acc + b) 0 : Nat) : Int)

/-- The array `xfers` after `bytes` were stored at `(&xfers[i].dlen)[k]` for `k` from 1
to 3: `dlen` is the last of the four `int`s of an entry, so the `int` number `k` after
it is the field `num`, `try` or `off` of `xfers[i+1]`. -/
def pokeNext (xfers : Nat → Xfer) (i k : Nat) (bytes : List Nat) : Nat → Xfer :=
  Function.update xfers (i + 1)
    (if k = 1 then { (xfers (i + 1)) with num := pokeNat (xfers (i + 1)).num bytes }
     else if k = 2 then
       { (xfers (i + 1)) with tries := pokeInt (xfers (i + 1)).tries bytes }
     else { (xfers (i + 1)) with off := pokeInt (xfers (i + 1)).off bytes })

/-- Modelled from the spec: the answers `readall(fd, buf, asked)` of `anarcast.h` can
give. It returns no more than it was asked for, and a positive `n` comes with the `n`
bytes it has stored. Fewer bytes than asked may come: "All socket I/O is non-blocking;
readiness drives advancement of the per-slot offset". -/
def readallMay (asked n : Int) (bytes : List Nat) : Prop :=
  n ≤ asked ∧ (0 < n → (bytes.length : Int) = n)

instance (asked n : Int) (bytes : List Nat) : Decidable (readallMay asked n bytes) := by
  unfold readallMay; infer_instance

/-- The call of `readall` in the loop "read our precious data" with its effect on the
state. With `off` negative the target is `&(&xfers[i].dlen)[4+n]`, an offset counted in
`int`s: for `off = -4` that is `dlen` itself, for `off` from -3 to -1 it lies outside the
field. What a store there does is not defined in C; `flat` chooses between the two
readings: with `flat = false` the run has no result, with `flat = true` the bytes go
where the array has its next `int`s, into `xfers[i+1]`. -/
def readInto (flat : Bool) (blocksize : Nat) (st : ReqState) (i : Nat) (n : Int)
    (bytes : List Nat) : Option ReqState :=
  let n0 := (st.xfers i).off
  if ¬ readallMay (if n0 < 0 then -n0 else (blocksize : Int) - n0) n bytes then none
  else if n ≤ 0 then some st
  else if n0 < 0 then
    if n0 = -4 then
      some { st with
             xfers := setDlen st.xfers i (bytes ++ (st.xfers i).dlen.drop bytes.length) }
    else if flat = true ∧ -4 < n0 then
      some { st with xfers := pokeNext st.xfers i (4 + n0).toNat bytes }
    else none
  else
    some { st with
           blocks := store st.blocks ((st.xfers i).num * blocksize + n0.toNat) bytes }

/-- The branch "is the data length incorrect?" of the read loop. -/
def lengthCheck (blocksize : Nat) (st : ReqState) (i : Nat) : Option ReqState :=
  if (st.xfers i).off = 0 ∧ intOfBytes (st.xfers i).dlen ≠ (blocksize : Int) then
    match closeFd st i with
    | none => none
    | some _ =>
      some { st with
             r := fdClr i st.r
             active := st.active - 1
             alerts := (st.xfers i).num :: st.alerts }
  else some st

/-- The branch "are we done reading the data?" of the read loop: hash the block,
compare with its hash in the key, set the mask entry on a match. -/
def doneCheck (HASHLEN : Nat) (hashdata : List Nat → List Nat) (blocksize : Nat)
    (hashes : List Nat) (st : ReqState) (i : Nat) : Option ReqState :=
  if (st.xfers i).off = (blocksize : Int) then
    let num := (st.xfers i).num
    let st1 : ReqState :=
      if memcmp (hashes.drop (num * HASHLEN)) (hashdata (blockAt st.blocks blocksize num))
          HASHLEN ≠ 0 then
        { st with alerts := num :: st.alerts }
      else { st with mask := st.mask.set num 1 }
    match closeFd st1 i with
    | none => none
    | some _ => some { st1 with r := fdClr i st1.r, active := st1.active - 1 }
  else some st

/-- One round of the loop "read our precious data", for descriptor `i`; `s` is the read
set `select` has returned. -/
def readStep (flat : Bool) (HASHLEN : Nat) (hashdata : List Nat → List Nat)
    (blocksize : Nat) (hashes : List Nat) (s : List Nat)
    (acc : Option (ReqState × List Reply)) (i : Nat) : Option (ReqState × List Reply) :=
  match acc with
  | none => none
  | some (st, script) =>
    if i ∉ s then some (st, script)
    else
      match script with
      | Reply.moved n bytes :: script1 =>
        match readInto flat blocksize st i n bytes with
        | none => none
        | some st1 =>
          let afterError : Option (ReqState × List Reply) :=
            if n ≤ 0 then
              match closeFd st1 i with
              | none => none
              | some _ =>
                retryOrGiveUp { st1 with r := fdClr i st1.r } script1 i (-(1 + (HASHLEN : Int)))
            else some (st1, script1)
          match afterError with
          | none => none
          | some (st2, script2) =>
            let st3 : ReqState :=
              { st2 with xfers := setOff st2.xfers i ((st2.xfers i).off + n) }
            match lengthCheck blocksize st3 i with
            | none => none
            | some st4 =>
              match doneCheck HASHLEN hashdata blocksize hashes st4 i with
              | none => none
              | some st5 => some (st5, script2)
      | _ => none

/-- The call of `select` at the top of the loop: with no active transfer the sets are
the copies of `r` and `w`; otherwise `select` reports descriptors it was asked about. -/
def selectReady (st : ReqState) (script : List Reply) :
    Option (List Nat × List Nat × List Reply) :=
  if st.active ≠ 0 then
    match script with
    | Reply.ready s x :: script1 =>
      if s.all (fun k => decide (k ∈ st.r)) && x.all (fun k => decide (k ∈ st.w)) then
        some (s, x, script1)
      else none
    | _ => none
  else some (st.r, st.w, script)

/-- The loop `for (;;)` of `do_request` with a bound on its rounds. The statements
`if (i == m) m--;` stand inside loops over `i < m` and never run. -/
def requestLoop (flat : Bool) (HASHLEN : Nat) (hashdata : List Nat → List Nat)
    (blockcount blocksize : Nat) (hashes : List Nat) :
    Nat → ReqState → List Reply → Option ReqState
  | 0, _, _ => none
  | fuel + 1, st, script =>
    match selectReady st script with
    | none => none
    | some (s, x, script1) =>
      if st.active ≠ 0 ∧ s.length + x.length = 0 then
        requestLoop flat HASHLEN hashdata blockcount blocksize hashes fuel st script1
      else
        match connectNew blockcount blockcount st script1 with
        | none => none
        | some (st1, script2) =>
          match (List.range st1.m).foldl (sendStep flat HASHLEN x)
              (some (st1, script2)) with
          | none => none
          | some (st2, script3) =>
            match (List.range st2.m).foldl
                (readStep flat HASHLEN hashdata blocksize hashes s) (some (st2, script3)) with
            | none => none
            | some (st3, script4) =>
              if st3.active = 0 ∧ st3.next = blockcount then some st3
              else
                requestLoop flat HASHLEN hashdata blockcount blocksize hashes fuel st3 script4

/-- What `do_request` leaves behind when it returns: the buffer, the mask, and the block
numbers (counted from 0) of the alerts it has raised, the last one first. -/
structure Downloaded where
  blocks : List Nat
  mask : List Nat
  alerts : List Nat
deriving DecidableEq, Repr

/-- Function `do_request`: `xfers` is what the array on the stack happens to hold at
entry, `flat` is the reading of what C leaves undefined in the loop (see `readInto`
and `retrySend`). Every round but the last consumes an answer, so one round more than
there are answers is enough (`do_request_rounds_enough`). -/
def do_request (flat : Bool) (HASHLEN : Nat) (hashdata : List Nat → List Nat)
    (blocks mask : List Nat) (blockcount blocksize : Nat) (hashes : List Nat)
    (xfers : Nat → Xfer) (script : List Reply) : Option Downloaded :=
  match requestLoop flat HASHLEN hashdata blockcount blocksize hashes (script.length + 2)
      { blocks := blocks, mask := mask, xfers := xfers, r := [], w := [], m := 1,
        next := 0, active := 0, alerts := [] }
      script with
  | none => none
  | some st => some { blocks := st.blocks, mask := st.mask, alerts := st.alerts }

/-- Answers for a download of one block of two bytes on descriptor 3: the command byte
and the hash byte are sent, the length 2 and the bytes 5 and 6 come back. -/
def demoReplies : List Reply :=
  [Reply.sock 3, Reply.ready [] [3], Reply.moved 1 [], Reply.ready [] [3],
    Reply.moved 1 [], Reply.ready [3] [], Reply.moved 4 [2, 0, 0, 0],
    Reply.ready [3] [], Reply.moved 2 [5, 6]]

/-- Answers for a download of two blocks of two bytes on descriptors 3 and 4, with
`hashes = [11, 15]` for the blocks `[5, 6]` and `[7, 8]`: both requests are sent; the
length of block 0 comes in two pieces, one byte and then three; block 0 comes whole; the
length and the bytes of block 1 come whole. -/
def splitLengthReplies : List Reply :=
  [Reply.sock 3, Reply.sock 4,
    Reply.ready [] [3, 4], Reply.moved 1 [], Reply.moved 1 [],
    Reply.ready [] [3, 4], Reply.moved 1 [], Reply.moved 1 [],
    Reply.ready [3] [], Reply.moved 1 [2],
    Reply.ready [3] [], Reply.moved 3 [0, 0, 0],
    Reply.ready [3] [], Reply.moved 2 [5, 6],
    Reply.ready [4] [], Reply.moved 4 [2, 0, 0, 0],
    Reply.ready [4] [], Reply.moved 2 [7, 8]]

/-- An array `xfers` of zeros for concrete evaluations. -/
def xfersZero : Nat → Xfer :=
  fun _ => { num := 0, tries := 0, off := 0, dlen := [0, 0, 0, 0] }

/-- Descriptor `fd` belongs to a transfer in progress. -/
def live (st : ReqState) (fd : Nat) : Prop :=
  fd ∈ st.r ∨ fd ∈ st.w

/-- Block `p` of the buffer hashes to its hash in the key, by the comparison of
`do_request`. -/
def hashOK (HASHLEN : Nat) (hashdata : List Nat → List Nat) (blocksize : Nat)
    (hashes blocks : List Nat) (p : Nat) : Prop :=
  memcmp (hashes.drop (p * HASHLEN)) (hashdata (blockAt blocks blocksize p)) HASHLEN = 0

/-- What holds of the variables of `do_request` between any two steps: a mask entry that
was zero at entry is set only over a block that hashes right; the transfers in progress
are for different blocks, all still marked missing and all below `next`; no descriptor
is in both sets; a transfer still sending has not passed the end of its hash; a block
that was alerted is marked missing and has no transfer in progress. -/
structure ReqInv (HASHLEN : Nat) (hashdata : List Nat → List Nat) (blocksize : Nat)
    (hashes mask0 : List Nat) (st : ReqState) : Prop where
  verified : ∀ p, mask0.getD p 0 = 0 → st.mask.getD p 0 ≠ 0 →
    st.mask.getD p 0 = 1 ∧ hashOK HASHLEN hashdata blocksize hashes st.blocks p
  liveMissing : ∀ fd, live st fd → st.mask.getD (st.xfers fd).num 0 = 0
  liveDistinct : ∀ fd1 fd2, live st fd1 → live st fd2 → fd1 ≠ fd2 →
    (st.xfers fd1).num ≠ (st.xfers fd2).num
  liveBelow : ∀ fd, live st fd → (st.xfers fd).num < st.next
  disjoint : ∀ fd, fd ∈ st.r → fd ∉ st.w
  sending : ∀ fd, fd ∈ st.w → (st.xfers fd).off < (HASHLEN : Int)
  alerted : ∀ p, p ∈ st.alerts →
    st.mask.getD p 0 = 0 ∧ p < st.next ∧ ∀ fd, live st fd → (st.xfers fd).num ≠ p

/-! ## Facts about `memcmp` -/

theorem memcmp_self (a : List Nat) (n : Nat) : memcmp a a n = 0 := by
  induction n generalizing a with
  | zero => rfl
  | succ n ih => simp [memcmp, ih]

theorem memcmp_neg (a b : List Nat) (n : Nat) : memcmp b a n = - memcmp a b n := by
  induction n generalizing a b with
  | zero => simp [memcmp]
  | succ n ih =>
    unfold memcmp
    by_cases h : a.headD 0 = b.headD 0
    · rw [if_pos h, if_pos h.symm]; exact ih a.tail b.tail
    · have h2 : ¬ b.headD 0 = a.headD 0 := fun e => h e.symm
      rw [if_neg h, if_neg h2]; omega

theorem memcmp_le_trans (a b c : List Nat) (n : Nat)
    (hab : memcmp a b n ≤ 0) (hbc : memcmp b c n ≤ 0) : memcmp a c n ≤ 0 := by
  induction n generalizing a b c with
  | zero => simp [memcmp]
  | succ n ih =>
    unfold memcmp at hab hbc ⊢
    by_cases h1 : a.headD 0 = b.headD 0
    · by_cases h2 : b.headD 0 = c.headD 0
      · have h3 : a.headD 0 = c.headD 0 := h1.trans h2
        simp only [h1, h2, h3, if_true] at hab hbc ⊢
        simpa [h2] using ih _ _ _ hab hbc
      · have h3 : ¬ a.headD 0 = c.headD 0 := fun e => h2 (h1 ▸ e)
        simp only [h2, h3, if_false] at hbc ⊢
        rw [h1]; exact hbc
    · by_cases h2 : b.headD 0 = c.headD 0
      · have h3 : ¬ a.headD 0 = c.headD 0 := fun e => h1 (e.trans h2.symm)
        simp only [h1, h3, if_false] at hab ⊢
        rw [← h2]; exact hab
      · simp only [h1, h2, if_false] at hab hbc
        have h3 : ¬ a.headD 0 = c.headD 0 := by omega
        simp only [h3, if_false]
        omega

theorem memcmp_lt_le_trans (a b c : List Nat) (n : Nat)
    (hab : memcmp a b n < 0) (hbc : memcmp b c n ≤ 0) : memcmp a c n ≤ 0 :=
  memcmp_le_trans a b c n (le_of_lt hab) hbc

theorem memcmp_le_of_not_lt (a b : List Nat) (n : Nat) (h : ¬ memcmp a b n < 0) :
    memcmp b a n ≤ 0 := by
  rw [memcmp_neg a b n]; omega

/-! ## Routing: the primary pick and its neighbours -/

theorem routeWalk_lt_length (HASHLEN : Nat) (hash : List Nat) (head : List node)
    (h : head ≠ []) : routeWalk HASHLEN hash head < head.length := by
  induction head with
  | nil => exact absurd rfl h
  | cons p rest ih =>
    cases rest with
    | nil => simp [routeWalk]
    | cons q rest =>
      unfold routeWalk
      split
      · simp
      · have := ih (by simp)
        simp only [List.length_cons] at this ⊢
        omega

theorem routeWalk_firstGreater (HASHLEN : Nat) (hash : List Nat) (head : List node)
    (h : head ≠ []) :
    (head[routeWalk HASHLEN hash head]?).map node.addr = firstGreater HASHLEN head hash := by
  induction head with
  | nil => exact absurd rfl h
  | cons p rest ih =>
    cases rest with
    | nil =>
      by_cases hlt : memcmp hash p.hash HASHLEN < 0 <;>
        simp [routeWalk, firstGreater, List.find?, hlt]
    | cons q rest =>
      have ih2 := ih (by simp)
      by_cases hlt : memcmp hash p.hash HASHLEN < 0
      · simp [routeWalk, firstGreater, List.find?, hlt]
      · have e : routeWalk HASHLEN hash (p :: q :: rest)
            = routeWalk HASHLEN hash (q :: rest) + 1 := by
          simp [routeWalk, hlt]
        rw [e, List.getElem?_cons_succ, ih2]
        simp [firstGreater, List.find?, hlt, List.getLast?_cons_cons]

theorem routePick_zero (HASHLEN : Nat) (head : List node) (hash : List Nat)
    (h : head ≠ []) :
    routePick HASHLEN head hash 0 = some (routeWalk HASHLEN hash head) := by
  simp [routePick, h]

theorem routePick_both (HASHLEN : Nat) (head : List node) (hash : List Nat) (off : Int)
    (hoff : off = 1 ∨ off = 2)
    (hprev : 0 < routeWalk HASHLEN hash head)
    (hnext : routeWalk HASHLEN hash head + 1 < head.length) :
    routePick HASHLEN head hash off =
      if memcmp hash (hashAt head (routeWalk HASHLEN hash head - 1)) HASHLEN
          > memcmp hash (hashAt head (routeWalk HASHLEN hash head + 1)) HASHLEN then
        (if off = 1 then some (routeWalk HASHLEN hash head + 1)
         else some (routeWalk HASHLEN hash head - 1))
      else
        (if off = 1 then some (routeWalk HASHLEN hash head - 1)
         else some (routeWalk HASHLEN hash head + 1)) := by
  have hne : head ≠ [] := by
    intro e; subst e; simp at hnext
  have h3 : off < 3 := by omega
  have h0 : off ≠ 0 := by omega
  simp [routePick, hne, h3, h0, hprev, hnext]

theorem addr_ne_of_nodup (head : List node) (hnd : ringNodup head) (i j : Nat)
    (hij : i < j) (hj : j < head.length) :
    (head[i]?).map node.addr ≠ (head[j]?).map node.addr := by
  have h := (List.nodup_iff_getElem?_ne_getElem?.1 hnd) i j hij (by simpa using hj)
  simpa [List.getElem?_map] using h

/-- C6: on a non-empty list, `route(h, 0)` returns normally, and what it returns is the
address of the first node in list order whose hash is strictly greater than `h` by
`memcmp` over `HASHLEN` bytes, or the address of the last node when no hash exceeds `h`.
(The list need not even be sorted for this.) -/
theorem route_primary_first_greater (HASHLEN : Nat) (head : List node) (hash : List Nat)
    (h : head ≠ []) :
    route HASHLEN head hash 0 = firstGreater HASHLEN head hash ∧
      (route HASHLEN head hash 0).isSome = true := by
  have e : route HASHLEN head hash 0 = firstGreater HASHLEN head hash := by
    unfold route
    rw [routePick_zero HASHLEN head hash h]
    exact routeWalk_firstGreater HASHLEN hash head h
  refine ⟨e, ?_⟩
  unfold route
  rw [routePick_zero HASHLEN head hash h]
  have hlt := routeWalk_lt_length HASHLEN hash head h
  simp [List.getElem?_eq_getElem hlt]

theorem route_primary_first_greater_witness :
    route 1 ring3 [30] 0 = firstGreater 1 ring3 [30] ∧
      (route 1 ring3 [30] 0).isSome = true :=
  route_primary_first_greater 1 ring3 [30] (by decide)

/-- C7: when the node picked by `route(h, 0)` (position `p`) has both a predecessor and a
successor, `route(h, 1)` and `route(h, 2)` end on the two neighbours of that node, one
each: the positions picked are `p + 1` and `p - 1` in one order or the other, so never
`p` and never the same neighbour twice, and the addresses returned are those of the two
neighbours. On a list without duplicate address the three addresses returned for
`off = 0, 1, 2` are pairwise different. -/
theorem route_neighbors_distinct (HASHLEN : Nat) (head : List node) (hash : List Nat)
    (hprev : 0 < routeWalk HASHLEN hash head)
    (hnext : routeWalk HASHLEN hash head + 1 < head.length) :
    routePick HASHLEN head hash 0 = some (routeWalk HASHLEN hash head) ∧
    ((routePick HASHLEN head hash 1 = some (routeWalk HASHLEN hash head + 1) ∧
        routePick HASHLEN head hash 2 = some (routeWalk HASHLEN hash head - 1)) ∨
      (routePick HASHLEN head hash 1 = some (routeWalk HASHLEN hash head - 1) ∧
        routePick HASHLEN head hash 2 = some (routeWalk HASHLEN hash head + 1))) ∧
    (∃ prev next : node,
      head[routeWalk HASHLEN hash head - 1]? = some prev ∧
      head[routeWalk HASHLEN hash head + 1]? = some next ∧
      ((route HASHLEN head hash 1 = some next.addr ∧
          route HASHLEN head hash 2 = some prev.addr) ∨
        (route HASHLEN head hash 1 = some prev.addr ∧
          route HASHLEN head hash 2 = some next.addr))) ∧
    (ringNodup head →
      route HASHLEN head hash 1 ≠ route HASHLEN head hash 0 ∧
      route HASHLEN head hash 2 ≠ route HASHLEN head hash 0 ∧
      route HASHLEN head hash 1 ≠ route HASHLEN head hash 2) := by
  have hne : head ≠ [] := by
    intro e; subst e; simp at hnext
  have h0 := routePick_zero HASHLEN head hash hne
  have h1 := routePick_both HASHLEN head hash 1 (Or.inl rfl) hprev hnext
  have h2 := routePick_both HASHLEN head hash 2 (Or.inr rfl) hprev hnext
  have hp1 : routeWalk HASHLEN hash head - 1 < head.length := by omega
  have hp0 : routeWalk HASHLEN hash head < head.length := by omega
  have eprev := List.getElem?_eq_getElem hp1
  have enext := List.getElem?_eq_getElem hnext
  have hn10 : ringNodup head →
      (head[routeWalk HASHLEN hash head - 1]?).map node.addr
        ≠ (head[routeWalk HASHLEN hash head]?).map node.addr := fun hnd =>
    addr_ne_of_nodup head hnd _ _ (by omega) hp0
  have hn02 : ringNodup head →
      (head[routeWalk HASHLEN hash head]?).map node.addr
        ≠ (head[routeWalk HASHLEN hash head + 1]?).map node.addr := fun hnd =>
    addr_ne_of_nodup head hnd _ _ (by omega) hnext
  have hn12 : ringNodup head →
      (head[routeWalk HASHLEN hash head - 1]?).map node.addr
        ≠ (head[routeWalk HASHLEN hash head + 1]?).map node.addr := fun hnd =>
    addr_ne_of_nodup head hnd _ _ (by omega) hnext
  refine ⟨h0, ?_, ⟨head[routeWalk HASHLEN hash head - 1], head[routeWalk HASHLEN hash head + 1],
    eprev, enext, ?_⟩, ?_⟩
  · rw [h1, h2]
    split <;> simp
  · unfold route
    rw [h1, h2]
    split <;> simp [eprev, enext]
  · intro hnd
    unfold route
    rw [h0, h1, h2]
    have a := hn10 hnd
    have b := hn02 hnd
    have c := hn12 hnd
    split
    · simp only [if_true, Option.some_bind, show ¬ ((2 : Int) = 1) by decide, if_false]
      exact ⟨fun e => b e.symm, a, fun e => c e.symm⟩
    · simp only [if_true, Option.some_bind, show ¬ ((2 : Int) = 1) by decide, if_false]
      exact ⟨a, fun e => b e.symm, c⟩

theorem route_neighbors_distinct_witness :
    routePick 1 ring3 [30] 0 = some 1 ∧
    routePick 1 ring3 [30] 1 = some 2 ∧ routePick 1 ring3 [30] 2 = some 0 ∧
    route 1 ring3 [30] 1 = some 12 ∧ route 1 ring3 [30] 2 = some 10 ∧
    (ringNodup ring3 →
      route 1 ring3 [30] 1 ≠ route 1 ring3 [30] 0 ∧
      route 1 ring3 [30] 2 ≠ route 1 ring3 [30] 0 ∧
      route 1 ring3 [30] 1 ≠ route 1 ring3 [30] 2) :=
  ⟨by decide, by decide, by decide, by decide, by decide,
    (route_neighbors_distinct 1 ring3 [30] (by decide) (by decide)).2.2.2⟩

/-! ## Ring order under `addref` and `rmref` -/

theorem addrefWalk_perm (HASHLEN : Nat) (n : node) (head : List node) :
    (addrefWalk HASHLEN n head).Perm (n :: head) := by
  induction head with
  | nil => simp [addrefWalk]
  | cons p rest ih =>
    unfold addrefWalk
    split
    · exact List.Perm.refl _
    · exact (List.Perm.cons p ih).trans (List.Perm.swap n p rest)

theorem addrefWalk_sorted (HASHLEN : Nat) (n : node) (head : List node)
    (hs : ringSorted HASHLEN head) : ringSorted HASHLEN (addrefWalk HASHLEN n head) := by
  induction head with
  | nil => simp [addrefWalk, ringSorted]
  | cons p rest ih =>
    unfold ringSorted at hs ih ⊢
    rw [List.pairwise_cons] at hs
    unfold addrefWalk
    by_cases hlt : memcmp n.hash p.hash HASHLEN < 0
    · rw [if_pos hlt]
      refine List.pairwise_cons.2 ⟨?_, List.pairwise_cons.2 hs⟩
      intro q hq
      rcases List.mem_cons.1 hq with e | hq
      · subst e; exact le_of_lt hlt
      · exact memcmp_lt_le_trans _ _ _ _ hlt (hs.1 q hq)
    · rw [if_neg hlt]
      refine List.pairwise_cons.2 ⟨?_, ih hs.2⟩
      intro q hq
      have hq2 := (addrefWalk_perm HASHLEN n rest).mem_iff.1 hq
      rcases List.mem_cons.1 hq2 with e | hq3
      · subst e; exact memcmp_le_of_not_lt _ _ _ hlt
      · exact hs.1 q hq3

theorem addref_eq_walk (HASHLEN : Nat) (hashdata : List Nat → List Nat)
    (head : List node) (addr : Nat) :
    addref HASHLEN hashdata head addr =
      addrefWalk HASHLEN { addr := addr, hash := hashdata (addrBytes addr) } head := by
  cases head <;> simp [addref, addrefWalk]

theorem rmrefWalk_sublist (HASHLEN : Nat) (hash : List Nat) (head r : List node)
    (h : rmrefWalk HASHLEN hash head = some r) : r.Sublist head := by
  induction head generalizing r with
  | nil => simp [rmrefWalk] at h
  | cons p rest ih =>
    unfold rmrefWalk at h
    split at h
    · cases h; exact List.sublist_cons_self p rest
    · cases hr : rmrefWalk HASHLEN hash rest with
      | none => simp [hr] at h
      | some r2 =>
        simp [hr] at h
        subst h
        exact (ih r2 hr).cons₂ p

theorem rmrefWalk_isSome (HASHLEN : Nat) (hash : List Nat) (head : List node)
    (h : ∃ p ∈ head, memcmp p.hash hash HASHLEN = 0) :
    ∃ r, rmrefWalk HASHLEN hash head = some r := by
  induction head with
  | nil => obtain ⟨p, hp, _⟩ := h; simp at hp
  | cons q rest ih =>
    unfold rmrefWalk
    by_cases hq : memcmp q.hash hash HASHLEN = 0
    · exact ⟨rest, by rw [if_pos hq]⟩
    · rw [if_neg hq]
      obtain ⟨p, hp, hpz⟩ := h
      rcases List.mem_cons.1 hp with e | hp2
      · subst e; exact absurd hpz hq
      · obtain ⟨r, hr⟩ := ih ⟨p, hp2, hpz⟩
        exact ⟨q :: r, by simp [hr]⟩

theorem addref_inv (HASHLEN : Nat) (hashdata : List Nat → List Nat) (head : List node)
    (addr : Nat) (hinv : ringInv HASHLEN hashdata head)
    (hfresh : addr ∉ head.map node.addr) :
    ringInv HASHLEN hashdata (addref HASHLEN hashdata head addr) := by
  obtain ⟨hs, hnd, hh⟩ := hinv
  rw [addref_eq_walk]
  have hperm := addrefWalk_perm HASHLEN
    { addr := addr, hash := hashdata (addrBytes addr) } head
  refine ⟨addrefWalk_sorted HASHLEN _ head hs, ?_, ?_⟩
  · unfold ringNodup at hnd ⊢
    rw [(hperm.map node.addr).nodup_iff, List.map_cons, List.nodup_cons]
    exact ⟨hfresh, hnd⟩
  · intro p hp
    rcases List.mem_cons.1 (hperm.mem_iff.1 hp) with e | hp2
    · subst e; rfl
    · exact hh p hp2

theorem rmref_inv (HASHLEN : Nat) (hashdata : List Nat → List Nat) (head r : List node)
    (addr : Nat) (hinv : ringInv HASHLEN hashdata head)
    (hr : rmref HASHLEN hashdata head addr = some r) : ringInv HASHLEN hashdata r := by
  obtain ⟨hs, hnd, hh⟩ := hinv
  have hsub := rmrefWalk_sublist HASHLEN _ head r hr
  exact ⟨List.Pairwise.sublist hsub hs, List.Nodup.sublist (hsub.map node.addr) hnd,
    fun p hp => hh p (hsub.subset hp)⟩

theorem rmref_isSome (HASHLEN : Nat) (hashdata : List Nat → List Nat) (head : List node)
    (addr : Nat) (hinv : ringInv HASHLEN hashdata head)
    (hmem : addr ∈ head.map node.addr) :
    ∃ r, rmref HASHLEN hashdata head addr = some r := by
  obtain ⟨p, hp, hpa⟩ := List.mem_map.1 hmem
  refine rmrefWalk_isSome HASHLEN _ head ⟨p, hp, ?_⟩
  rw [hinv.2.2 p hp, hpa]
  exact memcmp_self _ _

theorem runOps_inv (HASHLEN : Nat) (hashdata : List Nat → List Nat) (ops : List RefOp)
    (head : List node) (hinv : ringInv HASHLEN hashdata head)
    (hrm : rmInRing HASHLEN hashdata head ops = true)
    (hadd : addFresh HASHLEN hashdata head ops = true) :
    ∃ r, runOps HASHLEN hashdata head ops = some r ∧ ringInv HASHLEN hashdata r := by
  induction ops generalizing head with
  | nil => exact ⟨head, rfl, hinv⟩
  | cons op ops ih =>
    cases op with
    | add a =>
      simp only [rmInRing, addFresh, runOps, Bool.and_eq_true, decide_eq_true_eq] at hrm hadd ⊢
      exact ih _ (addref_inv HASHLEN hashdata head a hinv hadd.1) hrm hadd.2
    | rm a =>
      simp only [rmInRing, addFresh, runOps, Bool.and_eq_true, decide_eq_true_eq] at hrm hadd ⊢
      obtain ⟨r, hr⟩ := rmref_isSome HASHLEN hashdata head a hinv hrm.1
      rw [hr] at hrm hadd ⊢
      exact ih r (rmref_inv HASHLEN hashdata head r a hinv hr) hrm.2 hadd

/-- C8 as stated fails: `addref` never looks for the address it is given, so two
`addref` calls for one address (no `rmref` at all) leave that address in the list twice. -/
theorem ring_duplicate_after_repeated_addref :
    rmInRing 4 idHash [] [RefOp.add 1, RefOp.add 1] = true ∧
    ∃ r, runOps 4 idHash [] [RefOp.add 1, RefOp.add 1] = some r ∧ ¬ ringNodup r :=
  ⟨by decide, _, rfl, by decide⟩

/-- C8, amended: starting from the empty list, after any sequence of `addref` and `rmref`
calls in which every `rmref` names an address that is in the list and every `addref`
names an address that is not, no call dies, the nodes are in ascending order of hash and
no address occurs more than once. -/
theorem ring_sorted_nodup_of_fresh_adds (HASHLEN : Nat) (hashdata : List Nat → List Nat)
    (ops : List RefOp)
    (hrm : rmInRing HASHLEN hashdata [] ops = true)
    (hadd : addFresh HASHLEN hashdata [] ops = true) :
    ∃ r, runOps HASHLEN hashdata [] ops = some r ∧
      ringSorted HASHLEN r ∧ ringNodup r := by
  have h0 : ringInv HASHLEN hashdata [] := by
    refine ⟨?_, ?_, ?_⟩
    · simp [ringSorted]
    · simp [ringNodup]
    · intro p hp; simp at hp
  obtain ⟨r, hr, hs, hnd, _⟩ := runOps_inv HASHLEN hashdata ops [] h0 hrm hadd
  exact ⟨r, hr, hs, hnd⟩

theorem ring_sorted_nodup_of_fresh_adds_witness :
    ∃ r, runOps 4 idHash [] [RefOp.add 5, RefOp.add 3, RefOp.add 9, RefOp.rm 5] = some r ∧
      ringSorted 4 r ∧ ringNodup r :=
  ring_sorted_nodup_of_fresh_adds 4 idHash
    [RefOp.add 5, RefOp.add 3, RefOp.add 9, RefOp.rm 5]
    (by decide) (by decide)

/-! ## The helper `xor` on the object buffer -/

theorem getD_set (l : List Nat) (i a j : Nat) :
    (l.set i a).getD j 0 = if i = j ∧ i < l.length then a else l.getD j 0 := by
  simp only [List.getD_eq_getElem?_getD, List.getElem?_set]
  by_cases hij : i = j
  · subst hij
    by_cases hl : i < l.length
    · simp [hl]
    · simp [hl, List.getElem?_eq_none (Nat.le_of_not_lt hl)]
  · simp [hij]

theorem xor_length (buf : List Nat) (dst src len : Nat) :
    (xor buf dst src len).length = buf.length := by
  induction len with
  | zero => rfl
  | succ len ih => simp [xor, ih]

theorem xor_getD_outside (buf : List Nat) (dst src len p : Nat)
    (h : ¬ (dst ≤ p ∧ p < dst + len)) :
    (xor buf dst src len).getD p 0 = buf.getD p 0 := by
  induction len with
  | zero => rfl
  | succ len ih =>
    simp only [xor]
    rw [getD_set]
    have hne : ¬ (dst + len = p ∧ dst + len < (xor buf dst src len).length) := by
      intro hc; apply h; omega
    rw [if_neg hne]
    exact ih (by intro hc; apply h; omega)

theorem xor_getD_inside (buf : List Nat) (dst src len p : Nat)
    (hdisj : src + len ≤ dst ∨ dst + len ≤ src) (hlen : dst + len ≤ buf.length)
    (h1 : dst ≤ p) (h2 : p < dst + len) :
    (xor buf dst src len).getD p 0 = buf.getD p 0 ^^^ buf.getD (src + (p - dst)) 0 := by
  induction len with
  | zero => omega
  | succ len ih =>
    simp only [xor]
    rw [getD_set, xor_length]
    by_cases hp : dst + len = p
    · have hin : dst + len = p ∧ dst + len < buf.length := ⟨hp, by omega⟩
      rw [if_pos hin]
      rw [xor_getD_outside buf dst src len (dst + len) (by omega)]
      rw [xor_getD_outside buf dst src len (src + len) (by omega)]
      subst hp
      have e : src + (dst + len - dst) = src + len := by omega
      rw [e]
    · have hout : ¬ (dst + len = p ∧ dst + len < buf.length) := fun hc => hp hc.1
      rw [if_neg hout]
      exact ih (by omega) (by omega) (by omega)

/-- Offsets of different blocks do not meet. -/
theorem block_offset_ne (blocksize i k t : Nat) (ht : t < blocksize) (hne : k ≠ i) :
    ¬ (i * blocksize ≤ k * blocksize + t ∧ k * blocksize + t < i * blocksize + blocksize) := by
  intro ⟨h1, h2⟩
  rcases Nat.lt_or_gt_of_ne hne with hlt | hgt
  · have := Nat.mul_le_mul_right blocksize (Nat.succ_le_of_lt hlt)
    rw [Nat.succ_mul] at this
    omega
  · have := Nat.mul_le_mul_right blocksize (Nat.succ_le_of_lt hgt)
    rw [Nat.succ_mul] at this
    omega

theorem block_disjoint (blocksize i k : Nat) (hne : k ≠ i) :
    k * blocksize + blocksize ≤ i * blocksize ∨ i * blocksize + blocksize ≤ k * blocksize := by
  rcases Nat.lt_or_gt_of_ne hne with hlt | hgt
  · left
    have := Nat.mul_le_mul_right blocksize (Nat.succ_le_of_lt hlt)
    rw [Nat.succ_mul] at this
    exact this
  · right
    have := Nat.mul_le_mul_right blocksize (Nat.succ_le_of_lt hgt)
    rw [Nat.succ_mul] at this
    exact this

theorem block_in_bounds (blocksize count i len : Nat) (hlen : len = count * blocksize)
    (hi : i < count) : i * blocksize + blocksize ≤ len := by
  have := Nat.mul_le_mul_right blocksize (Nat.succ_le_of_lt hi)
  rw [Nat.succ_mul] at this
  omega

/-- XOR of block `k` into block `i`, seen at a byte of block `i`. -/
theorem xor_block_dst (buf : List Nat) (blocksize i k t : Nat) (hne : k ≠ i)
    (hlen : i * blocksize + blocksize ≤ buf.length) (ht : t < blocksize) :
    (xor buf (i * blocksize) (k * blocksize) blocksize).getD (i * blocksize + t) 0 =
      buf.getD (i * blocksize + t) 0 ^^^ buf.getD (k * blocksize + t) 0 := by
  rw [xor_getD_inside buf _ _ _ _ (block_disjoint blocksize i k hne) hlen (by omega) (by omega)]
  have e : k * blocksize + (i * blocksize + t - i * blocksize) = k * blocksize + t := by omega
  rw [e]

/-- XOR of some block into block `i`, seen at a byte of another block. -/
theorem xor_block_other (buf : List Nat) (blocksize i src p t : Nat) (hne : p ≠ i)
    (ht : t < blocksize) :
    (xor buf (i * blocksize) src blocksize).getD (p * blocksize + t) 0 =
      buf.getD (p * blocksize + t) 0 :=
  xor_getD_outside buf _ _ _ _ (block_offset_ne blocksize i p t ht hne)

/-! ## Folding `xor` over a list of source blocks -/

theorem foldl_xor_length (q : Nat → Prop) [DecidablePred q] (l : List Nat) (buf : List Nat)
    (dst blocksize : Nat) :
    (l.foldl (fun b k => if q k then xor b dst (k * blocksize) blocksize else b) buf).length
      = buf.length := by
  induction l using List.reverseRecOn with
  | nil => rfl
  | append_singleton l k ih =>
    rw [List.foldl_append]
    simp only [List.foldl_cons, List.foldl_nil]
    split
    · rw [xor_length, ih]
    · exact ih

theorem foldl_xor_outside (q : Nat → Prop) [DecidablePred q] (l : List Nat) (buf : List Nat)
    (dst blocksize p : Nat) (h : ¬ (dst ≤ p ∧ p < dst + blocksize)) :
    (l.foldl (fun b k => if q k then xor b dst (k * blocksize) blocksize else b) buf).getD p 0
      = buf.getD p 0 := by
  induction l using List.reverseRecOn with
  | nil => rfl
  | append_singleton l k ih =>
    rw [List.foldl_append]
    simp only [List.foldl_cons, List.foldl_nil]
    split
    · rw [xor_getD_outside _ _ _ _ _ h, ih]
    · exact ih

theorem foldl_xor_dst (q : Nat → Prop) [DecidablePred q] (l : List Nat) (buf : List Nat)
    (c blocksize t : Nat) (hq : ∀ k ∈ l, q k → k ≠ c)
    (hlen : c * blocksize + blocksize ≤ buf.length) (ht : t < blocksize) :
    (l.foldl (fun b k => if q k then xor b (c * blocksize) (k * blocksize) blocksize else b)
        buf).getD (c * blocksize + t) 0
      = l.foldl (fun x k => if q k then x ^^^ buf.getD (k * blocksize + t) 0 else x)
          (buf.getD (c * blocksize + t) 0) := by
  induction l using List.reverseRecOn with
  | nil => rfl
  | append_singleton l k ih =>
    have ih2 := ih (fun k2 hk2 => hq k2 (List.mem_append_left _ hk2))
    rw [List.foldl_append, List.foldl_append]
    simp only [List.foldl_cons, List.foldl_nil]
    by_cases hk : q k
    · have hne : k ≠ c := hq k (by simp) hk
      rw [if_pos hk, if_pos hk]
      rw [xor_block_dst _ blocksize c k t hne (by rw [foldl_xor_length]; exact hlen) ht]
      rw [ih2]
      rw [foldl_xor_outside q l buf (c * blocksize) blocksize (k * blocksize + t)
        (block_offset_ne blocksize c k t ht hne)]
    · rw [if_neg hk, if_neg hk]
      exact ih2

theorem foldl_filter_map_xor (p : Nat → Prop) [DecidablePred p] (f : Nat → Nat)
    (l : List Nat) (init : Nat) :
    ((l.filter (fun i => decide (p i))).map f).foldl (fun x y => x ^^^ y) init
      = l.foldl (fun x k => if p k then x ^^^ f k else x) init := by
  induction l generalizing init with
  | nil => rfl
  | cons a l ih =>
    by_cases ha : p a
    · simp [List.filter, ha, ih]
    · simp [List.filter, ha, ih]

/-! ## The check block generation of `insert` -/

theorem encodeCheck_length (g : graph) (blocksize dlen : Nat) (blocks : List Nat) (i : Nat) :
    (encodeCheck g blocksize dlen blocks i).length = blocks.length :=
  foldl_xor_length (fun j => is_set g j i ≠ 0) _ blocks _ blocksize

theorem encodeCheck_outside (g : graph) (blocksize dlen : Nat) (blocks : List Nat)
    (i p : Nat)
    (h : ¬ (dlen + i * blocksize ≤ p ∧ p < dlen + i * blocksize + blocksize)) :
    (encodeCheck g blocksize dlen blocks i).getD p 0 = blocks.getD p 0 :=
  foldl_xor_outside (fun j => is_set g j i ≠ 0) _ blocks _ blocksize p h

theorem encodeCheck_dst (g : graph) (blocksize : Nat) (blocks : List Nat) (i t : Nat)
    (hlen : blocks.length = (g.dbc + g.cbc) * blocksize) (hi : i < g.cbc)
    (ht : t < blocksize) :
    (encodeCheck g blocksize (g.dbc * blocksize) blocks i).getD
        (g.dbc * blocksize + i * blocksize + t) 0
      = (List.range g.dbc).foldl
          (fun x k => if is_set g k i ≠ 0 then x ^^^ blocks.getD (k * blocksize + t) 0 else x)
          (blocks.getD (g.dbc * blocksize + i * blocksize + t) 0) := by
  have e : g.dbc * blocksize + i * blocksize = (g.dbc + i) * blocksize := by
    rw [Nat.add_mul]
  unfold encodeCheck
  rw [e]
  exact foldl_xor_dst (fun j => is_set g j i ≠ 0) (List.range g.dbc) blocks (g.dbc + i)
    blocksize t (fun k hk _ => by have := List.mem_range.1 hk; omega)
    (block_in_bounds blocksize (g.dbc + g.cbc) (g.dbc + i) _ hlen (by omega)) ht

theorem encode_prefix (g : graph) (blocksize : Nat) (blocks : List Nat)
    (hlen : blocks.length = (g.dbc + g.cbc) * blocksize) (n : Nat) (hn : n ≤ g.cbc) :
    ((List.range n).foldl (encodeCheck g blocksize (g.dbc * blocksize)) blocks).length
        = blocks.length ∧
    (∀ p, ¬ (g.dbc * blocksize ≤ p ∧ p < g.dbc * blocksize + n * blocksize) →
      ((List.range n).foldl (encodeCheck g blocksize (g.dbc * blocksize)) blocks).getD p 0
        = blocks.getD p 0) ∧
    (∀ j, j < n → ∀ t, t < blocksize →
      ((List.range n).foldl (encodeCheck g blocksize (g.dbc * blocksize)) blocks).getD
          (g.dbc * blocksize + j * blocksize + t) 0
        = (List.range g.dbc).foldl
            (fun x k => if is_set g k j ≠ 0 then x ^^^ blocks.getD (k * blocksize + t) 0 else x)
            (blocks.getD (g.dbc * blocksize + j * blocksize + t) 0)) := by
  induction n with
  | zero =>
    refine ⟨rfl, fun p _ => rfl, fun j hj => absurd hj (Nat.not_lt_zero j)⟩
  | succ n ih =>
    obtain ⟨ihl, iho, ihc⟩ := ih (by omega)
    rw [List.range_succ, List.foldl_append]
    simp only [List.foldl_cons, List.foldl_nil]
    have hmul : (n + 1) * blocksize = n * blocksize + blocksize := Nat.succ_mul n blocksize
    refine ⟨by rw [encodeCheck_length, ihl], ?_, ?_⟩
    · intro p hp
      rw [encodeCheck_outside _ _ _ _ _ _ (by omega)]
      exact iho p (by omega)
    · intro j hj t ht
      by_cases hjn : j = n
      · subst hjn
        rw [encodeCheck_dst g blocksize _ j t (by rw [ihl]; exact hlen) (by omega) ht]
        rw [iho _ (by omega)]
        apply List.foldl_ext
        intro x k hk
        have hk2 := List.mem_range.1 hk
        have hb := block_in_bounds blocksize g.dbc k _ rfl hk2
        rw [iho _ (by omega)]
      · have hlt : j < n := by omega
        have hb := Nat.mul_le_mul_right blocksize (Nat.succ_le_of_lt hlt)
        rw [Nat.succ_mul] at hb
        rw [encodeCheck_outside _ _ _ _ _ _ (by omega)]
        exact ihc j hlt t ht

/-- C3: after the encode loop of `insert`, run on a buffer of `(dbc + cbc) * blocksize`
bytes whose check region is all zero, every check block `j < cbc` equals, byte for byte,
the XOR of exactly the data blocks `i < dbc` with `is_set(G, i, j)`, and the data
region is unchanged. -/
theorem encode_check_blocks_are_selected_xor (g : graph) (blocksize : Nat)
    (blocks : List Nat)
    (hlen : blocks.length = (g.dbc + g.cbc) * blocksize)
    (hzero : ∀ p, g.dbc * blocksize ≤ p → p < (g.dbc + g.cbc) * blocksize →
      blocks.getD p 0 = 0) :
    (∀ j, j < g.cbc → ∀ t, t < blocksize →
      (encode g blocksize blocks).getD (g.dbc * blocksize + j * blocksize + t) 0
        = xorSelected g blocksize (encode g blocksize blocks) j t) ∧
    (∀ p, p < g.dbc * blocksize →
      (encode g blocksize blocks).getD p 0 = blocks.getD p 0) := by
  obtain ⟨_, ho, hc⟩ := encode_prefix g blocksize blocks hlen g.cbc (le_refl _)
  have hdata : ∀ p, p < g.dbc * blocksize →
      (encode g blocksize blocks).getD p 0 = blocks.getD p 0 :=
    fun p hp => ho p (by omega)
  refine ⟨?_, hdata⟩
  intro j hj t ht
  have hb := block_in_bounds blocksize g.cbc j _ rfl hj
  have hz : blocks.getD (g.dbc * blocksize + j * blocksize + t) 0 = 0 :=
    hzero _ (by omega) (by rw [Nat.add_mul]; omega)
  unfold encode at hdata ⊢
  rw [hc j hj t ht, hz]
  unfold xorSelected
  rw [foldl_filter_map_xor (fun i => is_set g i j ≠ 0)]
  apply List.foldl_ext
  intro x k hk
  have hk2 := List.mem_range.1 hk
  have hkb := block_in_bounds blocksize g.dbc k _ rfl hk2
  rw [hdata _ (by omega)]

theorem encode_check_blocks_are_selected_xor_witness :
    (∀ j, j < graph32.cbc → ∀ t, t < 2 →
      (encode graph32 2 [1, 2, 3, 4, 5, 6, 0, 0, 0, 0]).getD
          (graph32.dbc * 2 + j * 2 + t) 0
        = xorSelected graph32 2 (encode graph32 2 [1, 2, 3, 4, 5, 6, 0, 0, 0, 0]) j t) ∧
    (∀ p, p < graph32.dbc * 2 →
      (encode graph32 2 [1, 2, 3, 4, 5, 6, 0, 0, 0, 0]).getD p 0
        = ([1, 2, 3, 4, 5, 6, 0, 0, 0, 0] : List Nat).getD p 0) :=
  encode_check_blocks_are_selected_xor graph32 2 [1, 2, 3, 4, 5, 6, 0, 0, 0, 0]
    (by decide) (by decide)

/-! ## The reconstruction loop of `request`: frame and termination -/

theorem keepsPresent_refl (blocksize : Nat) (s : DecState) : keepsPresent blocksize s s :=
  fun _ _ => ⟨rfl, fun _ _ => rfl⟩

theorem keepsPresent_trans (blocksize : Nat) (s1 s2 s3 : DecState)
    (h12 : keepsPresent blocksize s1 s2) (h23 : keepsPresent blocksize s2 s3) :
    keepsPresent blocksize s1 s3 := by
  intro p hp
  obtain ⟨hm, hb⟩ := h12 p hp
  obtain ⟨hm2, hb2⟩ := h23 p (by rw [hm]; exact hp)
  exact ⟨hm2.trans hm, fun t ht => (hb2 t ht).trans (hb t ht)⟩

theorem foldl_keepsPresent (blocksize : Nat) (f : DecState → Nat → DecState)
    (hf : ∀ s i, keepsPresent blocksize s (f s i)) (l : List Nat) (s : DecState) :
    keepsPresent blocksize s (l.foldl f s) := by
  induction l generalizing s with
  | nil => exact keepsPresent_refl blocksize s
  | cons i l ih => exact keepsPresent_trans blocksize _ _ _ (hf s i) (ih (f s i))

theorem rebuildData_other (g : graph) (blocksize : Nat) (blocks : List Nat)
    (i j p t : Nat) (hne : p ≠ i) (ht : t < blocksize) :
    (rebuildData g blocksize blocks i j).getD (p * blocksize + t) 0
      = blocks.getD (p * blocksize + t) 0 := by
  unfold rebuildData
  rw [foldl_xor_outside (fun k => is_set g k j ≠ 0 ∧ k ≠ i) _ _ _ blocksize _
    (block_offset_ne blocksize i p t ht hne)]
  exact xor_block_other blocks blocksize i _ p t hne ht

theorem rebuildCheck_other (g : graph) (blocksize : Nat) (blocks : List Nat)
    (i p t : Nat) (hne : p ≠ g.dbc + i) (ht : t < blocksize) :
    (rebuildCheck g blocksize blocks i).getD (p * blocksize + t) 0
      = blocks.getD (p * blocksize + t) 0 := by
  unfold rebuildCheck
  exact foldl_xor_outside (fun k => is_set g k i ≠ 0) _ _ _ blocksize _
    (block_offset_ne blocksize (g.dbc + i) p t ht hne)

theorem dataStep_keepsPresent (g : graph) (blocksize : Nat) (s : DecState) (i : Nat) :
    keepsPresent blocksize s (dataStep g blocksize s i) := by
  unfold dataStep
  split
  · exact keepsPresent_refl blocksize s
  · rename_i hmiss
    split
    · exact keepsPresent_refl blocksize s
    · rename_i j _
      intro p hp
      have hne : p ≠ i := by
        intro e; subst e; exact hmiss hp
      refine ⟨?_, fun t ht => rebuildData_other g blocksize s.blocks i j p t hne ht⟩
      show (s.mask.set i 1).getD p 0 = s.mask.getD p 0
      rw [getD_set, if_neg (fun hc => hne hc.1.symm)]

theorem checkStep_keepsPresent (g : graph) (blocksize : Nat) (s : DecState) (i : Nat) :
    keepsPresent blocksize s (checkStep g blocksize s i) := by
  unfold checkStep
  split
  · exact keepsPresent_refl blocksize s
  · rename_i hmiss
    split
    · exact keepsPresent_refl blocksize s
    · intro p hp
      have hne : p ≠ g.dbc + i := by
        intro e; subst e; exact hmiss hp
      refine ⟨?_, fun t ht => rebuildCheck_other g blocksize s.blocks i p t hne ht⟩
      show (s.mask.set (g.dbc + i) 1).getD p 0 = s.mask.getD p 0
      rw [getD_set, if_neg (fun hc => hne hc.1.symm)]

theorem decodePass_keepsPresent (g : graph) (blocksize : Nat) (s : DecState) :
    keepsPresent blocksize s (decodePass g blocksize s) := by
  unfold decodePass
  have h0 : keepsPresent blocksize s { s with a := 0 } := fun _ _ => ⟨rfl, fun _ _ => rfl⟩
  exact keepsPresent_trans blocksize _ _ _ h0
    (keepsPresent_trans blocksize _ _ _
      (foldl_keepsPresent blocksize _ (dataStep_keepsPresent g blocksize) _ _)
      (foldl_keepsPresent blocksize _ (checkStep_keepsPresent g blocksize) _ _))

theorem decodeLoop_keepsPresent (g : graph) (blocksize : Nat) (fuel : Nat)
    (s s1 : DecState) (h : decodeLoop g blocksize fuel s = some s1) :
    keepsPresent blocksize s s1 := by
  induction fuel generalizing s with
  | zero => simp [decodeLoop] at h
  | succ fuel ih =>
    simp only [decodeLoop] at h
    split at h
    · exact keepsPresent_trans blocksize _ _ _ (decodePass_keepsPresent g blocksize s)
        (ih _ h)
    · cases h
      exact decodePass_keepsPresent g blocksize s

theorem count_zero_set (mask : List Nat) (i : Nat) (hi : i < mask.length)
    (hz : mask.getD i 0 = 0) : (mask.set i 1).count 0 + 1 = mask.count 0 := by
  have hget : mask[i] = 0 := by
    rw [List.getD_eq_getElem?_getD, List.getElem?_eq_getElem hi] at hz
    simpa using hz
  have hpos : 0 < mask.count 0 :=
    List.count_pos_iff.2 (hget ▸ List.getElem_mem hi)
  rw [List.count_set 1 0 mask i hi]
  simp [hget]
  omega

theorem dataStep_rank (g : graph) (blocksize : Nat) (s : DecState) (i : Nat)
    (hi : i < s.mask.length) :
    (dataStep g blocksize s i).mask.length = s.mask.length ∧
      missingRank (dataStep g blocksize s i) ≤ missingRank s := by
  unfold dataStep
  split
  · exact ⟨rfl, le_refl _⟩
  · rename_i hmiss
    split
    · exact ⟨rfl, le_refl _⟩
    · refine ⟨by simp, ?_⟩
      have hc := count_zero_set s.mask i hi (by simpa using hmiss)
      simp only [missingRank]
      split <;> simp <;> omega

theorem checkStep_rank (g : graph) (blocksize : Nat) (s : DecState) (i : Nat)
    (hi : g.dbc + i < s.mask.length) :
    (checkStep g blocksize s i).mask.length = s.mask.length ∧
      missingRank (checkStep g blocksize s i) ≤ missingRank s := by
  unfold checkStep
  split
  · exact ⟨rfl, le_refl _⟩
  · rename_i hmiss
    split
    · exact ⟨rfl, le_refl _⟩
    · refine ⟨by simp, ?_⟩
      have hc := count_zero_set s.mask (g.dbc + i) hi (by simpa using hmiss)
      simp only [missingRank]
      split <;> simp <;> omega

theorem foldl_rank (f : DecState → Nat → DecState) (bound : Nat → Nat) (l : List Nat)
    (len : Nat) (hb : ∀ i ∈ l, bound i < len)
    (hf : ∀ s i, bound i < s.mask.length →
      (f s i).mask.length = s.mask.length ∧ missingRank (f s i) ≤ missingRank s)
    (s : DecState) (hs : s.mask.length = len) :
    (l.foldl f s).mask.length = len ∧ missingRank (l.foldl f s) ≤ missingRank s := by
  induction l generalizing s with
  | nil => exact ⟨hs, le_refl _⟩
  | cons i l ih =>
    have h1 := hf s i (by rw [hs]; exact hb i (by simp))
    have h2 := ih (fun k hk => hb k (List.mem_cons_of_mem _ hk)) (f s i) (by rw [h1.1, hs])
    exact ⟨h2.1, le_trans h2.2 h1.2⟩

theorem decodePass_rank (g : graph) (blocksize : Nat) (s : DecState)
    (hs : s.mask.length = g.dbc + g.cbc) :
    (decodePass g blocksize s).mask.length = g.dbc + g.cbc ∧
      missingRank (decodePass g blocksize s) ≤ s.mask.count 0 := by
  unfold decodePass
  have h1 := foldl_rank (dataStep g blocksize) (fun i => i) (List.range g.dbc)
    (g.dbc + g.cbc) (fun i hi => by have := List.mem_range.1 hi; show i < _; omega)
    (fun s i hi => dataStep_rank g blocksize s i hi) { s with a := 0 } hs
  have h2 := foldl_rank (checkStep g blocksize) (fun i => g.dbc + i) (List.range g.cbc)
    (g.dbc + g.cbc) (fun i hi => by have := List.mem_range.1 hi; show g.dbc + i < _; omega)
    (fun s i hi => checkStep_rank g blocksize s i hi) _ h1.1
  refine ⟨h2.1, le_trans h2.2 (le_trans h1.2 ?_)⟩
  simp [missingRank]

theorem decodeLoop_returns (g : graph) (blocksize : Nat) (fuel : Nat) (s : DecState)
    (hs : s.mask.length = g.dbc + g.cbc) (hfuel : s.mask.count 0 < fuel) :
    ∃ s1, decodeLoop g blocksize fuel s = some s1 := by
  induction fuel generalizing s with
  | zero => omega
  | succ fuel ih =>
    simp only [decodeLoop]
    have hr := decodePass_rank g blocksize s hs
    split
    · rename_i hcont
      apply ih _ hr.1
      have := hr.2
      simp only [missingRank, if_pos hcont.1] at this
      omega
    · exact ⟨_, rfl⟩

/-- The reconstruction loop always comes to an end on a mask of `blockcount` entries. -/
theorem decode_returns (g : graph) (blocksize : Nat) (blocks mask : List Nat)
    (hmask : mask.length = g.dbc + g.cbc) :
    ∃ s, decode g blocksize blocks mask = some s := by
  unfold decode
  apply decodeLoop_returns g blocksize _ _ hmask
  have : mask.count 0 ≤ mask.length := List.count_le_length 0 mask
  show mask.count 0 < g.dbc + g.cbc + 1
  omega

/-- C9: the reconstruction loop of `request`, run on a mask of `blockcount` entries,
comes to an end, and every block position whose mask entry was non-zero when the loop
started has the same mask entry and holds the same bytes when it ends, whether or not
blocks remain missing. -/
theorem decode_keeps_present_blocks (g : graph) (blocksize : Nat) (blocks mask : List Nat)
    (hmask : mask.length = g.dbc + g.cbc) :
    ∃ s, decode g blocksize blocks mask = some s ∧
      ∀ p, mask.getD p 0 ≠ 0 →
        s.mask.getD p 0 = mask.getD p 0 ∧
        ∀ t, t < blocksize →
          s.blocks.getD (p * blocksize + t) 0 = blocks.getD (p * blocksize + t) 0 := by
  obtain ⟨s, hs⟩ := decode_returns g blocksize blocks mask hmask
  exact ⟨s, hs, decodeLoop_keepsPresent g blocksize _ _ s hs⟩

theorem decode_keeps_present_blocks_witness :
    ∃ s, decode graph32 2 [0, 0, 7, 7, 5, 6, 0, 0, 6, 2] [0, 0, 1, 0, 1] = some s ∧
      ∀ p, ([0, 0, 1, 0, 1] : List Nat).getD p 0 ≠ 0 →
        s.mask.getD p 0 = ([0, 0, 1, 0, 1] : List Nat).getD p 0 ∧
        ∀ t, t < 2 →
          s.blocks.getD (p * 2 + t) 0
            = ([0, 0, 7, 7, 5, 6, 0, 0, 6, 2] : List Nat).getD (p * 2 + t) 0 :=
  decode_keeps_present_blocks graph32 2 [0, 0, 7, 7, 5, 6, 0, 0, 6, 2] [0, 0, 1, 0, 1]
    (by decide)

/-! ## Object sizes -/

theorem blocksize0_eq (datalength b : Nat) (h1 : b * b ≤ 4096 * datalength)
    (h2 : 4096 * datalength < (b + 1) * (b + 1)) : blocksize0 datalength = b :=
  (Nat.eq_sqrt.2 ⟨h1, h2⟩).symm

theorem padBlocksize_stop (dbc datalength fuel blocksize : Nat) (hfuel : 0 < fuel)
    (h : ¬ dbc * blocksize % 2 ^ 32 < (datalength + datalength % 16) % 2 ^ 32) :
    padBlocksize dbc datalength fuel blocksize = some blocksize := by
  cases fuel with
  | zero => omega
  | succ fuel => simp only [padBlocksize, if_neg h]

/-- The padding loop, when nothing overflows, ends on the least block size from the
starting one on that covers `datalength + datalength % 16` bytes. -/
theorem padBlocksize_least (dbc datalength : Nat) (steps fuel start : Nat)
    (hfuel : steps < fuel)
    (hsmall : dbc * (start + steps) < 2 ^ 32) (hfit : start + steps < 2 ^ 32)
    (htarget : datalength + datalength % 16 < 2 ^ 32)
    (hcover : datalength + datalength % 16 ≤ dbc * (start + steps))
    (hleast : ∀ b, start ≤ b → b < start + steps →
      dbc * b < datalength + datalength % 16) :
    padBlocksize dbc datalength fuel start = some (start + steps) := by
  induction steps generalizing fuel start with
  | zero =>
    rw [Nat.add_zero] at hsmall hcover ⊢
    apply padBlocksize_stop _ _ _ _ hfuel
    rw [Nat.mod_eq_of_lt hsmall, Nat.mod_eq_of_lt htarget]
    omega
  | succ steps ih =>
    cases fuel with
    | zero => omega
    | succ fuel =>
      have hlt := hleast start (le_refl _) (by omega)
      have hlt2 : dbc * start % 2 ^ 32 < (datalength + datalength % 16) % 2 ^ 32 := by
        rw [Nat.mod_eq_of_lt (by omega), Nat.mod_eq_of_lt htarget]
        exact hlt
      simp only [padBlocksize, if_pos hlt2]
      rw [Nat.mod_eq_of_lt (by omega)]
      have e : start + (steps + 1) = start + 1 + steps := by omega
      rw [e] at hsmall hfit hcover ⊢
      exact ih fuel (start + 1) (by omega) hsmall hfit hcover
        (fun b hb1 hb2 => hleast b (by omega) (by omega))

theorem findGraph_unsupported (graphcount : Nat) (graphs : List graph) (datalength : Nat)
    (hb : blocksize0 datalength ≠ 0)
    (hd : graphcount < datalength / blocksize0 datalength) :
    findGraph graphcount graphs datalength
      = Lookup.unsupported (datalength / blocksize0 datalength) := by
  simp [findGraph, hb, hd]

/-- A length from 1 to 4093 is below its own initial block size: the derived number of
data blocks is zero. -/
theorem zero_blocks_of_short (datalength : Nat) (h1 : 1 ≤ datalength)
    (h2 : datalength ≤ 4093) :
    blocksize0 datalength ≠ 0 ∧ datalength / blocksize0 datalength = 0 := by
  have hle : datalength + 1 ≤ blocksize0 datalength := by
    unfold blocksize0
    rw [Nat.le_sqrt]
    nlinarith [Nat.mul_le_mul (Nat.sub_le_sub_right h1 1) (Nat.sub_le_sub_left h2 4093)]
  exact ⟨by omega, Nat.div_eq_of_lt (by omega)⟩

theorem findGraph_short (graphcount : Nat) (graphs : List graph) (datalength : Nat)
    (h1 : 1 ≤ datalength) (h2 : datalength ≤ 4093) (ht : graphs.length < 2 ^ 32) :
    findGraph graphcount graphs datalength = Lookup.outside 4294967295 := by
  obtain ⟨hb, hd⟩ := zero_blocks_of_short datalength h1 h2
  have hnone : graphs[4294967295]? = none := List.getElem?_eq_none (by omega)
  simp [findGraph, hb, hd, hnone]

theorem findGraph_found (graphcount : Nat) (graphs : List graph) (datalength b d : Nat)
    (g : graph) (hb : blocksize0 datalength = b) (hb0 : b ≠ 0) (hd : datalength / b = d + 1)
    (hgc : d + 1 ≤ graphcount) (hd32 : d + 1 < 2 ^ 32) (hg : graphs[d]? = some g) :
    findGraph graphcount graphs datalength = Lookup.found d g := by
  have e : (d + 1 + 2 ^ 32 - 1) % 2 ^ 32 = d := by
    have : d + 1 + 2 ^ 32 - 1 = d + 2 ^ 32 := by omega
    rw [this, Nat.add_mod_right, Nat.mod_eq_of_lt (by omega)]
  have hnot : ¬ (d + 1 > graphcount) := by omega
  simp only [findGraph, hb, hd, if_neg hb0, if_neg hnot, e, hg]

theorem hashesWanted_found (graphcount : Nat) (graphs : List graph) (datalength : Nat)
    (index : Nat) (g : graph)
    (hg : findGraph graphcount graphs datalength = Lookup.found index g) :
    hashesWanted graphcount graphs datalength = some (1 + g.dbc + g.cbc) := by
  simp only [hashesWanted, hg]

/-- C4 at the length of scenario S5: for 500000 bytes the initial block size is 45254
and the number of data blocks is 11; with the table entry for 11 data blocks the padding
loop of `insert` and `request` ends on 45455, because its test reads
`datalength + (datalength % 16)`. The data region of `11 * 45455` bytes is shorter than
the 500016 bytes, `datalength + 16 - datalength % 16`, that are encrypted; the smallest
block size that covers those is 45456. -/
theorem blocksize_500000_short_of_crypt_length :
    blocksize0 500000 = 45254 ∧ 500000 / blocksize0 500000 = 11 ∧
    padBlocksize 11 500000 padRounds (blocksize0 500000) = some 45455 ∧
    11 * 45455 < cryptLength 500000 ∧
    cryptLength 500000 ≤ 11 * 45456 := by
  have hb : blocksize0 500000 = 45254 := blocksize0_eq 500000 45254 (by norm_num) (by norm_num)
  rw [hb]
  refine ⟨rfl, by norm_num, ?_, by decide, by decide⟩
  exact padBlocksize_least 11 500000 201 padRounds 45254 (by decide) (by norm_num)
    (by norm_num) (by norm_num) (by norm_num) (fun b _ hb2 => by omega)

/-- C5 at a length of 100 bytes: the initial block size is 640, the derived number of
data blocks is 0, the test `datalength/blocksize > graphcount` does not fire whatever
`graphcount` is, and `insert` and `request` go on to read `graphs[0 - 1]`, which in
`unsigned int` arithmetic is entry 4294967295, outside the table. -/
theorem zero_data_blocks_reads_outside_table (graphcount : Nat) :
    blocksize0 100 = 640 ∧ 100 / blocksize0 100 = 0 ∧
    findGraph graphcount [graph11] 100 = Lookup.outside 4294967295 ∧
    requestFront 20 graphcount [graph11] 64 true 100
      = Parsed.noGraph (Lookup.outside 4294967295) := by
  have hb : blocksize0 100 = 640 := blocksize0_eq 100 640 (by norm_num) (by norm_num)
  have hf : findGraph graphcount [graph11] 100 = Lookup.outside 4294967295 :=
    findGraph_short graphcount [graph11] 100 (by norm_num) (by norm_num) (by simp)
  refine ⟨hb, by rw [hb], hf, ?_⟩
  have hlen : ¬ ((wrapInt32 (64 - 4)).tmod ((20 : Nat) : Int) ≠ 0
      ∨ wrapInt32 (64 - 4) = ((20 : Nat) : Int)) := by decide
  simp only [requestFront, if_neg hlen, hf]
  rfl

/-- C1 for a short plaintext: `insert` of 1 to 4093 bytes derives zero data blocks, is
not stopped by the test against `graphcount`, and reads `graphs[4294967295]`, outside
any table it can have; no key is produced for `request` to work on. -/
theorem insert_short_plaintext_reads_outside_table (HASHLEN graphcount : Nat)
    (graphs : List graph) (hashdata : List Nat → List Nat)
    (encryptdata : List Nat → List Nat → List Nat) (junk : Nat) (plaintext : List Nat)
    (h1 : 1 ≤ plaintext.length) (h2 : plaintext.length ≤ 4093)
    (ht : graphs.length < 2 ^ 32) :
    insert HASHLEN graphcount graphs hashdata encryptdata junk plaintext
      = Inserted.noGraph (Lookup.outside 4294967295) := by
  have hf := findGraph_short graphcount graphs plaintext.length h1 h2 ht
  simp only [insert, hf]

theorem insert_short_plaintext_reads_outside_table_witness :
    insert 20 1 [graph11] idHash (fun data _ => data) 0 plaintextS1
      = Inserted.noGraph (Lookup.outside 4294967295) :=
  insert_short_plaintext_reads_outside_table 20 1 [graph11] idHash (fun data _ => data) 0
    plaintextS1 (by simp [plaintextS1]) (by simp [plaintextS1]) (by simp)

/-! ## The key length check of `request` -/

theorem wrapInt32_of_range (x : Int) (hlo : -2147483648 ≤ x) (hhi : x < 2147483648) :
    wrapInt32 x = x := by
  unfold wrapInt32
  norm_num
  omega

theorem requestFront_of_check_passed (HASHLEN graphcount : Nat) (graphs : List graph)
    (keylen : Int) (datalength : Nat)
    (hpass : ¬ ((wrapInt32 (keylen - 4)).tmod HASHLEN ≠ 0 ∨ wrapInt32 (keylen - 4) = HASHLEN))
    (index : Nat) (g : graph) (blocksize : Nat)
    (hg : findGraph graphcount graphs datalength = Lookup.found index g)
    (hb : padBlocksize g.dbc datalength padRounds (blocksize0 datalength) = some blocksize) :
    requestFront HASHLEN graphcount graphs keylen true datalength
      = Parsed.download g (g.dbc + g.cbc) blocksize := by
  simp only [requestFront, if_neg hpass, hg, hb]
  rfl

/-- C10 on a key of two hashes: with hashes of 20 bytes and a table whose graph for one
data block has one check block, a key for 4096 bytes has to carry `1 + 1 + 1 = 3`
hashes. `request` takes a key length of 44, that is `k = 2` hashes, past the length
check and on to the download of 2 blocks, for which `do_request` reads 60 bytes of the
40 that `hashes` holds. -/
theorem request_downloads_on_key_of_two_hashes :
    hashesWanted 1 [graph11] 4096 = some 3 ∧
    requestFront 20 1 [graph11] (4 + 2 * 20) true 4096 = Parsed.download graph11 2 4096 ∧
    hashBytesHeld (4 + 2 * 20) = 40 ∧
    hashBytesNeeded 20 2 = 60 := by
  have hb : blocksize0 4096 = 4096 := blocksize0_eq 4096 4096 (by norm_num) (by norm_num)
  have hf : findGraph 1 [graph11] 4096 = Lookup.found 0 graph11 :=
    findGraph_found 1 [graph11] 4096 4096 0 graph11 hb (by decide) (by norm_num)
      (by decide) (by norm_num) rfl
  have hp : padBlocksize graph11.dbc 4096 padRounds (blocksize0 4096) = some 4096 := by
    rw [hb]; exact padBlocksize_stop _ _ _ _ (by decide) (by decide)
  exact ⟨hashesWanted_found 1 [graph11] 4096 0 graph11 hf,
    requestFront_of_check_passed 20 1 [graph11] (4 + 2 * 20) 4096 (by decide) 0 graph11
      4096 hf hp, by decide, by decide⟩

/-- The test of the key length in `request`, for key lengths in the range of an `int`
whose `i = keylen - 4` does not wrap. When the key length is not `4 + k * HASHLEN` for
an integer `k`, or is `4 + HASHLEN`, `request` enters the branch of the alert
"Bad key length". Every key length `4 + k * HASHLEN` with `k ≥ 2` passes: once the key
is read and the table gives a graph for the data length, `request` goes on to download
the `d + c` blocks of that graph; `k` is not compared with `1 + d + c`. -/
theorem requestFront_key_length_test (HASHLEN graphcount : Nat) (graphs : List graph)
    (keylen : Int) (readOk : Bool) (datalength : Nat)
    (hH : 0 < HASHLEN) (hlo : -2147483644 ≤ keylen) (hhi : keylen < 2147483648) :
    (((¬ ∃ k : Int, keylen = 4 + k * HASHLEN) ∨ keylen = 4 + HASHLEN) →
      requestFront HASHLEN graphcount graphs keylen readOk datalength
        = Parsed.badKeyLengthAlert (keylen - 4)) ∧
    (∀ k : Nat, 2 ≤ k → keylen = 4 + k * HASHLEN →
      ∀ (index : Nat) (g : graph) (blocksize : Nat),
        findGraph graphcount graphs datalength = Lookup.found index g →
        padBlocksize g.dbc datalength padRounds (blocksize0 datalength) = some blocksize →
        requestFront HASHLEN graphcount graphs keylen true datalength
          = Parsed.download g (g.dbc + g.cbc) blocksize) := by
  have hw : wrapInt32 (keylen - 4) = keylen - 4 :=
    wrapInt32_of_range _ (by omega) (by omega)
  constructor
  · intro h
    have hbad : (wrapInt32 (keylen - 4)).tmod HASHLEN ≠ 0
        ∨ wrapInt32 (keylen - 4) = HASHLEN := by
      rw [hw]
      rcases h with h | h
      · left
        intro hz
        apply h
        obtain ⟨c, hc⟩ := Int.dvd_of_tmod_eq_zero hz
        exact ⟨c, by rw [Int.mul_comm c]; omega⟩
      · right; omega
    rw [hw] at hbad
    simp only [requestFront, hw, if_pos hbad]
  · intro k hk hkey index g blocksize hg hb
    apply requestFront_of_check_passed HASHLEN graphcount graphs keylen datalength _ index g
      blocksize hg hb
    rw [hw]
    have e : keylen - 4 = (k : Int) * (HASHLEN : Int) := by omega
    rw [e]
    intro hc
    rcases hc with hc | hc
    · exact hc (Int.mul_tmod_left _ _)
    · have h2 : (2 : Int) * (HASHLEN : Int) ≤ (k : Int) * (HASHLEN : Int) :=
        Int.mul_le_mul_of_nonneg_right (by exact_mod_cast hk) (by omega)
      have h3 : (0 : Int) < (HASHLEN : Int) := by exact_mod_cast hH
      omega

theorem requestFront_key_length_test_witness :
    requestFront 20 1 [graph11] 24 true 4096 = Parsed.badKeyLengthAlert 20 ∧
    requestFront 20 1 [graph11] 64 true 4096 = Parsed.download graph11 2 4096 := by
  have hb : blocksize0 4096 = 4096 := blocksize0_eq 4096 4096 (by norm_num) (by norm_num)
  have hf : findGraph 1 [graph11] 4096 = Lookup.found 0 graph11 :=
    findGraph_found 1 [graph11] 4096 4096 0 graph11 hb (by decide) (by norm_num)
      (by decide) (by norm_num) rfl
  have hp : padBlocksize graph11.dbc 4096 padRounds (blocksize0 4096) = some 4096 := by
    rw [hb]; exact padBlocksize_stop _ _ _ _ (by decide) (by decide)
  exact ⟨(requestFront_key_length_test 20 1 [graph11] 24 true 4096 (by decide) (by decide)
      (by decide)).1 (Or.inr (by decide)),
    (requestFront_key_length_test 20 1 [graph11] 64 true 4096 (by decide) (by decide)
      (by decide)).2 3 (by decide) (by decide) 0 graph11 4096 hf hp⟩

/-- A key length of 4, that is no hash at all, passes the test of the key length, against
the comment "is our key a series of > 2 hashes?": `i = 0` is a multiple of `HASHLEN` and
is not `HASHLEN`. -/
theorem requestFront_takes_key_without_hashes :
    hashBytesHeld 4 = 0 ∧
    requestFront 20 1 [graph11] 4 true 4096 = Parsed.download graph11 2 4096 := by
  have hb : blocksize0 4096 = 4096 := blocksize0_eq 4096 4096 (by norm_num) (by norm_num)
  have hf : findGraph 1 [graph11] 4096 = Lookup.found 0 graph11 :=
    findGraph_found 1 [graph11] 4096 4096 0 graph11 hb (by decide) (by norm_num)
      (by decide) (by norm_num) rfl
  have hp : padBlocksize graph11.dbc 4096 padRounds (blocksize0 4096) = some 4096 := by
    rw [hb]; exact padBlocksize_stop _ _ _ _ (by decide) (by decide)
  exact ⟨by decide,
    requestFront_of_check_passed 20 1 [graph11] 4 4096 (by decide) 0 graph11 4096 hf hp⟩

/-! ## The reconstruction loop on a buffer with stale bytes -/

/-- C2 on a stale buffer: the graph has one data block and one check block that is its
copy, the encoded object is data `[5]`, check `[5]`. The download leaves the check block
in place and, at the missing data position, a byte `9` that failed its hash check. The
reconstruction XORs the check block into those stale bytes: the loop ends with no
position missing (`n = 0`) and with data block `[12]`, not the original `[5]`. -/
theorem decode_xors_into_stale_bytes :
    encode graph11 1 [5, 0] = [5, 5] ∧
    decode graph11 1 [9, 5] [0, 1]
      = some { blocks := [12, 5], mask := [1, 1], a := 1, n := 0 } := by
  decide

/-! ## The reconstruction loop on a buffer that is zero where blocks are missing -/

theorem foldl_xor_init (P : Nat → Prop) [DecidablePred P] (d : Nat → Nat) (l : List Nat)
    (init : Nat) :
    l.foldl (fun x k => if P k then x ^^^ d k else x) init
      = init ^^^ l.foldl (fun x k => if P k then x ^^^ d k else x) 0 := by
  induction l generalizing init with
  | nil => simp
  | cons k l ih =>
    simp only [List.foldl_cons]
    by_cases hk : P k
    · rw [if_pos hk, if_pos hk, ih (init ^^^ d k), ih (0 ^^^ d k), Nat.zero_xor,
        Nat.xor_assoc]
    · rw [if_neg hk, if_neg hk]
      exact ih init

theorem xor_pair_cancel (a x y : Nat) : a ^^^ x ^^^ (a ^^^ y) = x ^^^ y := by
  rw [Nat.xor_comm a x, Nat.xor_assoc, Nat.xor_cancel_left]

/-- The XOR over the selected blocks, XORed with the XOR over the selected blocks other
than `i`, leaves block `i`. -/
theorem foldl_xor_without (P : Nat → Prop) [DecidablePred P] (d : Nat → Nat) (i : Nat)
    (l : List Nat) (hnd : l.Nodup) (hi : i ∈ l) (hP : P i) :
    l.foldl (fun x k => if P k then x ^^^ d k else x) 0
      ^^^ l.foldl (fun x k => if P k ∧ k ≠ i then x ^^^ d k else x) 0 = d i := by
  induction l with
  | nil => simp at hi
  | cons k l ih =>
    simp only [List.foldl_cons]
    rw [List.nodup_cons] at hnd
    by_cases hki : k = i
    · subst hki
      have hnot : ¬ (P k ∧ k ≠ k) := fun h => h.2 rfl
      rw [if_pos hP, if_neg hnot, Nat.zero_xor, foldl_xor_init P d l (d k)]
      have hsame : l.foldl (fun x j => if P j ∧ j ≠ k then x ^^^ d j else x) 0
          = l.foldl (fun x j => if P j then x ^^^ d j else x) 0 := by
        apply List.foldl_ext
        intro x j hj
        have hjk : j ≠ k := fun e => hnd.1 (e ▸ hj)
        by_cases hPj : P j
        · rw [if_pos ⟨hPj, hjk⟩, if_pos hPj]
        · rw [if_neg (fun h => hPj h.1), if_neg hPj]
      rw [hsame, Nat.xor_assoc, Nat.xor_self, Nat.xor_zero]
    · have hil : i ∈ l := by
        rcases List.mem_cons.1 hi with e | h
        · exact absurd e.symm hki
        · exact h
      by_cases hPk : P k
      · rw [if_pos hPk, if_pos ⟨hPk, hki⟩, Nat.zero_xor,
          foldl_xor_init P d l (d k),
          foldl_xor_init (fun j => P j ∧ j ≠ i) d l (d k)]
        rw [xor_pair_cancel]
        exact ih hnd.2 hil
      · rw [if_neg hPk, if_neg (fun h => hPk h.1)]
        exact ih hnd.2 hil

theorem xorSelected_eq_foldl (g : graph) (blocksize : Nat) (orig : List Nat) (j t : Nat) :
    xorSelected g blocksize orig j t
      = (List.range g.dbc).foldl
          (fun x k => if is_set g k j ≠ 0 then x ^^^ orig.getD (k * blocksize + t) 0 else x)
          0 := by
  unfold xorSelected
  exact foldl_filter_map_xor (fun i => is_set g i j ≠ 0) _ _ 0

theorem rebuildData_length (g : graph) (blocksize : Nat) (blocks : List Nat) (i j : Nat) :
    (rebuildData g blocksize blocks i j).length = blocks.length := by
  unfold rebuildData
  rw [foldl_xor_length (fun k => is_set g k j ≠ 0 ∧ k ≠ i), xor_length]

theorem rebuildCheck_length (g : graph) (blocksize : Nat) (blocks : List Nat) (i : Nat) :
    (rebuildCheck g blocksize blocks i).length = blocks.length := by
  unfold rebuildCheck
  exact foldl_xor_length (fun k => is_set g k i ≠ 0) _ _ _ _

/-- What the XORs of the data pass leave in block `i`: the bytes that were there before,
XORed with the original data block. Only the present blocks need to be original. -/
theorem rebuildData_xors_into_old (g : graph) (blocksize : Nat) (orig : List Nat)
    (blocks mask : List Nat) (i j t : Nat) (henc : isEncoded g blocksize orig)
    (hlen : blocks.length = (g.dbc + g.cbc) * blocksize)
    (hpresent : ∀ p, p < g.dbc + g.cbc → mask.getD p 0 ≠ 0 → ∀ t, t < blocksize →
      blocks.getD (p * blocksize + t) 0 = orig.getD (p * blocksize + t) 0)
    (hi : i < g.dbc) (hj : j < g.cbc) (ht : t < blocksize)
    (hu : usableCheck g mask i j = true) :
    (rebuildData g blocksize blocks i j).getD (i * blocksize + t) 0
      = blocks.getD (i * blocksize + t) 0 ^^^ orig.getD (i * blocksize + t) 0 := by
  simp only [usableCheck, Bool.and_eq_true, decide_eq_true_eq] at hu
  obtain ⟨⟨hmj, hset⟩, hoth⟩ := hu
  have hothers : ∀ k, k < g.dbc → is_set g k j ≠ 0 → k ≠ i → mask.getD k 0 ≠ 0 := by
    intro k hk hks hki hz
    have := (List.all_eq_true.1 hoth) k (List.mem_range.2 hk)
    simp only [hks, hki, hz, ne_eq, not_false_eq_true, decide_True, Bool.and_self,
      Bool.not_true] at this
    exact absurd this (by decide)
  have hib : i * blocksize + blocksize ≤ blocks.length :=
    block_in_bounds blocksize (g.dbc + g.cbc) i _ hlen (by omega)
  have hne : g.dbc + j ≠ i := by omega
  unfold rebuildData
  rw [foldl_xor_dst (fun k => is_set g k j ≠ 0 ∧ k ≠ i) (List.range g.dbc) _ i blocksize t
    (fun k _ hq => hq.2) (by rw [xor_length]; exact hib) ht]
  rw [xor_block_dst blocks blocksize i (g.dbc + j) t hne hib ht]
  rw [hpresent (g.dbc + j) (by omega) hmj t ht]
  have hfold : (List.range g.dbc).foldl
      (fun x k => if is_set g k j ≠ 0 ∧ k ≠ i then
        x ^^^ (xor blocks (i * blocksize) ((g.dbc + j) * blocksize) blocksize).getD
          (k * blocksize + t) 0 else x)
      (blocks.getD (i * blocksize + t) 0 ^^^ orig.getD ((g.dbc + j) * blocksize + t) 0)
      = (List.range g.dbc).foldl
          (fun x k => if is_set g k j ≠ 0 ∧ k ≠ i then
            x ^^^ orig.getD (k * blocksize + t) 0 else x)
          (blocks.getD (i * blocksize + t) 0
            ^^^ orig.getD ((g.dbc + j) * blocksize + t) 0) := by
    apply List.foldl_ext
    intro x k hk
    have hk2 := List.mem_range.1 hk
    by_cases hq : is_set g k j ≠ 0 ∧ k ≠ i
    · rw [if_pos hq, if_pos hq, xor_block_other blocks blocksize i _ k t hq.2 ht]
      rw [hpresent k (by omega) (hothers k hk2 hq.1 hq.2) t ht]
    · rw [if_neg hq, if_neg hq]
  rw [hfold, henc j hj t ht, xorSelected_eq_foldl,
    foldl_xor_init (fun k => is_set g k j ≠ 0 ∧ k ≠ i), Nat.xor_assoc]
  rw [foldl_xor_without (fun k => is_set g k j ≠ 0)
    (fun k => orig.getD (k * blocksize + t) 0) i (List.range g.dbc)
    (List.nodup_range g.dbc) (List.mem_range.2 hi) hset]

/-- A data block rebuilt from a usable check block, on a clean buffer, is the original
data block. -/
theorem rebuildData_original (g : graph) (blocksize : Nat) (orig : List Nat) (s : DecState)
    (i j t : Nat) (henc : isEncoded g blocksize orig)
    (hc : cleanAgainst g blocksize orig s) (hi : i < g.dbc) (hj : j < g.cbc)
    (ht : t < blocksize) (hmiss : s.mask.getD i 0 = 0)
    (hu : usableCheck g s.mask i j = true) :
    (rebuildData g blocksize s.blocks i j).getD (i * blocksize + t) 0
      = orig.getD (i * blocksize + t) 0 := by
  have hpresent : ∀ p, p < g.dbc + g.cbc → s.mask.getD p 0 ≠ 0 → ∀ t, t < blocksize →
      s.blocks.getD (p * blocksize + t) 0 = orig.getD (p * blocksize + t) 0 := by
    intro p hp hne t ht
    have := hc.2 p hp t ht
    rw [if_pos hne] at this
    exact this
  rw [rebuildData_xors_into_old g blocksize orig s.blocks s.mask i j t henc hc.1 hpresent
    hi hj ht hu]
  have h1 := hc.2 i (by omega) t ht
  rw [if_neg (by simpa using hmiss)] at h1
  rw [h1, Nat.zero_xor]

/-- A check block rebuilt from its data blocks, on a clean buffer, is the original check
block. -/
theorem rebuildCheck_original (g : graph) (blocksize : Nat) (orig : List Nat)
    (s : DecState) (i t : Nat) (henc : isEncoded g blocksize orig)
    (hc : cleanAgainst g blocksize orig s) (hi : i < g.cbc) (ht : t < blocksize)
    (hmiss : s.mask.getD (g.dbc + i) 0 = 0)
    (hall : (List.range g.dbc).any
      (fun j => decide (is_set g j i ≠ 0) && decide (s.mask.getD j 0 = 0)) = false) :
    (rebuildCheck g blocksize s.blocks i).getD ((g.dbc + i) * blocksize + t) 0
      = orig.getD ((g.dbc + i) * blocksize + t) 0 := by
  obtain ⟨hlen, hblk⟩ := hc
  have hdata : ∀ k, k < g.dbc → is_set g k i ≠ 0 → s.mask.getD k 0 ≠ 0 := by
    intro k hk hks hz
    have := (List.any_eq_false.1 hall) k (List.mem_range.2 hk)
    simp only [hks, hz, ne_eq, not_false_eq_true, decide_True, Bool.and_self,
      not_true_eq_false] at this
  have hib : (g.dbc + i) * blocksize + blocksize ≤ s.blocks.length :=
    block_in_bounds blocksize (g.dbc + g.cbc) (g.dbc + i) _ hlen (by omega)
  unfold rebuildCheck
  rw [foldl_xor_dst (fun k => is_set g k i ≠ 0) (List.range g.dbc) _ (g.dbc + i) blocksize t
    (fun k hk _ => by have := List.mem_range.1 hk; omega) hib ht]
  have h1 := hblk (g.dbc + i) (by omega) t ht
  rw [if_neg (by simpa using hmiss)] at h1
  rw [h1, henc i hi t ht, xorSelected_eq_foldl]
  apply List.foldl_ext
  intro x k hk
  have hk2 := List.mem_range.1 hk
  by_cases hq : is_set g k i ≠ 0
  · rw [if_pos hq, if_pos hq]
    have h3 := hblk k (by omega) t ht
    rw [if_pos (hdata k hk2 hq)] at h3
    rw [h3]
  · rw [if_neg hq, if_neg hq]

theorem dataStep_clean (g : graph) (blocksize : Nat) (orig : List Nat) (s : DecState)
    (i : Nat) (henc : isEncoded g blocksize orig) (hi : i < g.dbc)
    (hm : s.mask.length = g.dbc + g.cbc) (hc : cleanAgainst g blocksize orig s) :
    cleanAgainst g blocksize orig (dataStep g blocksize s i) := by
  unfold dataStep
  split
  · exact hc
  · rename_i hmiss
    split
    · exact hc
    · rename_i j hfind
      have hu := List.find?_some hfind
      have hj := List.mem_range.1 (List.mem_of_find?_eq_some hfind)
      have hz : s.mask.getD i 0 = 0 := by simpa using hmiss
      refine ⟨by rw [rebuildData_length]; exact hc.1, ?_⟩
      intro p hp t ht
      show (rebuildData g blocksize s.blocks i j).getD (p * blocksize + t) 0
        = if (s.mask.set i 1).getD p 0 ≠ 0 then orig.getD (p * blocksize + t) 0 else 0
      by_cases hpi : p = i
      · subst hpi
        have e : (s.mask.set p 1).getD p 0 = 1 := by
          rw [getD_set, if_pos ⟨rfl, by omega⟩]
        rw [e, if_pos (by decide)]
        exact rebuildData_original g blocksize orig s p j t henc hc hi hj ht hz hu
      · have e : (s.mask.set i 1).getD p 0 = s.mask.getD p 0 := by
          rw [getD_set, if_neg (fun h => hpi h.1.symm)]
        rw [e, rebuildData_other g blocksize s.blocks i j p t hpi ht]
        exact hc.2 p hp t ht

theorem checkStep_clean (g : graph) (blocksize : Nat) (orig : List Nat) (s : DecState)
    (i : Nat) (henc : isEncoded g blocksize orig) (hi : i < g.cbc)
    (hm : s.mask.length = g.dbc + g.cbc) (hc : cleanAgainst g blocksize orig s) :
    cleanAgainst g blocksize orig (checkStep g blocksize s i) := by
  unfold checkStep
  split
  · exact hc
  · rename_i hmiss
    split
    · exact hc
    · rename_i hany
      have hz : s.mask.getD (g.dbc + i) 0 = 0 := by simpa using hmiss
      have hall : (List.range g.dbc).any
          (fun j => decide (is_set g j i ≠ 0) && decide (s.mask.getD j 0 = 0)) = false := by
        simpa using hany
      refine ⟨by rw [rebuildCheck_length]; exact hc.1, ?_⟩
      intro p hp t ht
      show (rebuildCheck g blocksize s.blocks i).getD (p * blocksize + t) 0
        = if (s.mask.set (g.dbc + i) 1).getD p 0 ≠ 0 then orig.getD (p * blocksize + t) 0
          else 0
      by_cases hpi : p = g.dbc + i
      · subst hpi
        have e : (s.mask.set (g.dbc + i) 1).getD (g.dbc + i) 0 = 1 := by
          rw [getD_set, if_pos ⟨rfl, by omega⟩]
        rw [e, if_pos (by decide)]
        exact rebuildCheck_original g blocksize orig s i t henc hc hi ht hz hall
      · have e : (s.mask.set (g.dbc + i) 1).getD p 0 = s.mask.getD p 0 := by
          rw [getD_set, if_neg (fun h => hpi h.1.symm)]
        rw [e, rebuildCheck_other g blocksize s.blocks i p t hpi ht]
        exact hc.2 p hp t ht

theorem foldl_clean (g : graph) (blocksize : Nat) (orig : List Nat)
    (f : DecState → Nat → DecState) (l : List Nat) (bound : Nat)
    (hb : ∀ i ∈ l, i < bound)
    (hf : ∀ s i, i < bound → s.mask.length = g.dbc + g.cbc →
      cleanAgainst g blocksize orig s →
      (f s i).mask.length = g.dbc + g.cbc ∧ cleanAgainst g blocksize orig (f s i))
    (s : DecState) (hm : s.mask.length = g.dbc + g.cbc)
    (hc : cleanAgainst g blocksize orig s) :
    (l.foldl f s).mask.length = g.dbc + g.cbc ∧
      cleanAgainst g blocksize orig (l.foldl f s) := by
  induction l generalizing s with
  | nil => exact ⟨hm, hc⟩
  | cons i l ih =>
    have h1 := hf s i (hb i (by simp)) hm hc
    exact ih (fun k hk => hb k (List.mem_cons_of_mem _ hk)) (f s i) h1.1 h1.2

theorem decodePass_clean (g : graph) (blocksize : Nat) (orig : List Nat) (s : DecState)
    (henc : isEncoded g blocksize orig) (hm : s.mask.length = g.dbc + g.cbc)
    (hc : cleanAgainst g blocksize orig s) :
    (decodePass g blocksize s).mask.length = g.dbc + g.cbc ∧
      cleanAgainst g blocksize orig (decodePass g blocksize s) := by
  unfold decodePass
  have h1 := foldl_clean g blocksize orig (dataStep g blocksize) (List.range g.dbc) g.dbc
    (fun i hi => List.mem_range.1 hi)
    (fun s i hi hm hc =>
      ⟨((dataStep_rank g blocksize s i (by omega)).1).trans hm,
        dataStep_clean g blocksize orig s i henc hi hm hc⟩)
    { s with a := 0 } hm hc
  exact foldl_clean g blocksize orig (checkStep g blocksize) (List.range g.cbc) g.cbc
    (fun i hi => List.mem_range.1 hi)
    (fun s i hi hm hc =>
      ⟨((checkStep_rank g blocksize s i (by omega)).1).trans hm,
        checkStep_clean g blocksize orig s i henc hi hm hc⟩)
    _ h1.1 h1.2

theorem decodeLoop_clean (g : graph) (blocksize : Nat) (orig : List Nat) (fuel : Nat)
    (s s1 : DecState) (henc : isEncoded g blocksize orig)
    (hm : s.mask.length = g.dbc + g.cbc) (hc : cleanAgainst g blocksize orig s)
    (h : decodeLoop g blocksize fuel s = some s1) : cleanAgainst g blocksize orig s1 := by
  induction fuel generalizing s with
  | zero => simp [decodeLoop] at h
  | succ fuel ih =>
    have hp := decodePass_clean g blocksize orig s henc hm hc
    simp only [decodeLoop] at h
    split at h
    · exact ih _ hp.1 hp.2 h
    · cases h
      exact hp.2

/-- Reconstruction on a clean buffer: when the object is encoded for the graph, every
present block of the buffer is the original block and every missing position holds
zeros, the loop comes to an end and every block present at its end, downloaded or
rebuilt, is byte-equal to the original block. -/
theorem decode_rebuilds_originals_on_clean_buffer (g : graph) (blocksize : Nat)
    (orig blocks mask : List Nat) (henc : isEncoded g blocksize orig)
    (hmask : mask.length = g.dbc + g.cbc)
    (hlen : blocks.length = (g.dbc + g.cbc) * blocksize)
    (hpresent : ∀ p, p < g.dbc + g.cbc → mask.getD p 0 ≠ 0 → ∀ t, t < blocksize →
      blocks.getD (p * blocksize + t) 0 = orig.getD (p * blocksize + t) 0)
    (hzero : ∀ p, p < g.dbc + g.cbc → mask.getD p 0 = 0 → ∀ t, t < blocksize →
      blocks.getD (p * blocksize + t) 0 = 0) :
    ∃ s, decode g blocksize blocks mask = some s ∧
      ∀ p, p < g.dbc + g.cbc → s.mask.getD p 0 ≠ 0 → ∀ t, t < blocksize →
        s.blocks.getD (p * blocksize + t) 0 = orig.getD (p * blocksize + t) 0 := by
  obtain ⟨s, hs⟩ := decode_returns g blocksize blocks mask hmask
  have h0 : cleanAgainst g blocksize orig
      { blocks := blocks, mask := mask, a := 0, n := countMissing mask (g.dbc + g.cbc) } := by
    refine ⟨hlen, fun p hp t ht => ?_⟩
    by_cases hz : mask.getD p 0 = 0
    · rw [if_neg (by simpa using hz)]
      exact hzero p hp hz t ht
    · rw [if_pos hz]
      exact hpresent p hp hz t ht
  have hc := decodeLoop_clean g blocksize orig _ _ s henc hmask h0 hs
  refine ⟨s, hs, fun p hp hne t ht => ?_⟩
  have := hc.2 p hp t ht
  rw [if_pos hne] at this
  exact this

theorem decode_rebuilds_originals_on_clean_buffer_witness :
    ∃ s, decode graph32 2 [0, 0, 0, 0, 5, 6, 2, 6, 6, 2] [0, 0, 1, 1, 1] = some s ∧
      ∀ p, p < graph32.dbc + graph32.cbc → s.mask.getD p 0 ≠ 0 → ∀ t, t < 2 →
        s.blocks.getD (p * 2 + t) 0
          = ([1, 2, 3, 4, 5, 6, 2, 6, 6, 2] : List Nat).getD (p * 2 + t) 0 :=
  decode_rebuilds_originals_on_clean_buffer graph32 2 [1, 2, 3, 4, 5, 6, 2, 6, 6, 2]
    [0, 0, 0, 0, 5, 6, 2, 6, 6, 2] [0, 0, 1, 1, 1] (by decide) (by decide) (by decide)
    (by decide) (by decide)

/-! ## Routing on a sorted list: which neighbour `off` selects -/

theorem memcmp_lt_of_lt_of_le (a b c : List Nat) (n : Nat)
    (hab : memcmp a b n < 0) (hbc : memcmp b c n ≤ 0) : memcmp a c n < 0 := by
  induction n generalizing a b c with
  | zero => simp [memcmp] at hab
  | succ n ih =>
    unfold memcmp at hab hbc ⊢
    by_cases h1 : a.headD 0 = b.headD 0
    · by_cases h2 : b.headD 0 = c.headD 0
      · rw [if_pos h1] at hab
        rw [if_pos h2] at hbc
        rw [if_pos (h1.trans h2)]
        exact ih _ _ _ hab hbc
      · rw [if_neg h2] at hbc
        rw [if_neg (fun e => h2 (h1 ▸ e)), h1]
        omega
    · by_cases h2 : b.headD 0 = c.headD 0
      · rw [if_neg h1] at hab
        rw [if_neg (fun e => h1 (e.trans h2.symm)), ← h2]
        exact hab
      · rw [if_neg h1] at hab
        rw [if_neg h2] at hbc
        have h3 : ¬ a.headD 0 = c.headD 0 := by omega
        rw [if_neg h3]
        omega

/-- The walk of `route` passes only nodes whose hash does not exceed the query. -/
theorem routeWalk_passed (HASHLEN : Nat) (hash : List Nat) (head : List node) (k : Nat)
    (hk : k < routeWalk HASHLEN hash head) :
    ¬ memcmp hash (hashAt head k) HASHLEN < 0 := by
  induction head generalizing k with
  | nil => simp [routeWalk] at hk
  | cons p rest ih =>
    cases rest with
    | nil => simp [routeWalk] at hk
    | cons q rest =>
      unfold routeWalk at hk
      by_cases hlt : memcmp hash p.hash HASHLEN < 0
      · rw [if_pos hlt] at hk; omega
      · rw [if_neg hlt] at hk
        cases k with
        | zero => simpa [hashAt] using hlt
        | succ k =>
          have := ih k (by omega)
          simpa [hashAt] using this

/-- Where the walk of `route` stops before the last node, the hash exceeds the query. -/
theorem routeWalk_stopped (HASHLEN : Nat) (hash : List Nat) (head : List node)
    (hnext : routeWalk HASHLEN hash head + 1 < head.length) :
    memcmp hash (hashAt head (routeWalk HASHLEN hash head)) HASHLEN < 0 := by
  induction head with
  | nil => simp at hnext
  | cons p rest ih =>
    cases rest with
    | nil => simp [routeWalk] at hnext
    | cons q rest =>
      by_cases hlt : memcmp hash p.hash HASHLEN < 0
      · have e : routeWalk HASHLEN hash (p :: q :: rest) = 0 := by simp [routeWalk, hlt]
        rw [e]
        simpa [hashAt] using hlt
      · have e : routeWalk HASHLEN hash (p :: q :: rest)
            = routeWalk HASHLEN hash (q :: rest) + 1 := by simp [routeWalk, hlt]
        rw [e] at hnext ⊢
        have := ih (by simpa using hnext)
        simpa [hashAt] using this

theorem hashAt_sorted_step (HASHLEN : Nat) (head : List node)
    (hs : ringSorted HASHLEN head) (i : Nat) (hi : i + 1 < head.length) :
    memcmp (hashAt head i) (hashAt head (i + 1)) HASHLEN ≤ 0 := by
  have h := (List.pairwise_iff_getElem.1 hs) i (i + 1) (by omega) hi (by omega)
  have e1 : hashAt head i = (head[i]).hash := by
    simp [hashAt, List.getElem?_eq_getElem (show i < head.length by omega)]
  have e2 : hashAt head (i + 1) = (head[i + 1]).hash := by
    simp [hashAt, List.getElem?_eq_getElem hi]
  rw [e1, e2]
  exact h

/-- C16: on a list in ascending order of hash, when the node picked by `route(h, 0)`
(position `p`) has both a predecessor and a successor, `memcmp(h, prev.hash)` is not
negative and `memcmp(h, next.hash)` is negative, so the comparison
`memcmp(h, prev.hash) > memcmp(h, next.hash)` is true for every `h`: `route(h, 1)`
returns the successor's address and `route(h, 2)` the predecessor's, whichever of the
two is nearer to `h`. -/
theorem route_successor_then_predecessor (HASHLEN : Nat) (head : List node)
    (hash : List Nat) (hs : ringSorted HASHLEN head)
    (hprev : 0 < routeWalk HASHLEN hash head)
    (hnext : routeWalk HASHLEN hash head + 1 < head.length) :
    0 ≤ memcmp hash (hashAt head (routeWalk HASHLEN hash head - 1)) HASHLEN ∧
    memcmp hash (hashAt head (routeWalk HASHLEN hash head + 1)) HASHLEN < 0 ∧
    ∃ prev next : node,
      head[routeWalk HASHLEN hash head - 1]? = some prev ∧
      head[routeWalk HASHLEN hash head + 1]? = some next ∧
      route HASHLEN head hash 1 = some next.addr ∧
      route HASHLEN head hash 2 = some prev.addr := by
  have hp : 0 ≤ memcmp hash (hashAt head (routeWalk HASHLEN hash head - 1)) HASHLEN := by
    have := routeWalk_passed HASHLEN hash head (routeWalk HASHLEN hash head - 1) (by omega)
    omega
  have hn : memcmp hash (hashAt head (routeWalk HASHLEN hash head + 1)) HASHLEN < 0 :=
    memcmp_lt_of_lt_of_le _ _ _ _ (routeWalk_stopped HASHLEN hash head hnext)
      (hashAt_sorted_step HASHLEN head hs _ hnext)
  have hgt : memcmp hash (hashAt head (routeWalk HASHLEN hash head - 1)) HASHLEN
      > memcmp hash (hashAt head (routeWalk HASHLEN hash head + 1)) HASHLEN := by omega
  have h1 := routePick_both HASHLEN head hash 1 (Or.inl rfl) hprev hnext
  have h2 := routePick_both HASHLEN head hash 2 (Or.inr rfl) hprev hnext
  rw [if_pos hgt] at h1 h2
  have hp1 : routeWalk HASHLEN hash head - 1 < head.length := by omega
  refine ⟨hp, hn, head[routeWalk HASHLEN hash head - 1],
    head[routeWalk HASHLEN hash head + 1],
    List.getElem?_eq_getElem hp1, List.getElem?_eq_getElem hnext, ?_, ?_⟩
  · unfold route
    rw [h1]
    simp [List.getElem?_eq_getElem hnext]
  · unfold route
    rw [h2]
    simp [List.getElem?_eq_getElem hp1]

theorem route_successor_then_predecessor_witness :
    0 ≤ memcmp [30] (hashAt ring3 0) 1 ∧ memcmp [30] (hashAt ring3 2) 1 < 0 ∧
    route 1 ring3 [21] 1 = some 12 ∧ route 1 ring3 [21] 2 = some 10 ∧
    route 1 ring3 [39] 1 = some 12 ∧ route 1 ring3 [39] 2 = some 10 ∧
    ∃ prev next : node,
      ring3[routeWalk 1 [30] ring3 - 1]? = some prev ∧
      ring3[routeWalk 1 [30] ring3 + 1]? = some next ∧
      route 1 ring3 [30] 1 = some next.addr ∧
      route 1 ring3 [30] 2 = some prev.addr :=
  ⟨by decide, by decide, by decide, by decide, by decide, by decide,
    (route_successor_then_predecessor 1 ring3 [30] (by decide) (by decide)
      (by decide)).2.2⟩

/-! ## `hookup` and the list of servers -/

theorem rmrefWalk_length (HASHLEN : Nat) (hash : List Nat) (head r : List node)
    (h : rmrefWalk HASHLEN hash head = some r) : r.length + 1 = head.length := by
  induction head generalizing r with
  | nil => simp [rmrefWalk] at h
  | cons p rest ih =>
    unfold rmrefWalk at h
    split at h
    · cases h; simp
    · cases hr : rmrefWalk HASHLEN hash rest with
      | none => simp [hr] at h
      | some r2 =>
        simp [hr] at h
        subst h
        simp [ih r2 hr]

theorem hookupLoop_ring (HASHLEN : Nat) (hashdata : List Nat → List Nat) (hash : List Nat)
    (outcomes : List Bool) (head : List node) (addr : Nat) (head1 : List node)
    (addr1 : Nat)
    (h : hookupLoop HASHLEN hashdata hash head addr outcomes = some (head1, addr1)) :
    head1.Sublist head ∧ head1.length + failedConnects outcomes = head.length := by
  induction outcomes generalizing head addr with
  | nil => simp [hookupLoop] at h
  | cons ok outcomes ih =>
    unfold hookupLoop at h
    cases ok with
    | true =>
      simp at h
      obtain ⟨e1, _⟩ := h
      subst e1
      exact ⟨List.Sublist.refl _, by simp [failedConnects]⟩
    | false =>
      simp only [Bool.false_eq_true, if_false] at h
      cases hr : rmref HASHLEN hashdata head addr with
      | none => simp [hr] at h
      | some head2 =>
        simp only [hr] at h
        cases hroute : route HASHLEN head2 hash 0 with
        | none => simp [hroute] at h
        | some addr2 =>
          simp only [hroute] at h
          obtain ⟨hsub, hlen⟩ := ih head2 addr2 h
          have hsub2 := rmrefWalk_sublist HASHLEN _ head head2 hr
          have hlen2 := rmrefWalk_length HASHLEN _ head head2 hr
          refine ⟨hsub.trans hsub2, ?_⟩
          simp only [failedConnects, List.takeWhile, Bool.not_false, List.length_cons] at hlen ⊢
          omega

theorem rmrefWalk_eq_eraseP (HASHLEN : Nat) (hash : List Nat) (head r : List node)
    (h : rmrefWalk HASHLEN hash head = some r) :
    r = head.eraseP (fun n => decide (memcmp n.hash hash HASHLEN = 0)) := by
  induction head generalizing r with
  | nil => simp [rmrefWalk] at h
  | cons p rest ih =>
    unfold rmrefWalk at h
    split at h
    · rename_i hp
      cases h
      simp [List.eraseP_cons, hp]
    · rename_i hp
      cases hr : rmrefWalk HASHLEN hash rest with
      | none => simp [hr] at h
      | some r2 =>
        simp [hr] at h
        subst h
        rw [List.eraseP_cons, ih r2 hr]
        simp [hp]

theorem rmref_eq_withoutServer (HASHLEN : Nat) (hashdata : List Nat → List Nat)
    (head r : List node) (a : Nat) (h : rmref HASHLEN hashdata head a = some r) :
    r = withoutServer HASHLEN hashdata head a :=
  rmrefWalk_eq_eraseP HASHLEN _ head r h

theorem route_mem (HASHLEN : Nat) (head : List node) (hash : List Nat) (off : Int)
    (a : Nat) (h : route HASHLEN head hash off = some a) : a ∈ head.map node.addr := by
  unfold route at h
  cases hp : routePick HASHLEN head hash off with
  | none => simp [hp] at h
  | some p =>
    simp only [hp, Option.some_bind, Option.map_eq_some'] at h
    obtain ⟨n, hn, e⟩ := h
    subst e
    exact List.mem_map_of_mem _ (List.getElem?_mem hn)

/-- The trace of the loop "loop until connect works", entered with the address `addr`
about to be tried: the addresses whose `connect` failed, each taken out by `rmref` and
followed by a new `route(hash, 0)`. -/
theorem hookupLoop_trace (HASHLEN : Nat) (hashdata : List Nat → List Nat) (hash : List Nat)
    (outcomes : List Bool) (head : List node) (addr : Nat) (head1 : List node)
    (addr1 : Nat)
    (h : hookupLoop HASHLEN hashdata hash head addr outcomes = some (head1, addr1)) :
    ∃ tried : List Nat,
      tried.length = failedConnects outcomes ∧
      outcomes[tried.length]? = some true ∧
      (tried ++ [addr1])[0]? = some addr ∧
      (∀ j, 1 ≤ j → j ≤ tried.length →
        route HASHLEN (ringAfter HASHLEN hashdata head (tried.take j)) hash 0
          = (tried ++ [addr1])[j]?) ∧
      (∀ j, j < tried.length →
        rmref HASHLEN hashdata (ringAfter HASHLEN hashdata head (tried.take j))
            (tried.getD j 0)
          = some (ringAfter HASHLEN hashdata head (tried.take (j + 1)))) ∧
      head1 = ringAfter HASHLEN hashdata head tried := by
  induction outcomes generalizing head addr with
  | nil => simp [hookupLoop] at h
  | cons ok outcomes ih =>
    unfold hookupLoop at h
    cases ok with
    | true =>
      simp at h
      obtain ⟨e1, e2⟩ := h
      subst e1; subst e2
      refine ⟨[], by simp [failedConnects], by simp, by simp, ?_, ?_, rfl⟩
      · intro j h1 h2
        simp at h2
        omega
      · intro j hj
        simp at hj
    | false =>
      simp only [Bool.false_eq_true, if_false] at h
      cases hr : rmref HASHLEN hashdata head addr with
      | none => simp [hr] at h
      | some head2 =>
        simp only [hr] at h
        cases hroute : route HASHLEN head2 hash 0 with
        | none => simp [hroute] at h
        | some addr2 =>
          simp only [hroute] at h
          obtain ⟨tried, t1, t2, t3, t4, t5, t6⟩ := ih head2 addr2 h
          have e2 := rmref_eq_withoutServer HASHLEN hashdata head head2 addr hr
          have hstep : ∀ l : List Nat,
              ringAfter HASHLEN hashdata head (addr :: l)
                = ringAfter HASHLEN hashdata head2 l := by
            intro l
            simp only [ringAfter, List.foldl_cons, e2]
          refine ⟨addr :: tried, ?_, ?_, by simp, ?_, ?_, ?_⟩
          · simp only [List.length_cons, t1, failedConnects, List.takeWhile, Bool.not_false]
          · simpa using t2
          · intro j h1 h2
            obtain ⟨i, rfl⟩ : ∃ i, j = i + 1 := ⟨j - 1, by omega⟩
            simp only [List.length_cons] at h2
            rw [List.take_succ_cons, hstep]
            simp only [List.cons_append, List.getElem?_cons_succ]
            by_cases hi : i = 0
            · subst hi
              simp only [List.take_zero]
              rw [t3]
              exact hroute
            · exact t4 i (by omega) (by omega)
          · intro j hj
            simp only [List.length_cons] at hj
            cases j with
            | zero =>
              simp only [List.take_zero, List.getD_cons_zero, zero_add, List.take_succ_cons]
              rw [hstep]
              exact hr
            | succ i =>
              rw [List.take_succ_cons, List.take_succ_cons, hstep, hstep]
              simp only [List.getD_cons_succ]
              exact t5 i (by omega)
          · rw [hstep]; exact t6

theorem ringOwnHashes_sublist (HASHLEN : Nat) (hashdata : List Nat → List Nat)
    (head l : List node) (h : ringOwnHashes HASHLEN hashdata head) (hl : l.Sublist head) :
    ringOwnHashes HASHLEN hashdata l :=
  ⟨(hl.map node.addr).nodup h.1, fun n hn m hm => h.2 n (hl.subset hn) m (hl.subset hm)⟩

/-- On a list whose nodes carry the hashes of their own addresses, `rmref(a)` takes out
the node of address `a`. -/
theorem withoutServer_eq_filter (HASHLEN : Nat) (hashdata : List Nat → List Nat)
    (head : List node) (a : Nat) (h : ringOwnHashes HASHLEN hashdata head)
    (ha : a ∈ head.map node.addr) :
    withoutServer HASHLEN hashdata head a = head.filter (fun n => decide (n.addr ≠ a)) := by
  induction head with
  | nil => simp at ha
  | cons p rest ih =>
    obtain ⟨m, hm, hma⟩ := List.mem_map.1 ha
    have hp := h.2 p (List.mem_cons_self p rest) m hm
    rw [hma] at hp
    have hnd : p.addr ∉ rest.map node.addr ∧ (rest.map node.addr).Nodup := by
      have := h.1
      unfold ringNodup at this
      simpa using this
    unfold withoutServer
    by_cases hpa : p.addr = a
    · have hz := hp.2 hpa
      rw [List.eraseP_cons, decide_eq_true hz, cond_true]
      rw [List.filter_cons, if_neg (by simpa using hpa)]
      symm
      rw [List.filter_eq_self]
      intro n hn
      simp only [ne_eq, decide_not, Bool.not_eq_true', decide_eq_false_iff_not]
      intro e
      apply hnd.1
      rw [hpa, ← e]
      exact List.mem_map_of_mem _ hn
    · have hz : ¬ memcmp p.hash (hashdata (addrBytes a)) HASHLEN = 0 := fun hz => hpa (hp.1 hz)
      rw [List.eraseP_cons, decide_eq_false hz, cond_false]
      rw [List.filter_cons, if_pos (by simpa using hpa)]
      have hmr : a ∈ rest.map node.addr := by
        rcases List.mem_cons.1 hm with e | hm2
        · subst e; exact absurd hma hpa
        · rw [← hma]; exact List.mem_map_of_mem _ hm2
      have := ih (ringOwnHashes_sublist HASHLEN hashdata _ rest h
        (List.sublist_cons_self p rest)) hmr
      unfold withoutServer at this
      rw [this]

/-- On a list whose nodes carry the hashes of their own addresses, taking out the nodes
for addresses that are in the list when their turn comes leaves the list without the
nodes of those addresses. -/
theorem ringAfter_eq_filter (HASHLEN : Nat) (hashdata : List Nat → List Nat)
    (head : List node) (tried : List Nat) (h : ringOwnHashes HASHLEN hashdata head)
    (hin : ∀ j, j < tried.length →
      tried.getD j 0 ∈ (ringAfter HASHLEN hashdata head (tried.take j)).map node.addr) :
    ringAfter HASHLEN hashdata head tried
        = head.filter (fun n => decide (n.addr ∉ tried)) ∧
      tried.Nodup ∧ ∀ a ∈ tried, a ∈ head.map node.addr := by
  induction tried generalizing head with
  | nil => simp [ringAfter]
  | cons a t ih =>
    have ha : a ∈ head.map node.addr := by
      have := hin 0 (by simp)
      simpa [ringAfter] using this
    have hw := withoutServer_eq_filter HASHLEN hashdata head a h ha
    have h2 : ringOwnHashes HASHLEN hashdata (withoutServer HASHLEN hashdata head a) := by
      rw [hw]
      exact ringOwnHashes_sublist HASHLEN hashdata head _ h (List.filter_sublist _)
    obtain ⟨i1, i2, i3⟩ := ih (withoutServer HASHLEN hashdata head a) h2 (by
      intro j hj
      have := hin (j + 1) (by simp; omega)
      simpa [ringAfter] using this)
    have hnot : a ∉ t := by
      intro hat
      have := i3 a hat
      rw [hw] at this
      obtain ⟨n, hn, e⟩ := List.mem_map.1 this
      have := (List.mem_filter.1 hn).2
      simp at this
      exact this e
    refine ⟨?_, List.nodup_cons.2 ⟨hnot, i2⟩, ?_⟩
    · show ringAfter HASHLEN hashdata (withoutServer HASHLEN hashdata head a) t = _
      rw [i1, hw, List.filter_filter]
      apply List.filter_congr
      intro n _
      by_cases h1 : n.addr = a
      · simp [h1]
      · by_cases h3 : n.addr ∈ t
        · simp [h1, h3]
        · simp [h1, h3]
    · intro b hb
      rcases List.mem_cons.1 hb with e | hb2
      · subst e; exact ha
      · have := i3 b hb2
        rw [hw] at this
        obtain ⟨n, hn, e⟩ := List.mem_map.1 this
        rw [← e]
        exact List.mem_map_of_mem _ (List.mem_filter.1 hn).1

/-- C15 as stated fails: the list holds the servers 3, 5 and 9; `hookup` for a hash that
routes to server 5, whose first `connect` fails and whose second does not, returns
connected to server 9 and leaves a list without server 5: the failed connect ran
`rmref` on it. -/
theorem hookup_removes_server_on_failed_connect :
    ring359.map node.addr = [3, 5, 9] ∧
    route 4 ring359 [4, 0, 0, 0] 0 = some 5 ∧
    (hookup 4 idHash ring359 [4, 0, 0, 0] 0 [false, true]).map
        (fun res => (res.1.map node.addr, res.2)) = some ([3, 9], 9) := by
  decide

/-- C15, amended: `hookup` leaves the list of servers as it is when its first `connect`
does not fail. In general, with `tried` the addresses whose `connect` failed, in order:
the first address tried is `route(hash, off)` on the list at entry; every failed
`connect` is followed by `rmref` of the address just tried, which does not die and takes
the first node carrying the hash of that address out of the list, and by a new
`route(hash, 0)` on the list that is left, which gives the next address to try; `hookup`
returns connected to the last address routed, and the list it leaves is the list at
entry with those nodes taken out, one per failed `connect`, in the same order otherwise.
On a list without duplicate addresses whose nodes carry the hashes of their own
addresses and of no other, the nodes taken out are exactly the servers whose `connect`
failed, each tried once. -/
theorem hookup_ring_after (HASHLEN : Nat) (hashdata : List Nat → List Nat)
    (head : List node) (hash : List Nat) (off : Int) (outcomes : List Bool)
    (head1 : List node) (addr1 : Nat)
    (h : hookup HASHLEN hashdata head hash off outcomes = some (head1, addr1)) :
    head1.Sublist head ∧
    head1.length + failedConnects outcomes = head.length ∧
    (outcomes.head? = some true → head1 = head ∧ route HASHLEN head hash off = some addr1) ∧
    ∃ tried : List Nat,
      tried.length = failedConnects outcomes ∧
      outcomes[tried.length]? = some true ∧
      (∀ j, j ≤ tried.length →
        route HASHLEN (ringAfter HASHLEN hashdata head (tried.take j)) hash
            (if j = 0 then off else 0)
          = (tried ++ [addr1])[j]?) ∧
      (∀ j, j < tried.length →
        rmref HASHLEN hashdata (ringAfter HASHLEN hashdata head (tried.take j))
            (tried.getD j 0)
          = some (ringAfter HASHLEN hashdata head (tried.take (j + 1)))) ∧
      head1 = ringAfter HASHLEN hashdata head tried ∧
      (ringOwnHashes HASHLEN hashdata head →
        head1 = head.filter (fun n => decide (n.addr ∉ tried)) ∧ tried.Nodup ∧
        ∀ a ∈ tried, a ∈ head.map node.addr) := by
  unfold hookup at h
  cases hroute : route HASHLEN head hash off with
  | none => simp [hroute] at h
  | some addr =>
    simp only [hroute] at h
    obtain ⟨hsub, hlen⟩ := hookupLoop_ring HASHLEN hashdata hash outcomes head addr head1 addr1 h
    obtain ⟨tried, t1, t2, t3, t4, t5, t6⟩ :=
      hookupLoop_trace HASHLEN hashdata hash outcomes head addr head1 addr1 h
    have hr : ∀ j, j ≤ tried.length →
        route HASHLEN (ringAfter HASHLEN hashdata head (tried.take j)) hash
            (if j = 0 then off else 0)
          = (tried ++ [addr1])[j]? := by
      intro j hj
      by_cases h0 : j = 0
      · subst h0
        rw [if_pos rfl, t3, List.take_zero]
        exact hroute
      · rw [if_neg h0]
        exact t4 j (by omega) hj
    refine ⟨hsub, hlen, ?_, tried, t1, t2, hr, t5, t6, ?_⟩
    · intro hfirst
      cases outcomes with
      | nil => simp at hfirst
      | cons ok outcomes =>
        simp at hfirst
        subst hfirst
        simp [hookupLoop] at h
        exact ⟨h.1.symm, by rw [h.2]⟩
    · intro hown
      rw [t6]
      apply ringAfter_eq_filter HASHLEN hashdata head tried hown
      intro j hj
      apply route_mem HASHLEN _ hash (if j = 0 then off else 0)
      rw [hr j (by omega), List.getElem?_append_left hj, List.getD_eq_getElem?_getD,
        List.getElem?_eq_getElem hj]
      rfl

theorem hookup_ring_after_witness :
    hookup 4 idHash ring359 [4, 0, 0, 0] 0 [false, true]
      = some ([{ addr := 3, hash := [3, 0, 0, 0] }, { addr := 9, hash := [9, 0, 0, 0] }], 9) ∧
    ringOwnHashes 4 idHash ring359 ∧
    ∃ tried : List Nat,
      tried.length = failedConnects [false, true] ∧
      (∀ j, j ≤ tried.length →
        route 4 (ringAfter 4 idHash ring359 (tried.take j)) [4, 0, 0, 0]
            (if j = 0 then 0 else 0)
          = (tried ++ [9])[j]?) ∧
      ([{ addr := 3, hash := [3, 0, 0, 0] }, { addr := 9, hash := [9, 0, 0, 0] }] : List node)
        = ring359.filter (fun n => decide (n.addr ∉ tried)) := by
  have h : hookup 4 idHash ring359 [4, 0, 0, 0] 0 [false, true]
      = some ([{ addr := 3, hash := [3, 0, 0, 0] }, { addr := 9, hash := [9, 0, 0, 0] }], 9) := by
    decide
  have hown : ringOwnHashes 4 idHash ring359 := by decide
  obtain ⟨_, _, _, tried, t1, _, t3, _, _, t6⟩ :=
    hookup_ring_after 4 idHash ring359 [4, 0, 0, 0] 0 [false, true] _ 9 h
  exact ⟨h, hown, tried, t1, t3, (t6 hown).1⟩

/-! ## The reconstruction loop when no check block is present -/

theorem list_eq_map_getD (mask : List Nat) :
    mask = (List.range mask.length).map (fun i => mask.getD i 0) := by
  apply List.ext_getElem
  · simp
  · intro i h1 h2
    simp [List.getD_eq_getElem?_getD, List.getElem?_eq_getElem h1]

theorem countMissing_eq_count (mask : List Nat) (count : Nat) (h : mask.length = count) :
    countMissing mask count = mask.count 0 := by
  subst h
  unfold countMissing
  conv_rhs => rw [list_eq_map_getD mask]
  rw [List.count_eq_countP, List.countP_map, List.countP_eq_length_filter]
  congr 1

theorem dataStep_countsMissing (g : graph) (blocksize : Nat) (s : DecState) (i : Nat)
    (hi : i < g.dbc) (hc : countsMissing g s) :
    countsMissing g (dataStep g blocksize s i) := by
  obtain ⟨hlen, hn⟩ := hc
  unfold dataStep
  split
  · exact ⟨hlen, hn⟩
  · rename_i hmiss
    split
    · exact ⟨hlen, hn⟩
    · have hz : s.mask.getD i 0 = 0 := by simpa using hmiss
      have hcount := count_zero_set s.mask i (by omega) hz
      refine ⟨by simp [hlen], ?_⟩
      show s.n - 1 = (((s.mask.set i 1).count 0 : Nat) : Int)
      rw [hn]
      omega

theorem checkStep_countsMissing (g : graph) (blocksize : Nat) (s : DecState) (i : Nat)
    (hi : i < g.cbc) (hc : countsMissing g s) :
    countsMissing g (checkStep g blocksize s i) := by
  obtain ⟨hlen, hn⟩ := hc
  unfold checkStep
  split
  · exact ⟨hlen, hn⟩
  · rename_i hmiss
    split
    · exact ⟨hlen, hn⟩
    · have hz : s.mask.getD (g.dbc + i) 0 = 0 := by simpa using hmiss
      have hcount := count_zero_set s.mask (g.dbc + i) (by omega) hz
      refine ⟨by simp [hlen], ?_⟩
      show s.n - 1 = (((s.mask.set (g.dbc + i) 1).count 0 : Nat) : Int)
      rw [hn]
      omega

theorem dataStep_stuckAt (g : graph) (blocksize : Nat) (s : DecState) (i i0 : Nat)
    (hi : i < g.dbc) (hs : stuckAt g i0 s) : stuckAt g i0 (dataStep g blocksize s i) := by
  obtain ⟨hm, hcov⟩ := hs
  unfold dataStep
  split
  · exact ⟨hm, hcov⟩
  · split
    · exact ⟨hm, hcov⟩
    · rename_i j hfind
      have hu := List.find?_some hfind
      have hj := List.mem_range.1 (List.mem_of_find?_eq_some hfind)
      simp only [usableCheck, Bool.and_eq_true, decide_eq_true_eq] at hu
      have hne : i ≠ i0 := by
        intro e
        subst e
        exact hu.1.2 (hcov j hj hu.1.1)
      refine ⟨?_, ?_⟩
      · show (s.mask.set i 1).getD i0 0 = 0
        rw [getD_set, if_neg (fun h => hne h.1)]
        exact hm
      · intro j2 hj2 hp
        apply hcov j2 hj2
        have e : (s.mask.set i 1).getD (g.dbc + j2) 0 = s.mask.getD (g.dbc + j2) 0 := by
          rw [getD_set, if_neg (fun h => by omega)]
        rw [← e]
        exact hp

theorem checkStep_stuckAt (g : graph) (blocksize : Nat) (s : DecState) (i i0 : Nat)
    (hi0 : i0 < g.dbc) (hs : stuckAt g i0 s) :
    stuckAt g i0 (checkStep g blocksize s i) := by
  obtain ⟨hm, hcov⟩ := hs
  unfold checkStep
  split
  · exact ⟨hm, hcov⟩
  · split
    · exact ⟨hm, hcov⟩
    · rename_i hany
      have hall : (List.range g.dbc).any
          (fun j => decide (is_set g j i ≠ 0) && decide (s.mask.getD j 0 = 0)) = false := by
        simpa using hany
      have hnot : is_set g i0 i = 0 := by
        by_contra hset
        have := (List.any_eq_false.1 hall) i0 (List.mem_range.2 hi0)
        simp only [hset, hm, ne_eq, not_false_eq_true, decide_True, Bool.and_self,
          not_true_eq_false] at this
      refine ⟨?_, ?_⟩
      · show (s.mask.set (g.dbc + i) 1).getD i0 0 = 0
        rw [getD_set, if_neg (fun h => by omega)]
        exact hm
      · intro j2 hj2 hp
        by_cases hji : j2 = i
        · subst hji; exact hnot
        · apply hcov j2 hj2
          have e : (s.mask.set (g.dbc + i) 1).getD (g.dbc + j2) 0
              = s.mask.getD (g.dbc + j2) 0 := by
            rw [getD_set, if_neg (fun h => by omega)]
          rw [← e]
          exact hp

theorem foldl_invariant (P : DecState → Prop) (f : DecState → Nat → DecState)
    (l : List Nat) (bound : Nat) (hb : ∀ i ∈ l, i < bound)
    (hf : ∀ s i, i < bound → P s → P (f s i)) (s : DecState) (hs : P s) :
    P (l.foldl f s) := by
  induction l generalizing s with
  | nil => exact hs
  | cons i l ih =>
    exact ih (fun k hk => hb k (List.mem_cons_of_mem _ hk)) (f s i)
      (hf s i (hb i (by simp)) hs)

theorem decodePass_stuck (g : graph) (blocksize : Nat) (s : DecState) (i0 : Nat)
    (hi0 : i0 < g.dbc) (h : countsMissing g s ∧ stuckAt g i0 s) :
    countsMissing g (decodePass g blocksize s) ∧ stuckAt g i0 (decodePass g blocksize s) := by
  unfold decodePass
  have h0 : countsMissing g { s with a := 0 } ∧ stuckAt g i0 { s with a := 0 } := h
  have h1 := foldl_invariant (fun s => countsMissing g s ∧ stuckAt g i0 s)
    (dataStep g blocksize) (List.range g.dbc) g.dbc (fun i hi => List.mem_range.1 hi)
    (fun s i hi hP => ⟨dataStep_countsMissing g blocksize s i hi hP.1,
      dataStep_stuckAt g blocksize s i i0 hi hP.2⟩) _ h0
  exact foldl_invariant (fun s => countsMissing g s ∧ stuckAt g i0 s)
    (checkStep g blocksize) (List.range g.cbc) g.cbc (fun i hi => List.mem_range.1 hi)
    (fun s i hi hP => ⟨checkStep_countsMissing g blocksize s i hi hP.1,
      checkStep_stuckAt g blocksize s i i0 hi0 hP.2⟩) _ h1

theorem decodeLoop_stuck (g : graph) (blocksize : Nat) (fuel : Nat) (s s1 : DecState)
    (i0 : Nat) (hi0 : i0 < g.dbc) (h : countsMissing g s ∧ stuckAt g i0 s)
    (hrun : decodeLoop g blocksize fuel s = some s1) :
    countsMissing g s1 ∧ stuckAt g i0 s1 := by
  induction fuel generalizing s with
  | zero => simp [decodeLoop] at hrun
  | succ fuel ih =>
    have hp := decodePass_stuck g blocksize s i0 hi0 h
    simp only [decodeLoop] at hrun
    split at hrun
    · exact ih _ hp hrun
    · cases hrun
      exact hp

theorem count_pos_of_getD_zero (mask : List Nat) (i : Nat) (hi : i < mask.length)
    (hz : mask.getD i 0 = 0) : 0 < mask.count 0 := by
  have hget : mask[i] = 0 := by
    rw [List.getD_eq_getElem?_getD, List.getElem?_eq_getElem hi] at hz
    simpa using hz
  exact List.count_pos_iff.2 (hget ▸ List.getElem_mem hi)

/-- C14: when after the download all check blocks are missing and a data block `i0` is
missing, the reconstruction loop of `request` comes to an end with `i0` still missing
and the counter `n` not zero; `request` reports the data as not recoverable, with `i0`
among the positions it lists, and writes nothing to the client. -/
theorem request_irrecoverable_without_check_blocks (HASHLEN : Nat)
    (hashdata : List Nat → List Nat) (decryptdata : List Nat → List Nat → List Nat)
    (g : graph) (blocksize datalength : Nat) (hashes blocks mask : List Nat) (i0 : Nat)
    (hmask : mask.length = g.dbc + g.cbc)
    (hchecks : ∀ j, j < g.cbc → mask.getD (g.dbc + j) 0 = 0)
    (hi0 : i0 < g.dbc) (hmiss : mask.getD i0 0 = 0) :
    ∃ s, decode g blocksize blocks mask = some s ∧ s.mask.getD i0 0 = 0 ∧ s.n ≠ 0 ∧
      ∃ missing, i0 ∈ missing ∧
        requestAfterDownload HASHLEN hashdata decryptdata g blocksize datalength hashes
          blocks mask = Served.irrecoverable missing ∧
        (requestAfterDownload HASHLEN hashdata decryptdata g blocksize datalength hashes
          blocks mask).toClient = none := by
  obtain ⟨s, hs⟩ := decode_returns g blocksize blocks mask hmask
  have hcm := countMissing_eq_count mask (g.dbc + g.cbc) hmask
  have hpos := count_pos_of_getD_zero mask i0 (by omega) hmiss
  have hstart : countsMissing g
        { blocks := blocks, mask := mask, a := 0, n := countMissing mask (g.dbc + g.cbc) } ∧
      stuckAt g i0
        { blocks := blocks, mask := mask, a := 0, n := countMissing mask (g.dbc + g.cbc) } :=
    ⟨⟨hmask, by show ((countMissing mask (g.dbc + g.cbc) : Nat) : Int) = _; rw [hcm]⟩,
      hmiss, fun j hj hp => absurd (hchecks j hj) hp⟩
  obtain ⟨⟨hlen1, hn1⟩, hm1, _⟩ := decodeLoop_stuck g blocksize _ _ s i0 hi0 hstart hs
  have hpos1 := count_pos_of_getD_zero s.mask i0 (by omega) hm1
  have hn : s.n ≠ 0 := by omega
  have hmem : i0 ∈ (List.range (g.dbc + g.cbc)).filter
      (fun i => decide (s.mask.getD i 0 = 0)) := by
    rw [List.mem_filter]
    exact ⟨List.mem_range.2 (by omega), by simpa using hm1⟩
  have hne : ¬ countMissing mask (g.dbc + g.cbc) = 0 := by omega
  have hout : requestAfterDownload HASHLEN hashdata decryptdata g blocksize datalength hashes
      blocks mask = Served.irrecoverable
        ((List.range (g.dbc + g.cbc)).filter (fun i => decide (s.mask.getD i 0 = 0))) := by
    simp only [requestAfterDownload, if_neg hne, hs, if_pos hn]
  exact ⟨s, hs, hm1, hn, _, hmem, hout, by rw [hout]; rfl⟩

theorem request_irrecoverable_without_check_blocks_witness :
    ∃ s, decode graph32 2 [1, 2, 0, 0, 5, 6, 0, 0, 0, 0] [1, 0, 1, 0, 0] = some s ∧
      s.mask.getD 1 0 = 0 ∧ s.n ≠ 0 ∧
      ∃ missing, 1 ∈ missing ∧
        requestAfterDownload 1 sumHash flipCipher graph32 2 3 [0, 0, 0, 0, 0, 0]
          [1, 2, 0, 0, 5, 6, 0, 0, 0, 0] [1, 0, 1, 0, 0] = Served.irrecoverable missing ∧
        (requestAfterDownload 1 sumHash flipCipher graph32 2 3 [0, 0, 0, 0, 0, 0]
          [1, 2, 0, 0, 5, 6, 0, 0, 0, 0] [1, 0, 1, 0, 0]).toClient = none :=
  request_irrecoverable_without_check_blocks 1 sumHash flipCipher graph32 2 3
    [0, 0, 0, 0, 0, 0] [1, 2, 0, 0, 5, 6, 0, 0, 0, 0] [1, 0, 1, 0, 0] 1
    (by decide) (by decide) (by decide) (by decide)

/-! ## `request` from the label `verify` on -/

theorem verifyAndReinsert_toClient (HASHLEN : Nat) (hashdata : List Nat → List Nat)
    (decryptdata : List Nat → List Nat → List Nat) (g : graph)
    (blocksize datalength : Nat) (hashes blocks : List Nat) (m : Nat) (mask2 : List Nat)
    (pt : List Nat)
    (h : (verifyAndReinsert HASHLEN hashdata decryptdata g blocksize datalength hashes
      blocks m mask2).toClient = some pt) :
    pt = (decryptBuffer HASHLEN decryptdata datalength hashes blocks).take datalength ∧
      memcmp (hashdata pt) hashes HASHLEN = 0 := by
  unfold verifyAndReinsert at h
  split at h
  · simp [Served.toClient] at h
  · simp only at h
    split at h
    · simp [Served.toClient] at h
    · rename_i hok
      simp only [Served.toClient, Option.some.injEq] at h
      subst h
      exact ⟨rfl, by simpa using hok⟩

theorem requestAfterDownload_cases (HASHLEN : Nat) (hashdata : List Nat → List Nat)
    (decryptdata : List Nat → List Nat → List Nat) (g : graph)
    (blocksize datalength : Nat) (hashes blocks mask : List Nat) :
    requestAfterDownload HASHLEN hashdata decryptdata g blocksize datalength hashes
        blocks mask = Served.hang ∨
    (∃ missing, requestAfterDownload HASHLEN hashdata decryptdata g blocksize datalength
        hashes blocks mask = Served.irrecoverable missing) ∨
    (∃ b m, requestAfterDownload HASHLEN hashdata decryptdata g blocksize datalength
        hashes blocks mask
      = verifyAndReinsert HASHLEN hashdata decryptdata g blocksize datalength hashes b m
          (if m = 0 then [] else mask)) := by
  unfold requestAfterDownload
  split
  · exact Or.inr (Or.inr ⟨blocks, 0, by simp⟩)
  · rename_i hne
    split
    · exact Or.inl rfl
    · rename_i s _
      split
      · exact Or.inr (Or.inl ⟨_, rfl⟩)
      · exact Or.inr (Or.inr ⟨s.blocks, countMissing mask (g.dbc + g.cbc), by simp [hne]⟩)

/-- C11: whatever key and whatever downloaded or rebuilt blocks `request` works on, it
writes a plaintext to the client only if that plaintext, the first `L` bytes of the
decrypted buffer, hashes to the first hash of the key. From the label `verify` on, for
every buffer that holds the bytes to decrypt: on a mismatch of that hash `request` ends
in the branch "Data integrity did not verify" and writes nothing; on a match it writes
those `L` bytes. -/
theorem request_writes_only_verified_plaintext (HASHLEN : Nat)
    (hashdata : List Nat → List Nat) (decryptdata : List Nat → List Nat → List Nat)
    (g : graph) (blocksize datalength : Nat) (hashes blocks mask : List Nat)
    (b : List Nat) (m : Nat) (mask2 : List Nat)
    (hfit : cryptLength datalength ≤ b.length) :
    (∀ pt, (requestAfterDownload HASHLEN hashdata decryptdata g blocksize datalength
        hashes blocks mask).toClient = some pt →
      memcmp (hashdata pt) hashes HASHLEN = 0) ∧
    (memcmp (hashdata
        ((decryptBuffer HASHLEN decryptdata datalength hashes b).take datalength))
        hashes HASHLEN ≠ 0 →
      verifyAndReinsert HASHLEN hashdata decryptdata g blocksize datalength hashes b m
          mask2 = Served.integrity ∧
      (verifyAndReinsert HASHLEN hashdata decryptdata g blocksize datalength hashes b m
          mask2).toClient = none) ∧
    (memcmp (hashdata
        ((decryptBuffer HASHLEN decryptdata datalength hashes b).take datalength))
        hashes HASHLEN = 0 →
      (verifyAndReinsert HASHLEN hashdata decryptdata g blocksize datalength hashes b m
          mask2).toClient
        = some ((decryptBuffer HASHLEN decryptdata datalength hashes b).take datalength)) := by
  have hnf : ¬ b.length < cryptLength datalength := by omega
  refine ⟨?_, ?_, ?_⟩
  · intro pt hpt
    rcases requestAfterDownload_cases HASHLEN hashdata decryptdata g blocksize datalength
      hashes blocks mask with h | ⟨missing, h⟩ | ⟨b2, m2, h⟩
    · rw [h] at hpt; simp [Served.toClient] at hpt
    · rw [h] at hpt; simp [Served.toClient] at hpt
    · rw [h] at hpt
      exact (verifyAndReinsert_toClient HASHLEN hashdata decryptdata g blocksize datalength
        hashes b2 m2 _ pt hpt).2
  · intro hbad
    have e : verifyAndReinsert HASHLEN hashdata decryptdata g blocksize datalength hashes
        b m mask2 = Served.integrity := by
      simp only [verifyAndReinsert, if_neg hnf, if_pos hbad]
    exact ⟨e, by rw [e]; rfl⟩
  · intro hok
    have hok2 : ¬ memcmp (hashdata
        ((decryptBuffer HASHLEN decryptdata datalength hashes b).take datalength))
        hashes HASHLEN ≠ 0 := by simpa using hok
    simp only [verifyAndReinsert, if_neg hnf, if_neg hok2, Served.toClient]

theorem request_writes_only_verified_plaintext_witness :
    requestAfterDownload 1 sumHash flipCipher graph11 16 1 demoHashes
        (demoBlock ++ demoBlock) [1, 1] = Served.written [7] AfterWrite.noReinsert ∧
    memcmp (sumHash [7]) demoHashes 1 = 0 ∧
    verifyAndReinsert 1 sumHash flipCipher graph11 16 1 demoHashes
        (demoPlainBlock ++ demoBlock) 0 [] = Served.integrity := by
  have h := request_writes_only_verified_plaintext 1 sumHash flipCipher graph11 16 1
    demoHashes (demoBlock ++ demoBlock) [1, 1] (demoPlainBlock ++ demoBlock) 0 []
    (by decide)
  have hw : requestAfterDownload 1 sumHash flipCipher graph11 16 1 demoHashes
      (demoBlock ++ demoBlock) [1, 1] = Served.written [7] AfterWrite.noReinsert := by
    decide
  exact ⟨hw, h.1 [7] (by rw [hw]; rfl), (h.2.1 (by decide)).1⟩

/-! ## Which rebuilt blocks `request` checks before it inserts them -/

/-- C12 as stated fails: the key carries a hash for the data block, `99`, that the data
block does not have. The data block is missing after the download, the check block is
there; with the identity as cipher, `request` rebuilds the data block, finds the
plaintext hash right, writes the plaintext, finds no rebuilt check block to verify and
hands the buffer to `do_insert` with the data position marked for insertion, although
its bytes hash to `7`, not to `99`. -/
theorem request_reinserts_unverified_data_block :
    requestAfterDownload 1 sumHash (fun data _ => data) graph11 16 1 [7, 99, 7]
        (List.replicate 16 0 ++ demoPlainBlock) [0, 1]
      = Served.written [7]
          (AfterWrite.reinsert (demoPlainBlock ++ demoPlainBlock) [0, 1]) ∧
    memcmp (sumHash (blockAt (demoPlainBlock ++ demoPlainBlock) 16 0))
        (([7, 99, 7] : List Nat).drop ((1 + 0) * 1)) 1 ≠ 0 := by
  decide

/-- C12, amended: `request` hands the buffer to `do_insert`, with the mask saved after
the download as the blocks to skip, only if every check block that was missing after
the download hashes, as it stands in that buffer, to its hash in the key; when a rebuilt
check block does not, `request` ends without inserting anything. Rebuilt data blocks
are not compared with their hashes in the key. -/
theorem request_reinserts_only_verified_check_blocks (HASHLEN : Nat)
    (hashdata : List Nat → List Nat) (decryptdata : List Nat → List Nat → List Nat)
    (g : graph) (blocksize datalength : Nat) (hashes blocks mask : List Nat)
    (b mask2 : List Nat)
    (h : (requestAfterDownload HASHLEN hashdata decryptdata g blocksize datalength hashes
      blocks mask).toInsert = some (b, mask2)) :
    mask2 = mask ∧
    ∀ i, i < g.cbc → mask2.getD (g.dbc + i) 0 = 0 →
      memcmp (hashdata (blockAt b blocksize (g.dbc + i)))
        (hashes.drop ((1 + g.dbc + i) * HASHLEN)) HASHLEN = 0 := by
  have key : ∀ (b0 : List Nat) (m : Nat) (mk : List Nat),
      (verifyAndReinsert HASHLEN hashdata decryptdata g blocksize datalength hashes b0 m
        mk).toInsert = some (b, mask2) →
      m ≠ 0 ∧ mask2 = mk ∧
      ∀ i, i < g.cbc → mask2.getD (g.dbc + i) 0 = 0 →
        memcmp (hashdata (blockAt b blocksize (g.dbc + i)))
          (hashes.drop ((1 + g.dbc + i) * HASHLEN)) HASHLEN = 0 := by
    intro b0 m mk hv
    unfold verifyAndReinsert at hv
    split at hv
    · simp [Served.toInsert] at hv
    · simp only at hv
      split at hv
      · simp [Served.toInsert] at hv
      · by_cases hm : m = 0
        · simp [hm, Served.toInsert] at hv
        · simp only [if_neg hm] at hv
          cases hbad : firstBadCheck HASHLEN hashdata g blocksize hashes
              (decryptBuffer HASHLEN decryptdata datalength hashes b0) mk with
          | some i => simp [hbad, Served.toInsert] at hv
          | none =>
            simp only [hbad, Served.toInsert, Option.some.injEq, Prod.mk.injEq] at hv
            obtain ⟨e1, e2⟩ := hv
            subst e1 e2
            refine ⟨hm, rfl, ?_⟩
            intro i hi hz
            unfold firstBadCheck at hbad
            have := (List.find?_eq_none.1 hbad) i (List.mem_range.2 hi)
            rw [List.getD_eq_getElem?_getD] at hz
            simp only [Bool.and_eq_true, decide_eq_true_eq, not_and, ne_eq,
              Decidable.not_not, List.getD_eq_getElem?_getD] at this
            exact this hz
  rcases requestAfterDownload_cases HASHLEN hashdata decryptdata g blocksize datalength
    hashes blocks mask with h1 | ⟨missing, h1⟩ | ⟨b2, m2, h1⟩
  · rw [h1] at h; simp [Served.toInsert] at h
  · rw [h1] at h; simp [Served.toInsert] at h
  · rw [h1] at h
    obtain ⟨hm, e, hall⟩ := key b2 m2 _ h
    rw [if_neg hm] at e
    exact ⟨e, hall⟩

theorem request_reinserts_only_verified_check_blocks_witness :
    requestAfterDownload 1 sumHash flipCipher graph11 16 1 demoHashes
        (demoBlock ++ List.replicate 16 0) [1, 0]
      = Served.written [7] (AfterWrite.reinsert (demoPlainBlock ++ demoBlock) [1, 0]) ∧
    ∀ i, i < graph11.cbc → ([1, 0] : List Nat).getD (graph11.dbc + i) 0 = 0 →
      memcmp (sumHash (blockAt (demoPlainBlock ++ demoBlock) 16 (graph11.dbc + i)))
        (demoHashes.drop ((1 + graph11.dbc + i) * 1)) 1 = 0 := by
  have hw : requestAfterDownload 1 sumHash flipCipher graph11 16 1 demoHashes
      (demoBlock ++ List.replicate 16 0) [1, 0]
      = Served.written [7] (AfterWrite.reinsert (demoPlainBlock ++ demoBlock) [1, 0]) := by
    decide
  exact ⟨hw, (request_reinserts_only_verified_check_blocks 1 sumHash flipCipher graph11 16 1
    demoHashes (demoBlock ++ List.replicate 16 0) [1, 0] _ _ (by rw [hw]; rfl)).2⟩

/-! ## `do_request`: descriptor sets and the buffer -/

theorem mem_fdSet (k c : Nat) (set : List Nat) : k ∈ fdSet c set ↔ k = c ∨ k ∈ set := by
  unfold fdSet
  by_cases h : c ∈ set
  · rw [if_pos h]
    constructor
    · exact fun hk => Or.inr hk
    · rintro (e | hk)
      · subst e; exact h
      · exact hk
  · rw [if_neg h]
    exact List.mem_cons

theorem mem_fdClr (k i : Nat) (set : List Nat) : k ∈ fdClr i set ↔ k ∈ set ∧ k ≠ i := by
  unfold fdClr
  simp [List.mem_filter]

theorem store_length (buf : List Nat) (pos : Nat) (bytes : List Nat) :
    (store buf pos bytes).length = buf.length := by
  induction bytes generalizing buf pos with
  | nil => rfl
  | cons b bytes ih => simp [store, ih]

theorem store_getD_outside (buf : List Nat) (pos : Nat) (bytes : List Nat) (q : Nat)
    (h : ¬ (pos ≤ q ∧ q < pos + bytes.length)) :
    (store buf pos bytes).getD q 0 = buf.getD q 0 := by
  induction bytes generalizing buf pos with
  | nil => rfl
  | cons b bytes ih =>
    simp only [store]
    rw [ih (buf.set pos b) (pos + 1) (by
      intro hc; apply h; simp only [List.length_cons]; omega)]
    rw [getD_set, if_neg (by
      intro hc; apply h; simp only [List.length_cons]; omega)]

/-- Two buffers of one length that agree on the bytes of block `p` have the same block
`p`. -/
theorem blockAt_congr (b1 b2 : List Nat) (blocksize p : Nat) (hlen : b1.length = b2.length)
    (h : ∀ t, t < blocksize → b1.getD (p * blocksize + t) 0 = b2.getD (p * blocksize + t) 0) :
    blockAt b1 blocksize p = blockAt b2 blocksize p := by
  unfold blockAt
  apply List.ext_getElem?
  intro t
  simp only [List.getElem?_take, List.getElem?_drop]
  by_cases ht : t < blocksize
  · rw [if_pos ht, if_pos ht]
    have := h t ht
    simp only [List.getD_eq_getElem?_getD] at this
    by_cases hin : p * blocksize + t < b1.length
    · have hin2 : p * blocksize + t < b2.length := by omega
      rw [List.getElem?_eq_getElem hin, List.getElem?_eq_getElem hin2] at this ⊢
      simpa using this
    · rw [List.getElem?_eq_none (by omega), List.getElem?_eq_none (by omega)]
  · rw [if_neg ht, if_neg ht]

/-- Bytes stored inside block `q` leave every other block as it was. -/
theorem blockAt_store_other (buf : List Nat) (blocksize q p pos : Nat) (bytes : List Nat)
    (hne : p ≠ q) (h1 : q * blocksize ≤ pos)
    (h2 : pos + bytes.length ≤ q * blocksize + blocksize) :
    blockAt (store buf pos bytes) blocksize p = blockAt buf blocksize p := by
  apply blockAt_congr _ _ _ _ (store_length buf pos bytes)
  intro t ht
  apply store_getD_outside
  intro hc
  exact block_offset_ne blocksize q p t ht hne ⟨by omega, by omega⟩

theorem bumpTries_num (xfers : Nat → Xfer) (i fd : Nat) :
    (bumpTries xfers i fd).num = (xfers fd).num ∧ (bumpTries xfers i fd).off = (xfers fd).off := by
  unfold bumpTries
  by_cases e : fd = i
  · subst e; simp
  · rw [Function.update_noteq e]; exact ⟨rfl, rfl⟩

theorem setOff_num (xfers : Nat → Xfer) (i : Nat) (off : Int) (fd : Nat) :
    (setOff xfers i off fd).num = (xfers fd).num := by
  unfold setOff
  by_cases e : fd = i
  · subst e; simp
  · rw [Function.update_noteq e]

theorem setOff_same (xfers : Nat → Xfer) (i : Nat) (off : Int) :
    (setOff xfers i off i).off = off := by
  simp [setOff]

theorem setOff_other (xfers : Nat → Xfer) (i : Nat) (off : Int) (fd : Nat) (h : fd ≠ i) :
    setOff xfers i off fd = xfers fd := by
  simp [setOff, Function.update_noteq h]

theorem setDlen_num (xfers : Nat → Xfer) (i : Nat) (dlen : List Nat) (fd : Nat) :
    (setDlen xfers i dlen fd).num = (xfers fd).num ∧
    (setDlen xfers i dlen fd).off = (xfers fd).off := by
  unfold setDlen
  by_cases e : fd = i
  · subst e; simp
  · rw [Function.update_noteq e]; exact ⟨rfl, rfl⟩

/-! ## `do_request`: how the invariant moves with the state -/

theorem ReqInv.mono {HASHLEN : Nat} {hashdata : List Nat → List Nat} {blocksize : Nat}
    {hashes mask0 : List Nat} {st st1 : ReqState}
    (hinv : ReqInv HASHLEN hashdata blocksize hashes mask0 st)
    (hb : st1.blocks = st.blocks) (hm : st1.mask = st.mask) (hx : st1.xfers = st.xfers)
    (ha : st1.alerts = st.alerts) (hn : st.next ≤ st1.next)
    (hr : ∀ k, k ∈ st1.r → k ∈ st.r) (hw : ∀ k, k ∈ st1.w → k ∈ st.w) :
    ReqInv HASHLEN hashdata blocksize hashes mask0 st1 := by
  have hlive : ∀ fd, live st1 fd → live st fd := fun fd h =>
    h.elim (fun h => Or.inl (hr fd h)) (fun h => Or.inr (hw fd h))
  refine ⟨?_, ?_, ?_, ?_, ?_, ?_, ?_⟩
  · intro p h0 hp
    rw [hm] at hp ⊢
    rw [hb]
    exact hinv.verified p h0 hp
  · intro fd hfd
    rw [hm, hx]
    exact hinv.liveMissing fd (hlive fd hfd)
  · intro fd1 fd2 h1 h2 hne
    rw [hx]
    exact hinv.liveDistinct fd1 fd2 (hlive fd1 h1) (hlive fd2 h2) hne
  · intro fd hfd
    rw [hx]
    exact lt_of_lt_of_le (hinv.liveBelow fd (hlive fd hfd)) hn
  · intro fd hfd hfw
    exact hinv.disjoint fd (hr fd hfd) (hw fd hfw)
  · intro fd hfd
    rw [hx]
    exact hinv.sending fd (hw fd hfd)
  · intro p hp
    rw [ha] at hp
    obtain ⟨h1, h2, h3⟩ := hinv.alerted p hp
    refine ⟨by rw [hm]; exact h1, lt_of_lt_of_le h2 hn, ?_⟩
    intro fd hfd
    rw [hx]
    exact h3 fd (hlive fd hfd)

/-- Changing fields of entries of `xfers` other than `num` keeps the invariant, as long
as the transfers still sending stay before the end of their hash. -/
theorem ReqInv.xfer {HASHLEN : Nat} {hashdata : List Nat → List Nat} {blocksize : Nat}
    {hashes mask0 : List Nat} {st st1 : ReqState}
    (hinv : ReqInv HASHLEN hashdata blocksize hashes mask0 st)
    (hb : st1.blocks = st.blocks) (hm : st1.mask = st.mask)
    (hx : ∀ fd, (st1.xfers fd).num = (st.xfers fd).num)
    (hoff : ∀ fd, fd ∈ st.w → (st1.xfers fd).off < (HASHLEN : Int))
    (ha : st1.alerts = st.alerts) (hn : st1.next = st.next)
    (hr : st1.r = st.r) (hw : st1.w = st.w) :
    ReqInv HASHLEN hashdata blocksize hashes mask0 st1 := by
  have hlive : ∀ fd, live st1 fd → live st fd := by
    intro fd h
    unfold live at h ⊢
    rw [hr, hw] at h
    exact h
  refine ⟨?_, ?_, ?_, ?_, ?_, ?_, ?_⟩
  · intro p h0 hp
    rw [hm] at hp ⊢
    rw [hb]
    exact hinv.verified p h0 hp
  · intro fd hfd
    rw [hm, hx]
    exact hinv.liveMissing fd (hlive fd hfd)
  · intro fd1 fd2 h1 h2 hne
    rw [hx, hx]
    exact hinv.liveDistinct fd1 fd2 (hlive fd1 h1) (hlive fd2 h2) hne
  · intro fd hfd
    rw [hx, hn]
    exact hinv.liveBelow fd (hlive fd hfd)
  · intro fd hfd hfw
    rw [hr] at hfd
    rw [hw] at hfw
    exact hinv.disjoint fd hfd hfw
  · intro fd hfd
    rw [hw] at hfd
    exact hoff fd hfd
  · intro p hp
    rw [ha] at hp
    obtain ⟨h1, h2, h3⟩ := hinv.alerted p hp
    refine ⟨by rw [hm]; exact h1, by rw [hn]; exact h2, ?_⟩
    intro fd hfd
    rw [hx]
    exact h3 fd (hlive fd hfd)

theorem setXfer_same (xfers : Nat → Xfer) (c num : Nat) (tries off : Int) :
    (setXfer xfers c num tries off c).num = num ∧
    (setXfer xfers c num tries off c).off = off := by
  simp [setXfer]

theorem setXfer_other (xfers : Nat → Xfer) (c num : Nat) (tries off : Int) (fd : Nat)
    (h : fd ≠ c) : setXfer xfers c num tries off fd = xfers fd := by
  simp [setXfer, Function.update_noteq h]

/-- Setting up a transfer for block `num` on a descriptor that is not in use keeps the
invariant, when `num` is a missing block below `next` that no transfer in progress and
no alert is for. -/
theorem ReqInv.add {HASHLEN : Nat} {hashdata : List Nat → List Nat} {blocksize : Nat}
    {hashes mask0 : List Nat} {st st1 : ReqState} (c num : Nat) (tries off : Int)
    (hinv : ReqInv HASHLEN hashdata blocksize hashes mask0 st)
    (hc : ¬ live st c) (hmiss : st.mask.getD num 0 = 0)
    (hd : ∀ fd, live st fd → (st.xfers fd).num ≠ num)
    (hbelow : num < st1.next) (hal : num ∉ st.alerts) (hoff : off < (HASHLEN : Int))
    (hb : st1.blocks = st.blocks) (hm : st1.mask = st.mask)
    (hx : st1.xfers = setXfer st.xfers c num tries off)
    (ha : st1.alerts = st.alerts) (hn : st.next ≤ st1.next)
    (hr : st1.r = st.r) (hw : st1.w = fdSet c st.w) :
    ReqInv HASHLEN hashdata blocksize hashes mask0 st1 := by
  have hlive : ∀ fd, live st1 fd → fd = c ∨ (fd ≠ c ∧ live st fd) := by
    intro fd h
    unfold live at h
    rw [hr, hw, mem_fdSet] at h
    by_cases e : fd = c
    · exact Or.inl e
    · right
      refine ⟨e, ?_⟩
      rcases h with h | h | h
      · exact Or.inl h
      · exact absurd h e
      · exact Or.inr h
  have hnumc : (st1.xfers c).num = num := by rw [hx]; exact (setXfer_same _ _ _ _ _).1
  have hold : ∀ fd, fd ≠ c → st1.xfers fd = st.xfers fd := by
    intro fd h; rw [hx]; exact setXfer_other _ _ _ _ _ fd h
  refine ⟨?_, ?_, ?_, ?_, ?_, ?_, ?_⟩
  · intro p h0 hp
    rw [hm] at hp ⊢
    rw [hb]
    exact hinv.verified p h0 hp
  · intro fd hfd
    rw [hm]
    rcases hlive fd hfd with e | ⟨e, h⟩
    · subst e; rw [hnumc]; exact hmiss
    · rw [hold fd e]; exact hinv.liveMissing fd h
  · intro fd1 fd2 h1 h2 hne
    rcases hlive fd1 h1 with e1 | ⟨e1, l1⟩ <;> rcases hlive fd2 h2 with e2 | ⟨e2, l2⟩
    · exact absurd (e1.trans e2.symm) hne
    · subst e1; rw [hnumc, hold fd2 e2]; exact fun e => hd fd2 l2 e.symm
    · subst e2; rw [hnumc, hold fd1 e1]; exact hd fd1 l1
    · rw [hold fd1 e1, hold fd2 e2]; exact hinv.liveDistinct fd1 fd2 l1 l2 hne
  · intro fd hfd
    rcases hlive fd hfd with e | ⟨e, h⟩
    · subst e; rw [hnumc]; exact hbelow
    · rw [hold fd e]; exact lt_of_lt_of_le (hinv.liveBelow fd h) hn
  · intro fd hfd hfw
    rw [hr] at hfd
    rw [hw, mem_fdSet] at hfw
    rcases hfw with e | h
    · subst e; exact hc (Or.inl hfd)
    · exact hinv.disjoint fd hfd h
  · intro fd hfd
    rw [hw, mem_fdSet] at hfd
    by_cases e : fd = c
    · subst e; rw [hx, (setXfer_same _ _ _ _ _).2]; exact hoff
    · rw [hold fd e]
      rcases hfd with h | h
      · exact absurd h e
      · exact hinv.sending fd h
  · intro p hp
    rw [ha] at hp
    obtain ⟨h1, h2, h3⟩ := hinv.alerted p hp
    refine ⟨by rw [hm]; exact h1, lt_of_lt_of_le h2 hn, ?_⟩
    intro fd hfd
    rcases hlive fd hfd with e | ⟨e, h⟩
    · subst e; rw [hnumc]; exact fun e2 => hal (e2 ▸ hp)
    · rw [hold fd e]; exact h3 fd h

/-- Moving a descriptor from the write set to the read set keeps the invariant. -/
theorem ReqInv.move {HASHLEN : Nat} {hashdata : List Nat → List Nat} {blocksize : Nat}
    {hashes mask0 : List Nat} {st st1 : ReqState} (i : Nat)
    (hinv : ReqInv HASHLEN hashdata blocksize hashes mask0 st) (hi : i ∈ st.w)
    (hb : st1.blocks = st.blocks) (hm : st1.mask = st.mask)
    (hx : ∀ fd, (st1.xfers fd).num = (st.xfers fd).num)
    (hoff : ∀ fd, fd ≠ i → (st1.xfers fd).off = (st.xfers fd).off)
    (ha : st1.alerts = st.alerts) (hn : st1.next = st.next)
    (hr : st1.r = fdSet i st.r) (hw : st1.w = fdClr i st.w) :
    ReqInv HASHLEN hashdata blocksize hashes mask0 st1 := by
  have hlive : ∀ fd, live st1 fd → live st fd := by
    intro fd h
    unfold live at h ⊢
    rw [hr, hw, mem_fdSet, mem_fdClr] at h
    rcases h with (e | h) | h
    · subst e; exact Or.inr hi
    · exact Or.inl h
    · exact Or.inr h.1
  refine ⟨?_, ?_, ?_, ?_, ?_, ?_, ?_⟩
  · intro p h0 hp
    rw [hm] at hp ⊢
    rw [hb]
    exact hinv.verified p h0 hp
  · intro fd hfd
    rw [hm, hx]
    exact hinv.liveMissing fd (hlive fd hfd)
  · intro fd1 fd2 h1 h2 hne
    rw [hx, hx]
    exact hinv.liveDistinct fd1 fd2 (hlive fd1 h1) (hlive fd2 h2) hne
  · intro fd hfd
    rw [hx, hn]
    exact hinv.liveBelow fd (hlive fd hfd)
  · intro fd hfd hfw
    rw [hr, mem_fdSet] at hfd
    rw [hw, mem_fdClr] at hfw
    rcases hfd with e | h
    · exact hfw.2 e
    · exact hinv.disjoint fd h hfw.1
  · intro fd hfd
    rw [hw, mem_fdClr] at hfd
    rw [hoff fd hfd.2]
    exact hinv.sending fd hfd.1
  · intro p hp
    rw [ha] at hp
    obtain ⟨h1, h2, h3⟩ := hinv.alerted p hp
    refine ⟨by rw [hm]; exact h1, by rw [hn]; exact h2, ?_⟩
    intro fd hfd
    rw [hx]
    exact h3 fd (hlive fd hfd)

theorem takeSock_some (st : ReqState) (script : List Reply) (c : Nat)
    (script1 : List Reply) (h : takeSock st script = some (c, script1)) : ¬ live st c := by
  unfold takeSock at h
  split at h
  · rename_i c0 rest
    split at h
    · simp at h
    · rename_i hno
      simp only [Option.some.injEq, Prod.mk.injEq] at h
      obtain ⟨e, _⟩ := h
      subst e
      exact hno
  · simp at h

theorem connectNew_inv {HASHLEN : Nat} {hashdata : List Nat → List Nat} {blocksize : Nat}
    {hashes mask0 : List Nat} (blockcount fuel : Nat) (st : ReqState)
    (script : List Reply) (st1 : ReqState) (script1 : List Reply)
    (hinv : ReqInv HASHLEN hashdata blocksize hashes mask0 st)
    (h : connectNew blockcount fuel st script = some (st1, script1)) :
    ReqInv HASHLEN hashdata blocksize hashes mask0 st1 ∧ st1.r = st.r ∧
      ∀ k, k ∈ st.w → k ∈ st1.w := by
  induction fuel generalizing st script with
  | zero =>
    unfold connectNew at h
    split at h
    · simp at h
    · simp only [Option.some.injEq, Prod.mk.injEq] at h
      obtain ⟨e, _⟩ := h
      subst e
      exact ⟨hinv, rfl, fun k hk => hk⟩
  | succ fuel ih =>
    unfold connectNew at h
    split at h
    · split at h
      · have hinv2 : ReqInv HASHLEN hashdata blocksize hashes mask0
            { st with next := st.next + 1 } :=
          hinv.mono rfl rfl rfl rfl (Nat.le_succ _) (fun k hk => hk) (fun k hk => hk)
        obtain ⟨h1, h2, h3⟩ := ih { st with next := st.next + 1 } script hinv2 h
        exact ⟨h1, h2, h3⟩
      · rename_i hmiss
        cases hts : takeSock st script with
        | none => simp [hts] at h
        | some res =>
          obtain ⟨c, script2⟩ := res
          simp only [hts] at h
          have hc := takeSock_some st script c script2 hts
          have hz : st.mask.getD st.next 0 = 0 := by simpa using hmiss
          have hinv2 : ReqInv HASHLEN hashdata blocksize hashes mask0
              { st with
                w := fdSet c st.w
                m := if c ≥ st.m then c + 1 else st.m
                xfers := setXfer st.xfers c st.next 0 (-1)
                active := st.active + 1
                next := st.next + 1 } := by
            apply ReqInv.add c st.next 0 (-1) hinv hc hz
            · intro fd hfd
              exact Nat.ne_of_lt (hinv.liveBelow fd hfd)
            · exact Nat.lt_succ_self _
            · intro hal
              exact absurd (hinv.alerted _ hal).2.1 (lt_irrefl _)
            · have : (0 : Int) ≤ (HASHLEN : Int) := Int.ofNat_nonneg _
              omega
            · rfl
            · rfl
            · rfl
            · rfl
            · exact Nat.le_succ _
            · rfl
            · rfl
          obtain ⟨h1, h2, h3⟩ := ih _ script2 hinv2 h
          refine ⟨h1, h2, fun k hk => h3 k ?_⟩
          show k ∈ fdSet c st.w
          rw [mem_fdSet]
          exact Or.inr hk
    · simp only [Option.some.injEq, Prod.mk.injEq] at h
      obtain ⟨e, _⟩ := h
      subst e
      exact ⟨hinv, rfl, fun k hk => hk⟩

/-! ## `do_request`: the steps of the loop keep the invariant -/

/-- When the retry branch of the send loop has a result, it is that of the retry branch
of the read loop with `off = -1`. -/
theorem retrySend_some (flat : Bool) (st : ReqState) (script : List Reply) (i : Nat)
    (st1 : ReqState) (script1 : List Reply)
    (h : retrySend flat st script i = some (st1, script1)) :
    retryOrGiveUp st script i (-1) = some (st1, script1) := by
  unfold retrySend at h
  split at h
  · simp at h
  · exact h

/-- The retry branch, entered with descriptor `i` closed and out of both sets: the
block of `i` gets a new transfer or none, and nothing else changes. -/
theorem retryOrGiveUp_inv {HASHLEN : Nat} {hashdata : List Nat → List Nat}
    {blocksize : Nat} {hashes mask0 : List Nat} (st : ReqState) (script : List Reply)
    (i : Nat) (off : Int) (st1 : ReqState) (script1 : List Reply)
    (hinv : ReqInv HASHLEN hashdata blocksize hashes mask0 st)
    (hi : ¬ live st i) (hmiss : st.mask.getD (st.xfers i).num 0 = 0)
    (hd : ∀ fd, live st fd → (st.xfers fd).num ≠ (st.xfers i).num)
    (hbelow : (st.xfers i).num < st.next) (hal : (st.xfers i).num ∉ st.alerts)
    (hoff : off < (HASHLEN : Int))
    (h : retryOrGiveUp st script i off = some (st1, script1)) :
    ReqInv HASHLEN hashdata blocksize hashes mask0 st1 ∧ st1.r = st.r ∧
      (∀ k, k ∈ st.w → k ∈ st1.w) ∧
      (i ∈ st1.w → (st1.xfers i).off = off) ∧
      (i ∉ st1.w → (st1.xfers i).off = (st.xfers i).off) ∧
      st1.blocks = st.blocks ∧ st1.mask = st.mask := by
  have hnum : ∀ fd, (bumpTries st.xfers i fd).num = (st.xfers fd).num :=
    fun fd => (bumpTries_num st.xfers i fd).1
  have hinv1 : ReqInv HASHLEN hashdata blocksize hashes mask0
      { st with xfers := bumpTries st.xfers i } :=
    hinv.xfer rfl rfl hnum
      (fun fd hfd => by
        show (bumpTries st.xfers i fd).off < _
        rw [(bumpTries_num st.xfers i fd).2]; exact hinv.sending fd hfd)
      rfl rfl rfl rfl
  unfold retryOrGiveUp at h
  simp only at h
  split at h
  · cases hts : takeSock { st with xfers := bumpTries st.xfers i } script with
    | none => simp [hts] at h
    | some res =>
      obtain ⟨c, script2⟩ := res
      simp only [hts, Option.some.injEq, Prod.mk.injEq] at h
      obtain ⟨e, _⟩ := h
      have hc := takeSock_some _ script c script2 hts
      have hinv2 : ReqInv HASHLEN hashdata blocksize hashes mask0 st1 := by
        subst e
        apply ReqInv.add c _ _ off hinv1 hc
        · show st.mask.getD (bumpTries st.xfers i i).num 0 = 0
          rw [hnum]; exact hmiss
        · intro fd hfd
          show (bumpTries st.xfers i fd).num ≠ (bumpTries st.xfers i i).num
          rw [hnum, hnum]
          exact hd fd hfd
        · show (bumpTries st.xfers i i).num < st.next
          rw [hnum]; exact hbelow
        · show (bumpTries st.xfers i i).num ∉ st.alerts
          rw [hnum]; exact hal
        · exact hoff
        · rfl
        · rfl
        · rfl
        · rfl
        · exact le_refl _
        · rfl
        · rfl
      subst e
      refine ⟨hinv2, rfl, ?_, ?_, ?_, rfl, rfl⟩
      · intro k hk
        show k ∈ fdSet c st.w
        rw [mem_fdSet]; exact Or.inr hk
      · intro hiw
        have hiw2 : i ∈ fdSet c st.w := hiw
        rw [mem_fdSet] at hiw2
        rcases hiw2 with e2 | hin
        · subst e2
          exact (setXfer_same _ _ _ _ _).2
        · exact absurd (Or.inr hin) hi
      · intro hiw
        have hic : i ≠ c := by
          intro e2
          apply hiw
          show i ∈ fdSet c st.w
          rw [mem_fdSet]; exact Or.inl e2
        show (setXfer (bumpTries st.xfers i) c _ _ off i).off = _
        rw [setXfer_other _ _ _ _ _ i hic]
        exact (bumpTries_num st.xfers i i).2
  · simp only [Option.some.injEq, Prod.mk.injEq] at h
    obtain ⟨e, _⟩ := h
    subst e
    refine ⟨hinv1.mono rfl rfl rfl rfl (le_refl _) (fun k hk => hk) (fun k hk => hk),
      rfl, fun k hk => hk, ?_, ?_, rfl, rfl⟩
    · intro hiw
      exact absurd (Or.inr hiw) hi
    · intro _
      exact (bumpTries_num st.xfers i i).2

/-- Taking a descriptor with a transfer in progress out of the sets: the invariant
stays, and the block of that transfer is missing, below `next`, not alerted, and no
other transfer is for it. -/
theorem ReqInv.clear {HASHLEN : Nat} {hashdata : List Nat → List Nat} {blocksize : Nat}
    {hashes mask0 : List Nat} {st st1 : ReqState} (i : Nat)
    (hinv : ReqInv HASHLEN hashdata blocksize hashes mask0 st) (hi : live st i)
    (hb : st1.blocks = st.blocks) (hm : st1.mask = st.mask) (hx : st1.xfers = st.xfers)
    (ha : st1.alerts = st.alerts) (hn : st1.next = st.next)
    (hr : st1.r = fdClr i st.r) (hw : st1.w = fdClr i st.w) :
    ReqInv HASHLEN hashdata blocksize hashes mask0 st1 ∧ ¬ live st1 i ∧
      st1.mask.getD (st1.xfers i).num 0 = 0 ∧
      (∀ fd, live st1 fd → (st1.xfers fd).num ≠ (st1.xfers i).num) ∧
      (st1.xfers i).num < st1.next ∧ (st1.xfers i).num ∉ st1.alerts := by
  have hsub : ∀ fd, live st1 fd → live st fd ∧ fd ≠ i := by
    intro fd h
    unfold live at h ⊢
    rw [hr, hw, mem_fdClr, mem_fdClr] at h
    rcases h with h | h
    · exact ⟨Or.inl h.1, h.2⟩
    · exact ⟨Or.inr h.1, h.2⟩
  refine ⟨hinv.mono hb hm hx ha (le_of_eq hn.symm) ?_ ?_, ?_, ?_, ?_, ?_, ?_⟩
  · intro k hk; rw [hr, mem_fdClr] at hk; exact hk.1
  · intro k hk; rw [hw, mem_fdClr] at hk; exact hk.1
  · intro h; exact (hsub i h).2 rfl
  · rw [hm, hx]; exact hinv.liveMissing i hi
  · intro fd hfd
    rw [hx]
    exact hinv.liveDistinct fd i (hsub fd hfd).1 hi (hsub fd hfd).2
  · rw [hx, hn]; exact hinv.liveBelow i hi
  · rw [hx, ha]
    intro hal
    exact (hinv.alerted _ hal).2.2 i hi rfl

theorem closeFd_some (st : ReqState) (i : Nat) (u : Unit) (h : closeFd st i = some u) :
    live st i := by
  unfold closeFd at h
  split at h
  · rename_i hl; exact hl
  · simp at h

/-- The branch "is the data length incorrect?", entered with `off` not zero in case the
descriptor is in the write set. -/
theorem lengthCheck_inv {HASHLEN : Nat} {hashdata : List Nat → List Nat} {blocksize : Nat}
    {hashes mask0 : List Nat} (st : ReqState) (i : Nat) (st1 : ReqState)
    (hinv : ReqInv HASHLEN hashdata blocksize hashes mask0 st)
    (hw : i ∈ st.w → (st.xfers i).off ≠ 0)
    (h : lengthCheck blocksize st i = some st1) :
    ReqInv HASHLEN hashdata blocksize hashes mask0 st1 ∧
      (∀ k, k ≠ i → k ∈ st.r → k ∈ st1.r) ∧ (∀ k, k ∈ st1.r → k ∈ st.r) ∧
      st1.w = st.w ∧ st1.xfers = st.xfers := by
  unfold lengthCheck at h
  split at h
  · rename_i hcond
    cases hcl : closeFd st i with
    | none => simp [hcl] at h
    | some u =>
      simp only [hcl, Option.some.injEq] at h
      have hl := closeFd_some st i u hcl
      have hir : i ∈ st.r := by
        rcases hl with h1 | h1
        · exact h1
        · exact absurd hcond.1 (hw h1)
      have hiw : i ∉ st.w := hinv.disjoint i hir
      subst h
      refine ⟨?_, ?_, ?_, rfl, rfl⟩
      · have hlive : ∀ fd, (fd ∈ fdClr i st.r ∨ fd ∈ st.w) → live st fd ∧ fd ≠ i := by
          intro fd hfd
          rcases hfd with h1 | h1
          · have h2 : fd ∈ fdClr i st.r := h1
            rw [mem_fdClr] at h2
            exact ⟨Or.inl h2.1, h2.2⟩
          · have h2 : fd ∈ st.w := h1
            exact ⟨Or.inr h2, fun e => hiw (e ▸ h2)⟩
        refine ⟨hinv.verified, ?_, ?_, ?_, ?_, hinv.sending, ?_⟩
        · intro fd hfd; exact hinv.liveMissing fd (hlive fd hfd).1
        · intro fd1 fd2 h1 h2 hne
          exact hinv.liveDistinct fd1 fd2 (hlive fd1 h1).1 (hlive fd2 h2).1 hne
        · intro fd hfd; exact hinv.liveBelow fd (hlive fd hfd).1
        · intro fd hfd hfw
          have h2 : fd ∈ fdClr i st.r := hfd
          rw [mem_fdClr] at h2
          exact hinv.disjoint fd h2.1 hfw
        · intro p hp
          have hp2 : p ∈ (st.xfers i).num :: st.alerts := hp
          rcases List.mem_cons.1 hp2 with e | hp3
          · subst e
            refine ⟨hinv.liveMissing i hl, hinv.liveBelow i hl, ?_⟩
            intro fd hfd
            exact hinv.liveDistinct fd i (hlive fd hfd).1 hl (hlive fd hfd).2
          · obtain ⟨h1, h2, h3⟩ := hinv.alerted p hp3
            exact ⟨h1, h2, fun fd hfd => h3 fd (hlive fd hfd).1⟩
      · intro k hk hkr
        show k ∈ fdClr i st.r
        rw [mem_fdClr]; exact ⟨hkr, hk⟩
      · intro k hk
        have h2 : k ∈ fdClr i st.r := hk
        rw [mem_fdClr] at h2
        exact h2.1
  · simp only [Option.some.injEq] at h
    subst h
    exact ⟨hinv, fun k _ hk => hk, fun k hk => hk, rfl, rfl⟩

/-- Closing a transfer from the read set with an alert for its block. -/
theorem ReqInv.alert {HASHLEN : Nat} {hashdata : List Nat → List Nat} {blocksize : Nat}
    {hashes mask0 : List Nat} {st st1 : ReqState} (i : Nat)
    (hinv : ReqInv HASHLEN hashdata blocksize hashes mask0 st) (hir : i ∈ st.r)
    (hb : st1.blocks = st.blocks) (hm : st1.mask = st.mask) (hx : st1.xfers = st.xfers)
    (ha : st1.alerts = (st.xfers i).num :: st.alerts) (hn : st1.next = st.next)
    (hr : st1.r = fdClr i st.r) (hw : st1.w = st.w) :
    ReqInv HASHLEN hashdata blocksize hashes mask0 st1 := by
  have hl : live st i := Or.inl hir
  have hiw : i ∉ st.w := hinv.disjoint i hir
  have hlive : ∀ fd, live st1 fd → live st fd ∧ fd ≠ i := by
    intro fd hfd
    unfold live at hfd
    rw [hr, hw, mem_fdClr] at hfd
    rcases hfd with h1 | h1
    · exact ⟨Or.inl h1.1, h1.2⟩
    · exact ⟨Or.inr h1, fun e => hiw (e ▸ h1)⟩
  refine ⟨?_, ?_, ?_, ?_, ?_, ?_, ?_⟩
  · rw [hm, hb]; exact hinv.verified
  · intro fd hfd; rw [hm, hx]; exact hinv.liveMissing fd (hlive fd hfd).1
  · intro fd1 fd2 h1 h2 hne
    rw [hx]
    exact hinv.liveDistinct fd1 fd2 (hlive fd1 h1).1 (hlive fd2 h2).1 hne
  · intro fd hfd; rw [hx, hn]; exact hinv.liveBelow fd (hlive fd hfd).1
  · intro fd hfd hfw
    rw [hr, mem_fdClr] at hfd
    rw [hw] at hfw
    exact hinv.disjoint fd hfd.1 hfw
  · intro fd hfd
    rw [hw] at hfd
    rw [hx]; exact hinv.sending fd hfd
  · intro p hp
    rw [ha] at hp
    rw [hm, hn, hx]
    rcases List.mem_cons.1 hp with e | hp3
    · subst e
      refine ⟨hinv.liveMissing i hl, hinv.liveBelow i hl, ?_⟩
      intro fd hfd
      exact hinv.liveDistinct fd i (hlive fd hfd).1 hl (hlive fd hfd).2
    · obtain ⟨h1, h2, h3⟩ := hinv.alerted p hp3
      exact ⟨h1, h2, fun fd hfd => h3 fd (hlive fd hfd).1⟩

/-- Closing a transfer from the read set whose block has the hash the key gives for it:
the mask entry of the block is set. -/
theorem ReqInv.done {HASHLEN : Nat} {hashdata : List Nat → List Nat} {blocksize : Nat}
    {hashes mask0 : List Nat} {st st1 : ReqState} (i : Nat)
    (hinv : ReqInv HASHLEN hashdata blocksize hashes mask0 st) (hir : i ∈ st.r)
    (hok : hashOK HASHLEN hashdata blocksize hashes st.blocks (st.xfers i).num)
    (hb : st1.blocks = st.blocks) (hm : st1.mask = st.mask.set (st.xfers i).num 1)
    (hx : st1.xfers = st.xfers)
    (ha : st1.alerts = st.alerts) (hn : st1.next = st.next)
    (hr : st1.r = fdClr i st.r) (hw : st1.w = st.w) :
    ReqInv HASHLEN hashdata blocksize hashes mask0 st1 := by
  have hl : live st i := Or.inl hir
  have hiw : i ∉ st.w := hinv.disjoint i hir
  have hlive : ∀ fd, live st1 fd → live st fd ∧ fd ≠ i := by
    intro fd hfd
    unfold live at hfd
    rw [hr, hw, mem_fdClr] at hfd
    rcases hfd with h1 | h1
    · exact ⟨Or.inl h1.1, h1.2⟩
    · exact ⟨Or.inr h1, fun e => hiw (e ▸ h1)⟩
  have hother : ∀ p, p ≠ (st.xfers i).num → st1.mask.getD p 0 = st.mask.getD p 0 := by
    intro p hp
    rw [hm, getD_set, if_neg]
    intro h
    exact hp h.1.symm
  refine ⟨?_, ?_, ?_, ?_, ?_, ?_, ?_⟩
  · intro p hp0 hp1
    rw [hb]
    by_cases hp : p = (st.xfers i).num
    · subst hp
      refine ⟨?_, hok⟩
      rw [hm, getD_set] at hp1 ⊢
      by_cases hlen : (st.xfers i).num = (st.xfers i).num ∧ (st.xfers i).num < st.mask.length
      · rw [if_pos hlen]
      · rw [if_neg hlen] at hp1
        exact absurd (hinv.liveMissing i hl) hp1
    · rw [hother p hp] at hp1 ⊢
      exact hinv.verified p hp0 hp1
  · intro fd hfd
    rw [hx]
    have hne := hinv.liveDistinct fd i (hlive fd hfd).1 hl (hlive fd hfd).2
    rw [hother _ hne]
    exact hinv.liveMissing fd (hlive fd hfd).1
  · intro fd1 fd2 h1 h2 hne
    rw [hx]
    exact hinv.liveDistinct fd1 fd2 (hlive fd1 h1).1 (hlive fd2 h2).1 hne
  · intro fd hfd; rw [hx, hn]; exact hinv.liveBelow fd (hlive fd hfd).1
  · intro fd hfd hfw
    rw [hr, mem_fdClr] at hfd
    rw [hw] at hfw
    exact hinv.disjoint fd hfd.1 hfw
  · intro fd hfd
    rw [hw] at hfd
    rw [hx]; exact hinv.sending fd hfd
  · intro p hp
    rw [ha] at hp
    obtain ⟨h1, h2, h3⟩ := hinv.alerted p hp
    have hne : p ≠ (st.xfers i).num := fun e => h3 i hl e.symm
    rw [hother p hne, hn, hx]
    exact ⟨h1, h2, fun fd hfd => h3 fd (hlive fd hfd).1⟩

/-- The branch "are we done reading the data?", entered with `off` other than the block
size in case the descriptor is in the write set. -/
theorem doneCheck_inv {HASHLEN : Nat} {hashdata : List Nat → List Nat} {blocksize : Nat}
    {hashes mask0 : List Nat} (st : ReqState) (i : Nat) (st1 : ReqState)
    (hinv : ReqInv HASHLEN hashdata blocksize hashes mask0 st)
    (hw : i ∈ st.w → (st.xfers i).off ≠ (blocksize : Int))
    (h : doneCheck HASHLEN hashdata blocksize hashes st i = some st1) :
    ReqInv HASHLEN hashdata blocksize hashes mask0 st1 ∧
      (∀ k, k ≠ i → k ∈ st.r → k ∈ st1.r) ∧ (∀ k, k ∈ st1.r → k ∈ st.r) ∧
      st1.w = st.w := by
  unfold doneCheck at h
  split at h
  · rename_i hcond
    by_cases hc : memcmp (hashes.drop ((st.xfers i).num * HASHLEN))
        (hashdata (blockAt st.blocks blocksize (st.xfers i).num)) HASHLEN ≠ 0
    · simp only [hc, if_true, ne_eq, not_false_eq_true] at h
      cases hcl : closeFd { st with alerts := (st.xfers i).num :: st.alerts } i with
      | none => simp [hcl] at h
      | some u =>
        simp only [hcl, Option.some.injEq] at h
        have hl : live st i := closeFd_some _ i u hcl
        have hir : i ∈ st.r := by
          rcases hl with h1 | h1
          · exact h1
          · exact absurd hcond (hw h1)
        have hr1 : st1.r = fdClr i st.r := by rw [← h]
        have hw1 : st1.w = st.w := by rw [← h]
        refine ⟨ReqInv.alert i hinv hir (by rw [← h]) (by rw [← h]) (by rw [← h])
          (by rw [← h]) (by rw [← h]) hr1 hw1, ?_, ?_, hw1⟩
        · intro k hk hkr
          rw [hr1, mem_fdClr]; exact ⟨hkr, hk⟩
        · intro k hk
          rw [hr1, mem_fdClr] at hk
          exact hk.1
    · have hc0 : memcmp (hashes.drop ((st.xfers i).num * HASHLEN))
          (hashdata (blockAt st.blocks blocksize (st.xfers i).num)) HASHLEN = 0 := by
        by_contra h0; exact hc h0
      simp only [hc0, ne_eq, not_true_eq_false, if_false] at h
      cases hcl : closeFd { st with mask := st.mask.set (st.xfers i).num 1 } i with
      | none => simp [hcl] at h
      | some u =>
        simp only [hcl, Option.some.injEq] at h
        have hl : live st i := closeFd_some _ i u hcl
        have hir : i ∈ st.r := by
          rcases hl with h1 | h1
          · exact h1
          · exact absurd hcond (hw h1)
        have hr1 : st1.r = fdClr i st.r := by rw [← h]
        have hw1 : st1.w = st.w := by rw [← h]
        refine ⟨ReqInv.done i hinv hir hc0 (by rw [← h]) (by rw [← h]) (by rw [← h])
          (by rw [← h]) (by rw [← h]) hr1 hw1, ?_, ?_, hw1⟩
        · intro k hk hkr
          rw [hr1, mem_fdClr]; exact ⟨hkr, hk⟩
        · intro k hk
          rw [hr1, mem_fdClr] at hk
          exact hk.1
  · simp only [Option.some.injEq] at h
    subst h
    exact ⟨hinv, fun k _ hk => hk, fun k hk => hk, rfl⟩

/-- Bytes stored into the block of a transfer in progress keep the invariant. -/
theorem ReqInv.store {HASHLEN : Nat} {hashdata : List Nat → List Nat} {blocksize : Nat}
    {hashes mask0 : List Nat} {st st1 : ReqState} (i : Nat)
    (hinv : ReqInv HASHLEN hashdata blocksize hashes mask0 st) (hl : live st i)
    (hb : ∀ p, p ≠ (st.xfers i).num →
      blockAt st1.blocks blocksize p = blockAt st.blocks blocksize p)
    (hm : st1.mask = st.mask) (hx : st1.xfers = st.xfers)
    (ha : st1.alerts = st.alerts) (hn : st1.next = st.next)
    (hr : st1.r = st.r) (hw : st1.w = st.w) :
    ReqInv HASHLEN hashdata blocksize hashes mask0 st1 := by
  have hlive : ∀ fd, live st1 fd → live st fd := by
    intro fd h
    unfold live at h ⊢
    rw [hr, hw] at h
    exact h
  refine ⟨?_, ?_, ?_, ?_, ?_, ?_, ?_⟩
  · intro p hp0 hp1
    rw [hm] at hp1 ⊢
    have hne : p ≠ (st.xfers i).num := by
      intro e
      rw [e] at hp1
      exact hp1 (hinv.liveMissing i hl)
    obtain ⟨h1, h2⟩ := hinv.verified p hp0 hp1
    refine ⟨h1, ?_⟩
    unfold hashOK at h2 ⊢
    rw [hb p hne]
    exact h2
  · intro fd hfd; rw [hm, hx]; exact hinv.liveMissing fd (hlive fd hfd)
  · intro fd1 fd2 h1 h2 hne
    rw [hx]
    exact hinv.liveDistinct fd1 fd2 (hlive fd1 h1) (hlive fd2 h2) hne
  · intro fd hfd; rw [hx, hn]; exact hinv.liveBelow fd (hlive fd hfd)
  · intro fd hfd hfw
    rw [hr] at hfd
    rw [hw] at hfw
    exact hinv.disjoint fd hfd hfw
  · intro fd hfd
    rw [hw] at hfd
    rw [hx]; exact hinv.sending fd hfd
  · intro p hp
    rw [ha] at hp
    rw [hm, hn, hx]
    obtain ⟨h1, h2, h3⟩ := hinv.alerted p hp
    exact ⟨h1, h2, fun fd hfd => h3 fd (hlive fd hfd)⟩

/-- The call of `readall` for a descriptor of the read set: the bytes go into the length
field or into the block of the transfer, and nothing else changes. -/
theorem readInto_inv {HASHLEN : Nat} {hashdata : List Nat → List Nat} {blocksize : Nat}
    {hashes mask0 : List Nat} (st : ReqState) (i : Nat) (n : Int) (bytes : List Nat)
    (st1 : ReqState)
    (hinv : ReqInv HASHLEN hashdata blocksize hashes mask0 st) (hir : i ∈ st.r)
    (h : readInto false blocksize st i n bytes = some st1) :
    ReqInv HASHLEN hashdata blocksize hashes mask0 st1 ∧ st1.r = st.r ∧ st1.w = st.w ∧
      (∀ fd, (st1.xfers fd).num = (st.xfers fd).num ∧
        (st1.xfers fd).off = (st.xfers fd).off) := by
  unfold readInto at h
  dsimp only at h
  by_cases hn0 : (st.xfers i).off < 0
  · simp only [if_pos hn0] at h
    by_cases hmay : readallMay (-(st.xfers i).off) n bytes
    · rw [if_neg (not_not.2 hmay)] at h
      by_cases hpos : n ≤ 0
      · rw [if_pos hpos] at h
        simp only [Option.some.injEq] at h
        subst h
        exact ⟨hinv, rfl, rfl, fun fd => ⟨rfl, rfl⟩⟩
      · rw [if_neg hpos] at h
        by_cases h4 : (st.xfers i).off = -4
        · rw [if_pos h4] at h
          simp only [Option.some.injEq] at h
          subst h
          refine ⟨?_, rfl, rfl, fun fd => setDlen_num _ _ _ fd⟩
          refine hinv.xfer rfl rfl (fun fd => (setDlen_num _ _ _ fd).1) ?_ rfl rfl rfl rfl
          intro fd hfd
          show (setDlen st.xfers i _ fd).off < _
          rw [(setDlen_num _ _ _ fd).2]
          exact hinv.sending fd hfd
        · rw [if_neg h4] at h
          simp at h
    · rw [if_pos hmay] at h
      simp at h
  · simp only [if_neg hn0] at h
    by_cases hmay : readallMay ((blocksize : Int) - (st.xfers i).off) n bytes
    · rw [if_neg (not_not.2 hmay)] at h
      by_cases hpos : n ≤ 0
      · rw [if_pos hpos] at h
        simp only [Option.some.injEq] at h
        subst h
        exact ⟨hinv, rfl, rfl, fun fd => ⟨rfl, rfl⟩⟩
      · rw [if_neg hpos] at h
        simp only [Option.some.injEq] at h
        subst h
        refine ⟨?_, rfl, rfl, fun fd => ⟨rfl, rfl⟩⟩
        refine ReqInv.store i hinv (Or.inl hir) ?_ rfl rfl rfl rfl rfl rfl
        intro p hp
        obtain ⟨hle, hlen⟩ := hmay
        have hbl : (bytes.length : Int) = n := hlen (by omega)
        apply blockAt_store_other _ _ (st.xfers i).num p _ _ hp
        · omega
        · omega
    · rw [if_pos hmay] at h
      simp at h

/-- The branch "are we done sending our request?" of the send loop. -/
theorem sendTail_inv {HASHLEN : Nat} {hashdata : List Nat → List Nat} {blocksize : Nat}
    {hashes mask0 : List Nat} (st2 : ReqState) (script2 : List Reply) (i : Nat) (n : Int)
    (st1 : ReqState) (script1 : List Reply)
    (hinv : ReqInv HASHLEN hashdata blocksize hashes mask0 st2)
    (hle : i ∈ st2.w → (st2.xfers i).off + n ≤ (HASHLEN : Int))
    (hnot : i ∉ st2.w → (st2.xfers i).off + n ≠ (HASHLEN : Int))
    (h : (if (st2.xfers i).off + n = (HASHLEN : Int) then
        some (({ st2 with
                 w := fdClr i st2.w
                 r := fdSet i st2.r
                 xfers := setOff (setOff st2.xfers i ((st2.xfers i).off + n)) i (-4) } :
               ReqState), script2)
      else
        some (({ st2 with
                 xfers := setOff st2.xfers i ((st2.xfers i).off + n) } : ReqState),
              script2)) = some (st1, script1)) :
    ReqInv HASHLEN hashdata blocksize hashes mask0 st1 ∧
      (∀ k, k ∈ st2.r → k ∈ st1.r) ∧ (∀ k, k ≠ i → k ∈ st2.w → k ∈ st1.w) := by
  split at h
  · rename_i heq
    simp only [Option.some.injEq, Prod.mk.injEq] at h
    obtain ⟨e, _⟩ := h
    subst e
    have hiw : i ∈ st2.w := by
      by_contra hc
      exact hnot hc heq
    refine ⟨?_, ?_, ?_⟩
    · refine ReqInv.move i hinv hiw rfl rfl ?_ ?_ rfl rfl rfl rfl
      · intro fd
        show (setOff (setOff st2.xfers i _) i (-4) fd).num = _
        rw [setOff_num, setOff_num]
      · intro fd hfd
        show (setOff (setOff st2.xfers i _) i (-4) fd).off = _
        rw [setOff_other _ _ _ fd hfd, setOff_other _ _ _ fd hfd]
    · intro k hk
      show k ∈ fdSet i st2.r
      rw [mem_fdSet]; exact Or.inr hk
    · intro k hk hkw
      show k ∈ fdClr i st2.w
      rw [mem_fdClr]; exact ⟨hkw, hk⟩
  · rename_i hne
    simp only [Option.some.injEq, Prod.mk.injEq] at h
    obtain ⟨e, _⟩ := h
    subst e
    refine ⟨?_, fun k hk => hk, fun k _ hk => hk⟩
    refine hinv.xfer rfl rfl (fun fd => setOff_num _ _ _ fd) ?_ rfl rfl rfl rfl
    intro fd hfd
    show (setOff st2.xfers i _ fd).off < _
    by_cases e : fd = i
    · subst e
      rw [setOff_same]
      exact lt_of_le_of_ne (hle hfd) hne
    · rw [setOff_other _ _ _ fd e]
      exact hinv.sending fd hfd

/-- One round of the send loop keeps the invariant; it takes no descriptor out of the
read set and none but `i` out of the write set. -/
theorem sendStep_inv {HASHLEN : Nat} {hashdata : List Nat → List Nat} {blocksize : Nat}
    {hashes mask0 : List Nat} (x : List Nat) (st : ReqState) (script : List Reply)
    (i : Nat) (st1 : ReqState) (script1 : List Reply)
    (hinv : ReqInv HASHLEN hashdata blocksize hashes mask0 st)
    (hx : i ∈ x → i ∈ st.w)
    (h : sendStep false HASHLEN x (some (st, script)) i = some (st1, script1)) :
    ReqInv HASHLEN hashdata blocksize hashes mask0 st1 ∧
      (∀ k, k ∈ st.r → k ∈ st1.r) ∧ (∀ k, k ≠ i → k ∈ st.w → k ∈ st1.w) := by
  unfold sendStep at h
  simp only at h
  split at h
  · simp only [Option.some.injEq, Prod.mk.injEq] at h
    obtain ⟨e, _⟩ := h
    subst e
    exact ⟨hinv, fun k hk => hk, fun k _ hk => hk⟩
  · rename_i hix
    have hiw : i ∈ st.w := hx (by simpa using hix)
    have hsend := hinv.sending i hiw
    split at h
    · rename_i n bs rest
      by_cases hg : ¬ writeallMay (sendLength HASHLEN (st.xfers i).off) n
      · simp [hg] at h
      · have hbound : (st.xfers i).off + n ≤ (HASHLEN : Int) := by
          unfold writeallMay sendLength at hg
          split at hg <;> omega
        by_cases hn : n ≤ 0
        · simp only [hg, hn, if_false, if_true] at h
          cases hcl : closeFd st i with
          | none => simp [hcl] at h
          | some u =>
            simp only [hcl] at h
            cases hrs : retrySend false { st with w := fdClr i st.w } rest i with
            | none => simp [hrs] at h
            | some p =>
              obtain ⟨st2, script2⟩ := p
              simp only [hrs] at h
              have hre := retrySend_some false _ rest i st2 script2 hrs
              have hir : i ∉ st.r := fun hr => hinv.disjoint i hr hiw
              obtain ⟨c1, c2, c3, c4, c5, c6⟩ :=
                @ReqInv.clear HASHLEN hashdata blocksize hashes mask0 st
                  { st with w := fdClr i st.w } i hinv (Or.inr hiw)
                  rfl rfl rfl rfl rfl
                  (by
                    show st.r = fdClr i st.r
                    unfold fdClr
                    rw [List.filter_eq_self.2]
                    intro a ha
                    simp only [ne_eq, decide_not, Bool.not_eq_true', decide_eq_false_iff_not]
                    intro e
                    exact hir (e ▸ ha))
                  rfl
              have hH : (-1 : Int) < (HASHLEN : Int) := by omega
              obtain ⟨r1, r2, r3, r4, r5, _, _⟩ :=
                retryOrGiveUp_inv _ rest i (-1) st2 script2 c1 c2 c3 c4 c5 c6 hH hre
              obtain ⟨t1, t2, t3⟩ := sendTail_inv st2 script2 i n st1 script1 r1
                (fun hw2 => by rw [r4 hw2]; omega)
                (fun hw2 => by
                  rw [r5 hw2]
                  show (st.xfers i).off + n ≠ _
                  omega)
                h
              refine ⟨t1, ?_, ?_⟩
              · intro k hk
                apply t2
                rw [r2]; exact hk
              · intro k hk hkw
                apply t3 k hk
                apply r3
                show k ∈ fdClr i st.w
                rw [mem_fdClr]; exact ⟨hkw, hk⟩
        · simp only [hg, hn, if_false, if_true] at h
          exact sendTail_inv st rest i n st1 script1 hinv (fun _ => hbound)
            (fun hc => absurd hiw hc) h
    · simp at h

theorem fdClr_not_mem (i : Nat) (set : List Nat) (h : i ∉ set) : fdClr i set = set := by
  unfold fdClr
  rw [List.filter_eq_self]
  intro a ha
  simp only [ne_eq, decide_not, Bool.not_eq_true', decide_eq_false_iff_not]
  intro e
  exact h (e ▸ ha)

/-- The statement `xfers[i].off += n` of the read loop with the two branches after it. -/
theorem readTail_inv {HASHLEN : Nat} {hashdata : List Nat → List Nat} {blocksize : Nat}
    {hashes mask0 : List Nat} (st2 : ReqState) (i : Nat) (n : Int) (st4 st5 : ReqState)
    (hinv : ReqInv HASHLEN hashdata blocksize hashes mask0 st2)
    (hneg : i ∈ st2.w → (st2.xfers i).off + n < 0)
    (hl : lengthCheck blocksize
      { st2 with xfers := setOff st2.xfers i ((st2.xfers i).off + n) } i = some st4)
    (hd : doneCheck HASHLEN hashdata blocksize hashes st4 i = some st5) :
    ReqInv HASHLEN hashdata blocksize hashes mask0 st5 ∧
      (∀ k, k ≠ i → k ∈ st2.r → k ∈ st5.r) := by
  have hinv3 : ReqInv HASHLEN hashdata blocksize hashes mask0
      { st2 with xfers := setOff st2.xfers i ((st2.xfers i).off + n) } := by
    refine hinv.xfer rfl rfl (fun fd => setOff_num _ _ _ fd) ?_ rfl rfl rfl rfl
    intro fd hfd
    show (setOff st2.xfers i _ fd).off < _
    by_cases e : fd = i
    · subst e
      rw [setOff_same]
      have := hneg hfd
      omega
    · rw [setOff_other _ _ _ fd e]
      exact hinv.sending fd hfd
  obtain ⟨l1, l2, _, l4, l5⟩ := lengthCheck_inv _ i st4 hinv3 (by
    intro hw
    show (setOff st2.xfers i _ i).off ≠ 0
    rw [setOff_same]
    have := hneg hw
    omega) hl
  obtain ⟨d1, d2, _, _⟩ := doneCheck_inv st4 i st5 l1 (by
    intro hw
    rw [l4] at hw
    rw [l5]
    show (setOff st2.xfers i _ i).off ≠ _
    rw [setOff_same]
    have := hneg hw
    omega) hd
  exact ⟨d1, fun k hk hkr => d2 k hk (l2 k hk hkr)⟩

/-- One round of the read loop keeps the invariant; it takes no descriptor but `i` out of
the read set. -/
theorem readStep_inv {HASHLEN : Nat} {hashdata : List Nat → List Nat} {blocksize : Nat}
    {hashes mask0 : List Nat} (s : List Nat) (st : ReqState) (script : List Reply)
    (i : Nat) (st1 : ReqState) (script1 : List Reply)
    (hinv : ReqInv HASHLEN hashdata blocksize hashes mask0 st)
    (hs : i ∈ s → i ∈ st.r)
    (h : readStep false HASHLEN hashdata blocksize hashes s (some (st, script)) i =
      some (st1, script1)) :
    ReqInv HASHLEN hashdata blocksize hashes mask0 st1 ∧
      (∀ k, k ≠ i → k ∈ st.r → k ∈ st1.r) := by
  unfold readStep at h
  simp only at h
  split at h
  · simp only [Option.some.injEq, Prod.mk.injEq] at h
    obtain ⟨e, _⟩ := h
    subst e
    exact ⟨hinv, fun k _ hk => hk⟩
  · rename_i hix
    have hir : i ∈ st.r := hs (by simpa using hix)
    split at h
    · rename_i n bytes rest
      cases hri : readInto false blocksize st i n bytes with
      | none => simp [hri] at h
      | some sta =>
        simp only [hri] at h
        obtain ⟨a1, a2, a3, a4⟩ := readInto_inv st i n bytes sta hinv hir hri
        have hira : i ∈ sta.r := by rw [a2]; exact hir
        have hiwa : i ∉ sta.w := a1.disjoint i hira
        by_cases hn : n ≤ 0
        · simp only [hn, if_true] at h
          cases hcl : closeFd sta i with
          | none => simp [hcl] at h
          | some u =>
            simp only [hcl] at h
            split at h
            · simp at h
            · rename_i st2 script2 hre
              obtain ⟨c1, c2, c3, c4, c5, c6⟩ :=
                @ReqInv.clear HASHLEN hashdata blocksize hashes mask0 sta
                  { sta with r := fdClr i sta.r } i a1 (Or.inl hira)
                  rfl rfl rfl rfl rfl rfl (fdClr_not_mem i sta.w hiwa).symm
              obtain ⟨r1, r2, r3, r4, r5, _, _⟩ :=
                retryOrGiveUp_inv _ rest i _ st2 script2 c1 c2 c3 c4 c5 c6 (by omega) hre
              cases hlc : lengthCheck blocksize
                  { st2 with xfers := setOff st2.xfers i ((st2.xfers i).off + n) } i with
              | none => simp [hlc] at h
              | some st4 =>
                simp only [hlc] at h
                cases hdc : doneCheck HASHLEN hashdata blocksize hashes st4 i with
                | none => simp [hdc] at h
                | some st5 =>
                  simp only [hdc, Option.some.injEq, Prod.mk.injEq] at h
                  obtain ⟨e, _⟩ := h
                  subst e
                  obtain ⟨t1, t2⟩ := readTail_inv st2 i n st4 st5 r1
                    (fun hw2 => by rw [r4 hw2]; omega) hlc hdc
                  refine ⟨t1, ?_⟩
                  intro k hk hkr
                  apply t2 k hk
                  rw [r2]
                  show k ∈ fdClr i sta.r
                  rw [mem_fdClr, a2]
                  exact ⟨hkr, hk⟩
        · simp only [hn, if_false] at h
          cases hlc : lengthCheck blocksize
              { sta with xfers := setOff sta.xfers i ((sta.xfers i).off + n) } i with
          | none => simp [hlc] at h
          | some st4 =>
            simp only [hlc] at h
            cases hdc : doneCheck HASHLEN hashdata blocksize hashes st4 i with
            | none => simp [hdc] at h
            | some st5 =>
              simp only [hdc, Option.some.injEq, Prod.mk.injEq] at h
              obtain ⟨e, _⟩ := h
              subst e
              obtain ⟨t1, t2⟩ := readTail_inv sta i n st4 st5 a1
                (fun hw2 => absurd hw2 hiwa) hlc hdc
              refine ⟨t1, ?_⟩
              intro k hk hkr
              apply t2 k hk
              rw [a2]; exact hkr
    · simp at h

theorem sendStep_none (flat : Bool) (HASHLEN : Nat) (x l : List Nat) :
    l.foldl (sendStep flat HASHLEN x) none = none := by
  induction l with
  | nil => rfl
  | cons a l ih => exact ih

theorem readStep_none (flat : Bool) (HASHLEN : Nat) (hashdata : List Nat → List Nat)
    (blocksize : Nat) (hashes s l : List Nat) :
    l.foldl (readStep flat HASHLEN hashdata blocksize hashes s) none = none := by
  induction l with
  | nil => rfl
  | cons a l ih => exact ih

/-- The send loop keeps the invariant and takes nothing out of the read set, when the
descriptors of `x` it has not come to yet are in the write set. -/
theorem sendLoop_inv {HASHLEN : Nat} {hashdata : List Nat → List Nat} {blocksize : Nat}
    {hashes mask0 : List Nat} (x l : List Nat) (hnd : l.Nodup) (st : ReqState)
    (script : List Reply) (st1 : ReqState) (script1 : List Reply)
    (hinv : ReqInv HASHLEN hashdata blocksize hashes mask0 st)
    (hx : ∀ k, k ∈ l → k ∈ x → k ∈ st.w)
    (h : l.foldl (sendStep false HASHLEN x) (some (st, script)) = some (st1, script1)) :
    ReqInv HASHLEN hashdata blocksize hashes mask0 st1 ∧ ∀ k, k ∈ st.r → k ∈ st1.r := by
  induction l generalizing st script with
  | nil =>
    simp only [List.foldl_nil, Option.some.injEq, Prod.mk.injEq] at h
    obtain ⟨e, _⟩ := h
    subst e
    exact ⟨hinv, fun k hk => hk⟩
  | cons i l ih =>
    rw [List.foldl_cons] at h
    cases hstep : sendStep false HASHLEN x (some (st, script)) i with
    | none =>
      rw [hstep, sendStep_none] at h
      simp at h
    | some p =>
      obtain ⟨st2, script2⟩ := p
      rw [hstep] at h
      have hnd2 := List.nodup_cons.1 hnd
      obtain ⟨s1, s2, s3⟩ := sendStep_inv x st script i st2 script2 hinv
        (hx i (List.mem_cons_self i l)) hstep
      obtain ⟨t1, t2⟩ := ih hnd2.2 st2 script2 s1
        (fun k hk hkx => s3 k (fun e => hnd2.1 (e ▸ hk))
          (hx k (List.mem_cons_of_mem i hk) hkx)) h
      exact ⟨t1, fun k hk => t2 k (s2 k hk)⟩

/-- The read loop keeps the invariant, when the descriptors of `s` it has not come to yet
are in the read set. -/
theorem readLoop_inv {HASHLEN : Nat} {hashdata : List Nat → List Nat} {blocksize : Nat}
    {hashes mask0 : List Nat} (s l : List Nat) (hnd : l.Nodup) (st : ReqState)
    (script : List Reply) (st1 : ReqState) (script1 : List Reply)
    (hinv : ReqInv HASHLEN hashdata blocksize hashes mask0 st)
    (hs : ∀ k, k ∈ l → k ∈ s → k ∈ st.r)
    (h : l.foldl (readStep false HASHLEN hashdata blocksize hashes s) (some (st, script)) =
      some (st1, script1)) :
    ReqInv HASHLEN hashdata blocksize hashes mask0 st1 := by
  induction l generalizing st script with
  | nil =>
    simp only [List.foldl_nil, Option.some.injEq, Prod.mk.injEq] at h
    obtain ⟨e, _⟩ := h
    subst e
    exact hinv
  | cons i l ih =>
    rw [List.foldl_cons] at h
    cases hstep : readStep false HASHLEN hashdata blocksize hashes s (some (st, script)) i with
    | none =>
      rw [hstep, readStep_none] at h
      simp at h
    | some p =>
      obtain ⟨st2, script2⟩ := p
      rw [hstep] at h
      have hnd2 := List.nodup_cons.1 hnd
      obtain ⟨s1, s2⟩ := readStep_inv s st script i st2 script2 hinv
        (hs i (List.mem_cons_self i l)) hstep
      exact ih hnd2.2 st2 script2 s1
        (fun k hk hks => s2 k (fun e => hnd2.1 (e ▸ hk))
          (hs k (List.mem_cons_of_mem i hk) hks)) h

theorem selectReady_sets (st : ReqState) (script : List Reply) (s x : List Nat)
    (script1 : List Reply) (h : selectReady st script = some (s, x, script1)) :
    (∀ k, k ∈ s → k ∈ st.r) ∧ (∀ k, k ∈ x → k ∈ st.w) := by
  unfold selectReady at h
  split at h
  · split at h
    · split at h
      · rename_i hall
        simp only [Option.some.injEq, Prod.mk.injEq] at h
        obtain ⟨e1, e2, _⟩ := h
        subst e1; subst e2
        simp only [Bool.and_eq_true, List.all_eq_true, decide_eq_true_eq] at hall
        exact hall
      · simp at h
    · simp at h
  · simp only [Option.some.injEq, Prod.mk.injEq] at h
    obtain ⟨e1, e2, _⟩ := h
    subst e1; subst e2
    exact ⟨fun k hk => hk, fun k hk => hk⟩

/-- The invariant holds at every return of the loop of `do_request`. -/
theorem requestLoop_inv {HASHLEN : Nat} {hashdata : List Nat → List Nat}
    {blocksize : Nat} {hashes mask0 : List Nat} (blockcount fuel : Nat) (st : ReqState)
    (script : List Reply) (final : ReqState)
    (hinv : ReqInv HASHLEN hashdata blocksize hashes mask0 st)
    (h : requestLoop false HASHLEN hashdata blockcount blocksize hashes fuel st script =
      some final) :
    ReqInv HASHLEN hashdata blocksize hashes mask0 final := by
  induction fuel generalizing st script with
  | zero => simp [requestLoop] at h
  | succ fuel ih =>
    unfold requestLoop at h
    split at h
    · simp at h
    · rename_i s x script1 hsel
      obtain ⟨hs, hx⟩ := selectReady_sets st script s x script1 hsel
      split at h
      · exact ih st script1 hinv h
      · split at h
        · simp at h
        · rename_i st1 script2 hcon
          obtain ⟨c1, c2, c3⟩ := connectNew_inv blockcount blockcount st script1 st1
            script2 hinv hcon
          split at h
          · simp at h
          · rename_i st2 script3 hsend
            obtain ⟨s1, s2⟩ := sendLoop_inv x (List.range st1.m) (List.nodup_range _) st1
              script2 st2 script3 c1 (fun k _ hkx => c3 k (hx k hkx)) hsend
            split at h
            · simp at h
            · rename_i st3 script4 hread
              have r1 := readLoop_inv s (List.range st2.m) (List.nodup_range _) st2
                script3 st3 script4 s1
                (fun k _ hks => s2 k (by rw [c2]; exact hs k hks)) hread
              split at h
              · simp only [Option.some.injEq] at h
                subst h
                exact r1
              · exact ih st3 script4 r1 h

theorem ReqInv.initial (HASHLEN : Nat) (hashdata : List Nat → List Nat) (blocksize : Nat)
    (hashes blocks mask : List Nat) (xfers : Nat → Xfer) :
    ReqInv HASHLEN hashdata blocksize hashes mask
      { blocks := blocks, mask := mask, xfers := xfers, r := [], w := [], m := 1,
        next := 0, active := 0, alerts := [] } := by
  refine ⟨?_, ?_, ?_, ?_, ?_, ?_, ?_⟩
  · intro p h0 h1
    exact absurd h0 h1
  · intro fd hfd
    rcases hfd with h | h <;> simp at h
  · intro fd1 fd2 hfd
    rcases hfd with h | h <;> simp at h
  · intro fd hfd
    rcases hfd with h | h <;> simp at h
  · intro fd hfd
    simp at hfd
  · intro fd hfd
    simp at hfd
  · intro p hp
    simp at hp

/-! ## `do_request`: the bound on the rounds of the loop -/

theorem takeSock_length (st : ReqState) (script : List Reply) (c : Nat)
    (script1 : List Reply) (h : takeSock st script = some (c, script1)) :
    script1.length + 1 = script.length := by
  unfold takeSock at h
  split at h
  · split at h
    · simp at h
    · simp only [Option.some.injEq, Prod.mk.injEq] at h
      obtain ⟨_, e⟩ := h
      subst e
      simp
  · simp at h

/-- The loop "make new connections" ends with nothing left to connect; it consumes an
answer whenever it changes `active`, and it keeps `next` within `blockcount`. -/
theorem connectNew_script (blockcount fuel : Nat) (st : ReqState) (script : List Reply)
    (st1 : ReqState) (script1 : List Reply) (hn : st.next ≤ blockcount)
    (h : connectNew blockcount fuel st script = some (st1, script1)) :
    st1.next ≤ blockcount ∧ script1.length ≤ script.length ∧
      (script1.length = script.length → st1.active = st.active) ∧
      ¬ (st1.active < CONCURRENCY ∧ st1.next < blockcount) := by
  induction fuel generalizing st script with
  | zero =>
    unfold connectNew at h
    split at h
    · simp at h
    · rename_i hc
      simp only [Option.some.injEq, Prod.mk.injEq] at h
      obtain ⟨e1, e2⟩ := h
      subst e1; subst e2
      exact ⟨hn, le_refl _, fun _ => rfl, hc⟩
  | succ fuel ih =>
    unfold connectNew at h
    split at h
    · rename_i hc
      split at h
      · have := ih { st with next := st.next + 1 } script (by show st.next + 1 ≤ _; omega) h
        exact this
      · cases hts : takeSock st script with
        | none => simp [hts] at h
        | some p =>
          obtain ⟨c, script2⟩ := p
          simp only [hts] at h
          have hl := takeSock_length st script c script2 hts
          obtain ⟨a1, a2, _, a4⟩ := ih _ script2 (by show st.next + 1 ≤ _; omega) h
          exact ⟨a1, by omega, fun e => by omega, a4⟩
    · rename_i hc
      simp only [Option.some.injEq, Prod.mk.injEq] at h
      obtain ⟨e1, e2⟩ := h
      subst e1; subst e2
      exact ⟨hn, le_refl _, fun _ => rfl, hc⟩

theorem retryOrGiveUp_script (st : ReqState) (script : List Reply) (i : Nat) (off : Int)
    (st1 : ReqState) (script1 : List Reply)
    (h : retryOrGiveUp st script i off = some (st1, script1)) :
    script1.length ≤ script.length ∧ st1.next = st.next := by
  unfold retryOrGiveUp at h
  dsimp only at h
  split at h
  · cases hts : takeSock { st with xfers := bumpTries st.xfers i } script with
    | none => simp [hts] at h
    | some p =>
      obtain ⟨c, script2⟩ := p
      simp only [hts, Option.some.injEq, Prod.mk.injEq] at h
      obtain ⟨e1, e2⟩ := h
      subst e1; subst e2
      have hl := takeSock_length _ script c script2 hts
      exact ⟨by omega, rfl⟩
  · simp only [Option.some.injEq, Prod.mk.injEq] at h
    obtain ⟨e1, e2⟩ := h
    subst e1; subst e2
    exact ⟨le_refl _, rfl⟩

/-- One round of the send loop leaves `next` alone; it changes the state only when it
consumes an answer. -/
theorem sendStep_script (flat : Bool) (HASHLEN : Nat) (x : List Nat) (st : ReqState)
    (script : List Reply) (i : Nat) (st1 : ReqState) (script1 : List Reply)
    (h : sendStep flat HASHLEN x (some (st, script)) i = some (st1, script1)) :
    script1.length ≤ script.length ∧ st1.next = st.next ∧
      (script1.length = script.length → st1 = st) := by
  unfold sendStep at h
  simp only at h
  split at h
  · simp only [Option.some.injEq, Prod.mk.injEq] at h
    obtain ⟨e1, e2⟩ := h
    subst e1; subst e2
    exact ⟨le_refl _, rfl, fun _ => rfl⟩
  · split at h
    · rename_i n bs rest
      have key : ∀ (st2 : ReqState) (script2 : List Reply),
          script2.length ≤ rest.length → st2.next = st.next →
          (if (st2.xfers i).off + n = (HASHLEN : Int) then
            some (({ st2 with
                     w := fdClr i st2.w
                     r := fdSet i st2.r
                     xfers := setOff (setOff st2.xfers i ((st2.xfers i).off + n)) i (-4) } :
                   ReqState), script2)
          else
            some (({ st2 with
                     xfers := setOff st2.xfers i ((st2.xfers i).off + n) } : ReqState),
                  script2)) = some (st1, script1) →
          script1.length ≤ (Reply.moved n bs :: rest).length ∧ st1.next = st.next ∧
            (script1.length = (Reply.moved n bs :: rest).length → st1 = st) := by
        intro st2 script2 hl hnx hh
        split at hh
        · simp only [Option.some.injEq, Prod.mk.injEq] at hh
          obtain ⟨e1, e2⟩ := hh
          subst e1; subst e2
          simp only [List.length_cons]
          exact ⟨by omega, hnx, fun e => by omega⟩
        · simp only [Option.some.injEq, Prod.mk.injEq] at hh
          obtain ⟨e1, e2⟩ := hh
          subst e1; subst e2
          simp only [List.length_cons]
          exact ⟨by omega, hnx, fun e => by omega⟩
      by_cases hg : ¬ writeallMay (sendLength HASHLEN (st.xfers i).off) n
      · simp [hg] at h
      · by_cases hn : n ≤ 0
        · simp only [hg, hn, if_false, if_true] at h
          cases hcl : closeFd st i with
          | none => simp [hcl] at h
          | some u =>
            simp only [hcl] at h
            cases hrs : retrySend flat { st with w := fdClr i st.w } rest i with
            | none => simp [hrs] at h
            | some p =>
              obtain ⟨st2, script2⟩ := p
              simp only [hrs] at h
              have hre := retrySend_some flat _ rest i st2 script2 hrs
              obtain ⟨r1, r2⟩ := retryOrGiveUp_script _ rest i (-1) st2 script2 hre
              exact key st2 script2 r1 r2 h
        · simp only [hg, hn, if_false, if_true] at h
          exact key st rest (le_refl _) rfl h
    · simp at h

theorem sendLoop_script (flat : Bool) (HASHLEN : Nat) (x l : List Nat) (st : ReqState)
    (script : List Reply) (st1 : ReqState) (script1 : List Reply)
    (h : l.foldl (sendStep flat HASHLEN x) (some (st, script)) = some (st1, script1)) :
    script1.length ≤ script.length ∧ st1.next = st.next ∧
      (script1.length = script.length → st1 = st) := by
  induction l generalizing st script with
  | nil =>
    simp only [List.foldl_nil, Option.some.injEq, Prod.mk.injEq] at h
    obtain ⟨e1, e2⟩ := h
    subst e1; subst e2
    exact ⟨le_refl _, rfl, fun _ => rfl⟩
  | cons i l ih =>
    rw [List.foldl_cons] at h
    cases hstep : sendStep flat HASHLEN x (some (st, script)) i with
    | none =>
      rw [hstep, sendStep_none] at h
      simp at h
    | some p =>
      obtain ⟨st2, script2⟩ := p
      rw [hstep] at h
      obtain ⟨a1, a2, a3⟩ := sendStep_script flat HASHLEN x st script i st2 script2 hstep
      obtain ⟨b1, b2, b3⟩ := ih st2 script2 h
      refine ⟨by omega, by rw [b2, a2], fun e => ?_⟩
      have e2 : script2.length = script.length := by omega
      rw [b3 (by omega), a3 e2]

theorem readInto_next (flat : Bool) (blocksize : Nat) (st : ReqState) (i : Nat) (n : Int)
    (bytes : List Nat) (st1 : ReqState)
    (h : readInto flat blocksize st i n bytes = some st1) : st1.next = st.next := by
  unfold readInto at h
  dsimp only at h
  split_ifs at h <;>
    first
    | (simp at h; done)
    | (simp only [Option.some.injEq] at h; subst h; rfl)

theorem lengthCheck_next (blocksize : Nat) (st : ReqState) (i : Nat) (st1 : ReqState)
    (h : lengthCheck blocksize st i = some st1) : st1.next = st.next := by
  unfold lengthCheck at h
  split at h
  · split at h
    · simp at h
    · simp only [Option.some.injEq] at h
      subst h; rfl
  · simp only [Option.some.injEq] at h
    subst h; rfl

theorem doneCheck_next (HASHLEN : Nat) (hashdata : List Nat → List Nat) (blocksize : Nat)
    (hashes : List Nat) (st : ReqState) (i : Nat) (st1 : ReqState)
    (h : doneCheck HASHLEN hashdata blocksize hashes st i = some st1) :
    st1.next = st.next := by
  unfold doneCheck at h
  split at h
  · dsimp only at h
    split at h
    · simp at h
    · simp only [Option.some.injEq] at h
      subst h
      split <;> rfl
  · simp only [Option.some.injEq] at h
    subst h; rfl

/-- One round of the read loop leaves `next` alone; it changes the state only when it
consumes an answer. -/
theorem readStep_script (flat : Bool) (HASHLEN : Nat) (hashdata : List Nat → List Nat)
    (blocksize : Nat) (hashes s : List Nat) (st : ReqState) (script : List Reply) (i : Nat)
    (st1 : ReqState) (script1 : List Reply)
    (h : readStep flat HASHLEN hashdata blocksize hashes s (some (st, script)) i =
      some (st1, script1)) :
    script1.length ≤ script.length ∧ st1.next = st.next ∧
      (script1.length = script.length → st1 = st) := by
  unfold readStep at h
  simp only at h
  split at h
  · simp only [Option.some.injEq, Prod.mk.injEq] at h
    obtain ⟨e1, e2⟩ := h
    subst e1; subst e2
    exact ⟨le_refl _, rfl, fun _ => rfl⟩
  · split at h
    · rename_i n bytes rest
      have key : ∀ (st2 : ReqState) (script2 : List Reply),
          script2.length ≤ rest.length → st2.next = st.next →
          (match lengthCheck blocksize
              { st2 with xfers := setOff st2.xfers i ((st2.xfers i).off + n) } i with
            | none => none
            | some st4 =>
              match doneCheck HASHLEN hashdata blocksize hashes st4 i with
              | none => none
              | some st5 => some (st5, script2)) = some (st1, script1) →
          script1.length ≤ (Reply.moved n bytes :: rest).length ∧ st1.next = st.next ∧
            (script1.length = (Reply.moved n bytes :: rest).length → st1 = st) := by
        intro st2 script2 hl hnx hh
        split at hh
        · simp at hh
        · rename_i st4 hlc
          split at hh
          · simp at hh
          · rename_i st5 hdc
            simp only [Option.some.injEq, Prod.mk.injEq] at hh
            obtain ⟨e1, e2⟩ := hh
            subst e1; subst e2
            have h4 := lengthCheck_next blocksize _ i st4 hlc
            have h5 := doneCheck_next HASHLEN hashdata blocksize hashes st4 i _ hdc
            simp only [List.length_cons]
            refine ⟨by omega, ?_, fun e => by omega⟩
            rw [h5, h4]
            exact hnx
      cases hri : readInto flat blocksize st i n bytes with
      | none => simp [hri] at h
      | some sta =>
        simp only [hri] at h
        have hna := readInto_next flat blocksize st i n bytes sta hri
        by_cases hn : n ≤ 0
        · simp only [hn, if_true] at h
          cases hcl : closeFd sta i with
          | none => simp [hcl] at h
          | some u =>
            simp only [hcl] at h
            split at h
            · simp at h
            · rename_i st2 script2 hre
              obtain ⟨r1, r2⟩ := retryOrGiveUp_script _ rest i _ st2 script2 hre
              exact key st2 script2 r1 (by rw [r2]; exact hna) h
        · simp only [hn, if_false] at h
          exact key sta rest (le_refl _) hna h
    · simp at h

theorem readLoop_script (flat : Bool) (HASHLEN : Nat) (hashdata : List Nat → List Nat)
    (blocksize : Nat) (hashes s l : List Nat) (st : ReqState) (script : List Reply)
    (st1 : ReqState) (script1 : List Reply)
    (h : l.foldl (readStep flat HASHLEN hashdata blocksize hashes s) (some (st, script)) =
      some (st1, script1)) :
    script1.length ≤ script.length ∧ st1.next = st.next ∧
      (script1.length = script.length → st1 = st) := by
  induction l generalizing st script with
  | nil =>
    simp only [List.foldl_nil, Option.some.injEq, Prod.mk.injEq] at h
    obtain ⟨e1, e2⟩ := h
    subst e1; subst e2
    exact ⟨le_refl _, rfl, fun _ => rfl⟩
  | cons i l ih =>
    rw [List.foldl_cons] at h
    cases hstep : readStep flat HASHLEN hashdata blocksize hashes s (some (st, script)) i with
    | none =>
      rw [hstep, readStep_none] at h
      simp at h
    | some p =>
      obtain ⟨st2, script2⟩ := p
      rw [hstep] at h
      obtain ⟨a1, a2, a3⟩ :=
        readStep_script flat HASHLEN hashdata blocksize hashes s st script i st2 script2 hstep
      obtain ⟨b1, b2, b3⟩ := ih st2 script2 h
      refine ⟨by omega, by rw [b2, a2], fun e => ?_⟩
      have e2 : script2.length = script.length := by omega
      rw [b3 (by omega), a3 e2]

theorem selectReady_script (st : ReqState) (script : List Reply) (s x : List Nat)
    (script1 : List Reply) (h : selectReady st script = some (s, x, script1)) :
    (st.active ≠ 0 → script1.length + 1 = script.length) ∧
      (st.active = 0 → script1 = script) := by
  unfold selectReady at h
  split at h
  · rename_i hact
    split at h
    · split at h
      · simp only [Option.some.injEq, Prod.mk.injEq] at h
        obtain ⟨_, _, e⟩ := h
        subst e
        exact ⟨fun _ => by simp, fun e => absurd e hact⟩
      · simp at h
    · simp at h
  · rename_i hact
    simp only [Option.some.injEq, Prod.mk.injEq] at h
    obtain ⟨_, _, e⟩ := h
    subst e
    exact ⟨fun e => absurd e hact, fun _ => rfl⟩

/-- A round of the loop of `do_request` either consumes an answer or is the last one:
with more rounds allowed than there are answers, one round more changes nothing. -/
theorem requestLoop_fuel_succ (flat : Bool) (HASHLEN : Nat) (hashdata : List Nat → List Nat)
    (blockcount blocksize : Nat) (hashes : List Nat) (fuel : Nat) (st : ReqState)
    (script : List Reply) (hn : st.next ≤ blockcount) (hf : script.length + 1 ≤ fuel) :
    requestLoop flat HASHLEN hashdata blockcount blocksize hashes (fuel + 1) st script =
      requestLoop flat HASHLEN hashdata blockcount blocksize hashes fuel st script := by
  induction fuel generalizing st script with
  | zero => omega
  | succ k ih =>
    rw [requestLoop]
    conv_rhs => rw [requestLoop]
    cases hsel : selectReady st script with
    | none => rfl
    | some p =>
      obtain ⟨s, x, script1⟩ := p
      obtain ⟨q1, q2⟩ := selectReady_script st script s x script1 hsel
      simp only
      by_cases hidle : st.active ≠ 0 ∧ s.length + x.length = 0
      · rw [if_pos hidle, if_pos hidle]
        have := q1 hidle.1
        exact ih st script1 hn (by omega)
      · rw [if_neg hidle, if_neg hidle]
        cases hcon : connectNew blockcount blockcount st script1 with
        | none => rfl
        | some p1 =>
          obtain ⟨st1, script2⟩ := p1
          obtain ⟨c1, c2, c3, c4⟩ :=
            connectNew_script blockcount blockcount st script1 st1 script2 hn hcon
          simp only
          cases hsend : (List.range st1.m).foldl (sendStep flat HASHLEN x)
              (some (st1, script2)) with
          | none => rfl
          | some p2 =>
            obtain ⟨st2, script3⟩ := p2
            obtain ⟨s1, s2, s3⟩ :=
              sendLoop_script flat HASHLEN x (List.range st1.m) st1 script2 st2 script3 hsend
            simp only
            cases hread : (List.range st2.m).foldl
                (readStep flat HASHLEN hashdata blocksize hashes s)
                (some (st2, script3)) with
            | none => rfl
            | some p3 =>
              obtain ⟨st3, script4⟩ := p3
              obtain ⟨r1, r2, r3⟩ := readLoop_script flat HASHLEN hashdata blocksize hashes
                s (List.range st2.m) st2 script3 st3 script4 hread
              simp only
              by_cases hend : st3.active = 0 ∧ st3.next = blockcount
              · rw [if_pos hend, if_pos hend]
              · rw [if_neg hend, if_neg hend]
                have hnext : st3.next ≤ blockcount := by rw [r2, s2]; exact c1
                have hless : script4.length < script.length := by
                  by_contra hge
                  have hact : st.active = 0 := by
                    by_contra ha
                    have := q1 ha
                    omega
                  have e1 := q2 hact
                  subst e1
                  have e32 := r3 (by omega)
                  have e21 := s3 (by omega)
                  have ea := c3 (by omega)
                  apply hend
                  rw [e32, e21, ea, hact]
                  refine ⟨rfl, ?_⟩
                  have hz : (0 : Int) < CONCURRENCY := by decide
                  rw [ea, hact] at c4
                  by_contra hne
                  exact c4 ⟨hz, by omega⟩
                exact ih st3 script4 hnext (by omega)

theorem requestLoop_fuel_enough (flat : Bool) (HASHLEN : Nat)
    (hashdata : List Nat → List Nat) (blockcount blocksize : Nat) (hashes : List Nat)
    (extra : Nat) (st : ReqState) (script : List Reply) (hn : st.next ≤ blockcount) :
    requestLoop flat HASHLEN hashdata blockcount blocksize hashes
        (script.length + 2 + extra) st script =
      requestLoop flat HASHLEN hashdata blockcount blocksize hashes
        (script.length + 2) st script := by
  induction extra with
  | zero => rfl
  | succ e ih =>
    rw [← ih]
    exact requestLoop_fuel_succ flat HASHLEN hashdata blockcount blocksize hashes
      (script.length + 2 + e) st script hn (by omega)

/-- The bound on the rounds in `do_request` loses no run: with any number of rounds more
the loop gives the same result. -/
theorem do_request_rounds_enough (flat : Bool) (HASHLEN : Nat)
    (hashdata : List Nat → List Nat) (blocks mask : List Nat) (blockcount blocksize : Nat)
    (hashes : List Nat) (xfers : Nat → Xfer) (script : List Reply) (extra : Nat) :
    (requestLoop flat HASHLEN hashdata blockcount blocksize hashes
        (script.length + 2 + extra)
        { blocks := blocks, mask := mask, xfers := xfers, r := [], w := [], m := 1,
          next := 0, active := 0, alerts := [] }
        script).map (fun st => Downloaded.mk st.blocks st.mask st.alerts) =
      do_request flat HASHLEN hashdata blocks mask blockcount blocksize hashes xfers
        script := by
  rw [requestLoop_fuel_enough flat HASHLEN hashdata blockcount blocksize hashes extra _
    script (Nat.zero_le _)]
  unfold do_request
  split <;> simp_all

/-! ## `do_request`: what the mask says on return -/

/-- For every run of `do_request` that returns without a store outside the field `dlen`,
and every position `p` missing at entry: `mask[p]` is nonzero on return only if it is 1
and the `blocksize` bytes stored for block `p` hash to `hashes[p]`; and a block for which
an alert was raised (its bytes failed the hash comparison, or its declared length differs
from `blocksize`) has `mask[p] = 0` on return. -/
theorem do_request_mask_set_only_after_hash_check (HASHLEN : Nat)
    (hashdata : List Nat → List Nat) (blocks mask : List Nat) (blockcount blocksize : Nat)
    (hashes : List Nat) (xfers : Nat → Xfer) (script : List Reply) (final : Downloaded)
    (h : do_request false HASHLEN hashdata blocks mask blockcount blocksize hashes xfers
      script = some final) :
    ∀ p, mask.getD p 0 = 0 →
      (final.mask.getD p 0 ≠ 0 →
        final.mask.getD p 0 = 1 ∧
        memcmp (hashes.drop (p * HASHLEN)) (hashdata (blockAt final.blocks blocksize p))
          HASHLEN = 0) ∧
      (p ∈ final.alerts → final.mask.getD p 0 = 0) := by
  intro p hp
  unfold do_request at h
  split at h
  · simp at h
  · rename_i st hloop
    simp only [Option.some.injEq] at h
    subst h
    have hinv := requestLoop_inv blockcount _ _ script st
      (ReqInv.initial HASHLEN hashdata blocksize hashes blocks mask xfers) hloop
    exact ⟨fun h1 => hinv.verified p hp h1, fun h1 => (hinv.alerted p h1).1⟩

theorem do_request_mask_set_only_after_hash_check_witness :
    do_request false 1 sumHash [0, 0] [0] 1 2 [11] xfersZero demoReplies =
        some { blocks := [5, 6], mask := [1], alerts := [] } ∧
      ∀ p, [0].getD p 0 = 0 →
        (([1] : List Nat).getD p 0 ≠ 0 →
          ([1] : List Nat).getD p 0 = 1 ∧
          memcmp ([11].drop (p * 1)) (sumHash (blockAt [5, 6] 2 p)) 1 = 0) ∧
        (p ∈ ([] : List Nat) → ([1] : List Nat).getD p 0 = 0) :=
  ⟨by decide, do_request_mask_set_only_after_hash_check 1 sumHash [0, 0] [0] 1 2 [11]
    xfersZero demoReplies { blocks := [5, 6], mask := [1], alerts := [] } (by decide)⟩

/-- C13 on a length that comes in two pieces: two blocks `[5, 6]` and `[7, 8]` with
hashes 11 and 15 are downloaded on descriptors 3 and 4, both missing at entry. The first
`readall` for the length of block 0 returns one byte, so `off` is -3 and the next
`readall` stores the other three bytes at `&(&xfers[3].dlen)[1]`, which is
`xfers[4].num`: the transfer on descriptor 4 is now for block 0. Block 0 arrives and
verifies, `mask[0] = 1`; then the bytes of block 1 are stored over it and fail the
comparison with `hashes[0]`. The function returns with `mask[0] = 1`, an alert for block
0, and bytes at block 0 that do not hash to `hashes[0]`. -/
theorem do_request_split_length_overwrites_verified_block :
    do_request true 1 sumHash [0, 0, 0, 0] [0, 0] 2 2 [11, 15] xfersZero
        splitLengthReplies =
      some { blocks := [7, 8, 0, 0], mask := [1, 0], alerts := [0] } ∧
    memcmp ([11, 15].drop (0 * 1)) (sumHash (blockAt [7, 8, 0, 0] 2 0)) 1 ≠ 0 ∧
    do_request false 1 sumHash [0, 0, 0, 0] [0, 0] 2 2 [11, 15] xfersZero
        splitLengthReplies = none := by
  decide

end Anarcast
